import Mathlib

/-!
Verification development for the mini-yaml library (src/yaml/Yaml.cpp).

The C++ source is shallowly embedded: `std::string` becomes `List Char`,
`std::map<K, Node*>` becomes a sorted association list, the node tree
becomes a nested inductive type, exceptions become `Except`, and the
imperative loops become structural or fuel-bounded recursions that mirror
the source line by line.
-/

namespace MiniYaml

/-- Byte strings (`std::string`) are modelled as lists of characters. -/
abbrev Str := List Char

/-- Lexicographic comparison of byte strings, as `std::string::operator<`. -/
def strLtB : Str → Str → Bool
  | [], [] => false
  | [], _ :: _ => true
  | _ :: _, [] => false
  | a :: as, b :: bs =>
    if a.val < b.val then true
    else if b.val < a.val then false
    else strLtB as bs

/-! ## The node tree data model

`Yaml::Node` owns one of four implementations (`NodeImp::m_Type` plus
`TypeImp`): None, `ScalarImp` (a string), `SequenceImp`
(`std::map<size_t, Node*>`), `MapImp` (`std::map<std::string, Node*>`).
The two `std::map`s are modelled as association lists kept sorted by key,
which is the invariant `std::map` maintains. -/

inductive Node where
  | nul : Node
  | scalar (s : Str) : Node
  | seq (es : List (Nat × Node)) : Node
  | map (es : List (Str × Node)) : Node

/-- `Node::eType`. -/
inductive NType where
  | noneT | scalarT | seqT | mapT
deriving DecidableEq, Repr

/-- `Node::Type()`. -/
def Node.kind : Node → NType
  | .nul => .noneT
  | .scalar _ => .scalarT
  | .seq _ => .seqT
  | .map _ => .mapT

/-! ### `std::map<size_t, Node*>` primitives (SequenceImp::m_Sequence) -/

/-- `m_Sequence.find(k)` on the sorted entry list. -/
def natMapFind : List (Nat × Node) → Nat → Option Node
  | [], _ => none
  | (k', v') :: rest, k => if k = k' then some v' else natMapFind rest k

/-- `m_Sequence[k] = v`: insert-or-assign, keeping the entries sorted. -/
def natMapAssign : List (Nat × Node) → Nat → Node → List (Nat × Node)
  | [], k, v => [(k, v)]
  | (k', v') :: rest, k, v =>
    if k < k' then (k, v) :: (k', v') :: rest
    else if k = k' then (k, v) :: rest
    else (k', v') :: natMapAssign rest k v

/-- `m_Sequence.insert({k, v})`: insert only if the key is absent. -/
def natMapInsertNew : List (Nat × Node) → Nat → Node → List (Nat × Node)
  | [], k, v => [(k, v)]
  | (k', v') :: rest, k, v =>
    if k < k' then (k, v) :: (k', v') :: rest
    else if k = k' then (k', v') :: rest
    else (k', v') :: natMapInsertNew rest k v

/-- `m_Sequence.erase(k)`. -/
def natMapErase : List (Nat × Node) → Nat → List (Nat × Node)
  | [], _ => []
  | (k', v') :: rest, k => if k = k' then rest else (k', v') :: natMapErase rest k

/-- Key of `--m_Sequence.end()` (the greatest key, on a sorted list). -/
def natMapLastKey : List (Nat × Node) → Option Nat
  | [] => none
  | [(k, _)] => some k
  | _ :: rest => natMapLastKey rest

/-- `++it`: the smallest key strictly greater than `k` (sorted list). -/
def natMapSuccKey : List (Nat × Node) → Nat → Option Nat
  | [], _ => none
  | (k', _) :: rest, k => if k < k' then some k' else natMapSuccKey rest k

/-! ### `std::map<std::string, Node*>` primitives (MapImp::m_Map) -/

/-- `m_Map.find(k)`. -/
def strMapFind : List (Str × Node) → Str → Option Node
  | [], _ => none
  | (k', v') :: rest, k => if k = k' then some v' else strMapFind rest k

/-- `m_Map.insert({k, v})`: insert only if the key is absent (sorted). -/
def strMapInsertNew : List (Str × Node) → Str → Node → List (Str × Node)
  | [], k, v => [(k, v)]
  | (k', v') :: rest, k, v =>
    if strLtB k k' then (k, v) :: (k', v') :: rest
    else if k = k' then (k', v') :: rest
    else (k', v') :: strMapInsertNew rest k v

/-- Overwrite the child stored under an existing key. -/
def strMapAssign : List (Str × Node) → Str → Node → List (Str × Node)
  | [], k, v => [(k, v)]
  | (k', v') :: rest, k, v =>
    if strLtB k k' then (k, v) :: (k', v') :: rest
    else if k = k' then (k, v) :: rest
    else (k', v') :: strMapAssign rest k v

/-- `m_Map.erase(k)`. -/
def strMapErase : List (Str × Node) → Str → List (Str × Node)
  | [], _ => []
  | (k', v') :: rest, k => if k = k' then rest else (k', v') :: strMapErase rest k

/-! ### Node operations (`Yaml.cpp` Node class) -/

/-- `NodeImp::Clear()`. -/
def Node.clearN (_ : Node) : Node := .nul

/-- `NodeImp::InitSequence()`: keep an existing sequence, else reset. -/
def initSequenceN : Node → Node
  | .seq es => .seq es
  | _ => .seq []

/-- `NodeImp::InitMap()`. -/
def initMapN : Node → Node
  | .map es => .map es
  | _ => .map []

/-- `NodeImp::InitScalar()`. -/
def initScalarN : Node → Node
  | .scalar s => .scalar s
  | _ => .scalar []

/-- `Node::Size()`. -/
def Node.sizeN : Node → Nat
  | .nul => 0
  | .scalar _ => 0
  | .seq es => es.length
  | .map es => es.length

/-- `Node::AsString()` (the `GetData` of the current implementation). -/
def Node.asStr : Node → Str
  | .scalar s => s
  | _ => []

/-- `Node::operator=(const std::string&)`: `InitScalar` + `SetData`. -/
def Node.assignStr (n : Node) (s : Str) : Node :=
  match initScalarN n with
  | .scalar _ => .scalar s
  | other => other

/-- `SequenceImp::PushBack()`: new index is 0 on an empty map, else the
greatest key plus one; returns the index and the updated entry list. -/
def seqPushBackE (es : List (Nat × Node)) : Nat × List (Nat × Node) :=
  let idx := match natMapLastKey es with
    | none => 0
    | some l => l + 1
  (idx, natMapInsertNew es idx Node.nul)

/-- `Node::PushBack()`: `InitSequence` then `SequenceImp::PushBack`;
returns the index of the new child and the updated node. -/
def Node.pushBackOp (n : Node) : Nat × Node :=
  match initSequenceN n with
  | .seq es =>
    let (idx, es') := seqPushBackE es
    (idx, .seq es')
  | other => (0, other)

/-- Write a child back through the reference returned by a lookup. -/
def Node.seqSetAt (n : Node) (i : Nat) (c : Node) : Node :=
  match n with
  | .seq es => .seq (natMapAssign es i c)
  | other => other

/-- Write a map child back through the reference returned by a lookup. -/
def Node.mapSetAt (n : Node) (k : Str) (c : Node) : Node :=
  match n with
  | .map es => .map (strMapAssign es k c)
  | other => other

/-- `Node::operator[](size_t)`: `InitSequence`, then the lookup; a miss
returns the freshly cleared global sentinel `g_NoneNode`.  The result is
the pair (updated node, node read through the returned reference). -/
def Node.getIndexOp (n : Node) (i : Nat) : Node × Node :=
  match initSequenceN n with
  | .seq es =>
    match natMapFind es i with
    | some c => (.seq es, c)
    | none => (.seq es, .nul)
  | other => (other, .nul)

/-- `MapImp::GetNode(key)`: return the existing child, or insert and
return a fresh None child.  Result: (child read, updated entries). -/
def mapGetNodeE (es : List (Str × Node)) (k : Str) : Node × List (Str × Node) :=
  match strMapFind es k with
  | some c => (c, es)
  | none => (Node.nul, strMapInsertNew es k Node.nul)

/-- `Node::operator[](const std::string&)`: `InitMap` + `MapImp::GetNode`.
Result: (child read, updated node). -/
def Node.getKeyOp (n : Node) (k : Str) : Node × Node :=
  match initMapN n with
  | .map es =>
    let (c, es') := mapGetNodeE es k
    (c, .map es')
  | other => (.nul, other)

/-- `Node::Erase(size_t)`: a no-op unless the node is a sequence;
`SequenceImp::Erase` removes the entry if the index is present. -/
def Node.eraseIndexOp (n : Node) (i : Nat) : Node :=
  match n with
  | .seq es =>
    match natMapFind es i with
    | none => .seq es
    | some _ => .seq (natMapErase es i)
  | other => other

/-- `Node::Erase(const std::string&)`: a no-op unless the node is a map. -/
def Node.eraseKeyOp (n : Node) (k : Str) : Node :=
  match n with
  | .map es =>
    match strMapFind es k with
    | none => .map es
    | some _ => .map (strMapErase es k)
  | other => other

/-! ### `SequenceImp::PushFront()`

The source iterates the sequence map from the beginning while writing
`m_Sequence[it->first + 1] = it->second` on every step; `++it` then moves
to the in-order successor inside the updated map.  The loop is modelled
with explicit fuel, since on a nonempty map it can run forever. -/

/-- One pass of the `PushFront` loop: the iterator is the current key
(`none` = past the end). -/
def pushFrontGo : Nat → List (Nat × Node) → Option Nat → Option (List (Nat × Node))
  | 0, _, _ => none
  | _ + 1, m, none => some m
  | fuel + 1, m, some k =>
    let v := (natMapFind m k).getD Node.nul
    let m' := natMapAssign m (k + 1) v
    pushFrontGo fuel m' (natMapSuccKey m' k)

/-- `SequenceImp::PushFront()` with fuel: run the shifting loop, then
`m_Sequence.insert({0, new Node})`.  `none` means the loop has not
finished within `fuel` steps. -/
def pushFrontFuel (fuel : Nat) (es : List (Nat × Node)) : Option (List (Nat × Node)) :=
  (pushFrontGo fuel es (es.head?.map Prod.fst)).map
    (fun m => natMapInsertNew m 0 Node.nul)

/-- `Node::PushFront()`: `InitSequence` + `SequenceImp::PushFront`. -/
def Node.pushFrontOp (fuel : Nat) (n : Node) : Option Node :=
  match initSequenceN n with
  | .seq es => (pushFrontFuel fuel es).map Node.seq
  | other => some other

/-- Termination of `PushFront` on a given sequence state, in the fuel
model: some amount of fuel makes the shifting loop finish. -/
def PushFrontTerminates (es : List (Nat × Node)) : Prop :=
  ∃ fuel m, pushFrontFuel fuel es = some m

/-! ### `CopyNode` and deep-copy assignment -/

mutual

/-- `CopyNode(from, to)` of the source: returns the updated `to`. -/
def copyInto : Node → Node → Node
  | Node.nul, t => t
  | Node.scalar s, t => t.assignStr s
  | Node.seq es, t => copySeqList es t
  | Node.map es, t => copyMapList es t

/-- The sequence branch of `CopyNode`: per child, `to.PushBack()` then a
recursive copy into the fresh node. -/
def copySeqList : List (Nat × Node) → Node → Node
  | [], t => t
  | (_, c) :: rest, t =>
    let (idx, t1) := t.pushBackOp
    let child := copyInto c Node.nul
    copySeqList rest (t1.seqSetAt idx child)

/-- The map branch of `CopyNode`: per entry, `to[key]` then a recursive
copy into the returned child. -/
def copyMapList : List (Str × Node) → Node → Node
  | [], t => t
  | (k, c) :: rest, t =>
    let (child0, t1) := t.getKeyOp k
    let child := copyInto c child0
    copyMapList rest (t1.mapSetAt k child)

end

/-- `Node::operator=(const Node&)` for two distinct nodes: `Clear()` on
the target, then `CopyNode(source, target)`. -/
def Node.assignNode (target source : Node) : Node :=
  copyInto source target.clearN

/-- `Node::operator=(const Node&)` when the argument aliases the target
(`n = n`): `Clear()` resets the node, after which `CopyNode` reads the
already-cleared value through the aliased reference. -/
def Node.assignSelf (n : Node) : Node :=
  copyInto n.clearN n.clearN

/-! ### Structural equality of trees -/

mutual

/-- Structural equality: equal kind at every position, equal scalar
payloads, and (for sequences and maps) equal entry lists — same keys in
iteration order with structurally equal children. -/
def structEqB : Node → Node → Bool
  | Node.nul, Node.nul => true
  | Node.scalar a, Node.scalar b => a = b
  | Node.seq a, Node.seq b => seqEntriesEqB a b
  | Node.map a, Node.map b => mapEntriesEqB a b
  | _, _ => false

def seqEntriesEqB : List (Nat × Node) → List (Nat × Node) → Bool
  | [], [] => true
  | (i, a) :: as, (j, b) :: bs => i = j && structEqB a b && seqEntriesEqB as bs
  | _, _ => false

def mapEntriesEqB : List (Str × Node) → List (Str × Node) → Bool
  | [], [] => true
  | (i, a) :: as, (j, b) :: bs => i = j && structEqB a b && mapEntriesEqB as bs
  | _, _ => false

end

/-! ## Quote scanning (`FindQuote`, `FindNotCited`)

`FindQuote` scans with `find_first_of("\"'")` from a search position,
keeping a `foundStart` flag; only an unescaped `"` (position 0 or the
previous character is not a backslash) opens or closes a span — a `'` is
stepped over without any effect on the state.  The quote-collection loop
of `FindNotCited` restarts `FindQuote` right after each complete span, so
together they perform one left-to-right scan of the whole line collecting
the disjoint double-quote spans; that scan is modelled directly. -/

/-- One scan collecting the double-quote spans, carrying the currently
open span start, the absolute position and the previous character. -/
def collectQuotesGo : Option Nat → Nat → Option Char → Str → List (Nat × Nat)
  | _, _, _, [] => []
  | openPos, pos, prev, c :: rest =>
    if c = '"' ∧ (pos = 0 ∨ prev ≠ some '\\') then
      match openPos with
      | none => collectQuotesGo (some pos) (pos + 1) (some c) rest
      | some s => (s, pos) :: collectQuotesGo none (pos + 1) (some c) rest
    else collectQuotesGo openPos (pos + 1) (some c) rest

/-- All double-quote spans of a line, in order. -/
def collectQuotes (s : Str) : List (Nat × Nat) := collectQuotesGo none 0 none s

/-- `FindQuote(input, start, end, 0)`: the first complete span. -/
def findQuoteSpan (s : Str) : Option (Nat × Nat) := (collectQuotes s).head?

/-- Index of the first character satisfying a predicate. -/
def findIdxOpt (p : Char → Bool) : Str → Option Nat
  | [] => none
  | c :: rest => if p c then some 0 else (findIdxOpt p rest).map (· + 1)

/-- `std::string::find_first_of(c, pos)`. -/
def findCharFrom (s : Str) (c : Char) (pos : Nat) : Option Nat :=
  match findIdxOpt (fun x => x = c) (s.drop pos) with
  | none => none
  | some i => some (pos + i)

/-- `std::string::find_first_not_of(" \t")`. -/
def firstNotSpaceTab (s : Str) : Option Nat :=
  findIdxOpt (fun c => ¬(c = ' ' ∨ c = '\t')) s

/-- `std::string::find_first_not_of(" \t", pos)`. -/
def firstNotSpaceTabFrom (s : Str) (pos : Nat) : Option Nat :=
  match findIdxOpt (fun c => ¬(c = ' ' ∨ c = '\t')) (s.drop pos) with
  | none => none
  | some i => some (pos + i)

/-- `std::string::find_last_not_of(" \t")`. -/
def lastNotSpaceTab (s : Str) : Option Nat :=
  match findIdxOpt (fun c => ¬(c = ' ' ∨ c = '\t')) s.reverse with
  | none => none
  | some i => some (s.length - 1 - i)

/-- The walk of `FindNotCited` over the collected quote spans, moving the
token position past any span containing it and counting, in
`preQuoteCount`, the spans that do not lie wholly after the token. -/
def fncGo (s : Str) (tok : Char) : List (Nat × Nat) → Nat → Nat → Option Nat × Nat
  | [], tp, pqc => (some tp, pqc)
  | (a, b) :: rest, tp, pqc =>
    if tp < a then (some tp, pqc)
    else
      let pqc' := pqc + 1
      if tp ≤ b then
        if tp + 1 = s.length then (none, pqc')
        else
          match findCharFrom s tok (tp + 1) with
          | none => (none, pqc')
          | some tp' => fncGo s tok rest tp' pqc'
      else fncGo s tok rest tp pqc'

/-- `FindNotCited(input, token, preQuoteCount)`. -/
def findNotCitedPQ (s : Str) (tok : Char) : Option Nat × Nat :=
  match findCharFrom s tok 0 with
  | none => (none, 0)
  | some tp =>
    match collectQuotes s with
    | [] => (some tp, 0)
    | quotes => fncGo s tok quotes tp 0

/-- `FindNotCited(input, token)`. -/
def findNotCited (s : Str) (tok : Char) : Option Nat :=
  (findNotCitedPQ s tok).1

/-! ## Error taxonomy (§7) and the reader line structure -/

/-- The raised error kinds (the exception messages of `Yaml.cpp`). -/
inductive Err where
  | invalidCharacter | tabInOffset | keyMissing | keyIncorrect
  | valueIncorrect | blockSequenceNotAllowed | unexpectedDocumentEnd
  | differentEntryNotAllowed | incorrectOffset | indentation
deriving DecidableEq, Repr

/-- A pipeline outcome: a raised error, or the one place where the source
dereferences a past-the-end iterator (a map value `|`, `>`, `|-` or `>-`
on the final line), which raises nothing. -/
inductive PErr where
  | exc (e : Err)
  | usesEndIterator
  | fuelOut
deriving DecidableEq, Repr

/-- `ReaderLine`: payload, 1-based line number, offset, classified kind
and the three scalar flags (`NextLine` is written but never read while
parsing, and is omitted). -/
structure RL where
  data : Str
  no : Nat
  offset : Nat
  type : NType := .noneT
  litFlag : Bool := false
  foldFlag : Bool := false
  nlFlag : Bool := false
deriving DecidableEq, Repr

/-! ## Phase A: `ReaderImp::ReadLines` -/

/-- `std::getline` splitting on `'\n'` (the delimiter is consumed; a
trailing delimiter yields one final empty read). -/
def splitNl : Str → List Str
  | [] => [[]]
  | c :: rest =>
    if c = '\n' then [] :: splitNl rest
    else
      match splitNl rest with
      | [] => [[c]]
      | l :: ls => (c :: l) :: ls

/-- The per-raw-line loop of `ReadLines`: strip the comment, handle the
`---` and `...` markers, strip a trailing `'\r'`, skip blanks, validate
the character set, and accumulate. -/
def readLinesGo : List Str → Bool → Nat → List RL → Except Err (List RL)
  | [], _, _, acc => .ok acc
  | l :: rest, found, lineNo, acc =>
    let no := lineNo + 1
    let l1 := match findNotCited l '#' with
      | some p => l.take p
      | none => l
    if found = false ∧ l1 = "---".toList then readLinesGo rest true no []
    else if l1 = "...".toList then .ok acc
    else
      let l2 := if l1.getLast? = some '\r' then l1.dropLast else l1
      if l2 = [] then readLinesGo rest found no acc
      else
        match findIdxOpt (fun c => ¬(c = '\t' ∨ (32 ≤ c.val ∧ c.val ≤ 125))) l2 with
        | some _ => .error .invalidCharacter
        | none => readLinesGo rest found no (acc ++ [{ data := l2, no := no, offset := 0 }])

/-- The second loop of `ReadLines`: reject a tab inside the indentation,
drop whitespace-only lines, and trim the payload recording the offset. -/
def trimRL (rl : RL) : Except Err (Option RL) :=
  let firstTab := findCharFrom rl.data '\t' 0
  match firstNotSpaceTab rl.data with
  | none => .ok none
  | some s0 =>
    if (match firstTab with | some t => decide (t < s0) | none => false) = true then .error .tabInOffset
    else
      let e0 := (lastNotSpaceTab rl.data).getD 0
      .ok (some { rl with data := (rl.data.drop s0).take (e0 - s0 + 1), offset := s0 })

/-- The trimming pass over all lines. -/
def trimAll : List RL → Except Err (List RL)
  | [] => .ok []
  | rl :: rest => do
    let r ← trimRL rl
    let rest' ← trimAll rest
    match r with
    | none => .ok rest'
    | some rl' => .ok (rl' :: rest')

/-- `ReaderImp::ReadLines` on a whole input string. -/
def readLinesS (input : Str) : Except Err (List RL) := do
  let ls ← readLinesGo (splitNl input) false 0 []
  trimAll ls

/-! ## Phase B: `ReaderImp::PostProcessLines`

The outer loop visits the list left to right; a step may finalise the
current line, split it (inserting a line that is handled inside the same
step), and — for literal/folded scalars — merge following lines into it.
Each helper reports how many lines it consumed from the following list,
so the driver recurses on a strictly shorter list. -/

/-- `ReaderImp::IsSequenceStart`. -/
def isSeqStart (data : Str) : Bool :=
  match data with
  | [] => false
  | c :: rest =>
    decide (c = '-') && (match rest with | [] => true | c2 :: _ => decide (c2 = ' '))

/-- `RemoveAllEscapeTokens`: drop each backslash together with nothing,
keeping the escaped character (a trailing lone backslash is kept). -/
def removeEscapes : Str → Str
  | [] => []
  | '\\' :: [] => ['\\']
  | '\\' :: c :: rest => c :: removeEscapes rest
  | c :: rest => c :: removeEscapes rest

/-- The quote-removal step on a plain map value. -/
def stripValueQuotes (value : Str) : Except PErr Str :=
  match findQuoteSpan value with
  | some (qs, qe) =>
    if qs = 0 ∧ qe ≠ value.length - 1 then .error (.exc .valueIncorrect)
    else .ok ((value.drop 1).take (value.length - 2))
  | none =>
    if value.head? = some '"' then .ok ((value.drop 1).take (value.length - 2))
    else .ok value

/-- `ReaderLine::CopyScalarFlags`: OR the three flags from a predecessor. -/
def copyFlagsFrom (l : RL) (p : RL) : RL :=
  { l with litFlag := l.litFlag ∨ p.litFlag,
           foldFlag := l.foldFlag ∨ p.foldFlag,
           nlFlag := l.nlFlag ∨ p.nlFlag }

/-- The multi-line merge loop of `PostProcessScalar`: consume following
lines while their offset is at least the scalar's, concatenating with the
separator and the offset-delta spaces; append one newline at the end when
the keep-newline flag is set.  Returns the merged line and the number of
consumed lines. -/
def mergeScalarGo (pLine : RL) : List RL → RL × Nat
  | [] => (if pLine.nlFlag then { pLine with data := pLine.data ++ ['\n'] } else pLine, 0)
  | next :: rest =>
    if next.offset < pLine.offset then
      (if pLine.nlFlag then { pLine with data := pLine.data ++ ['\n'] } else pLine, 0)
    else
      let sep : Str := if pLine.litFlag then ['\n'] else if pLine.foldFlag then [' '] else []
      let pLine' := { pLine with
        data := pLine.data ++ sep ++ List.replicate (next.offset - pLine.offset) ' ' ++ next.data }
      let (merged, k) := mergeScalarGo pLine' rest
      (merged, k + 1)

/-- `PostProcessScalar`: classify as scalar, inherit the flags from the
previous line, and merge following lines when literal or folded. -/
def ppScalar (prev : Option RL) (l : RL) (rest : List RL) : RL × Nat :=
  let l1 := { l with type := .scalarT }
  let l2 := match prev with
    | none => l1
    | some p => copyFlagsFrom l1 p
  if l2.foldFlag ∨ l2.litFlag then mergeScalarGo l2 rest
  else (l2, 0)

/-- `PostProcessMapping` (after the sequence stage has not fired, or on
the line inserted by a sequence split), together with the scalar stage
that the `return false` paths fall through to.  Returns the lines this
step emits plus the number of lines consumed from `rest`. -/
def ppMapOrScalar (prev : Option RL) (l : RL) (rest : List RL) :
    Except PErr (List RL × Nat) :=
  match findNotCitedPQ l.data ':' with
  | (none, _) =>
    let (l', k) := ppScalar prev l rest
    .ok ([l'], k)
  | (some tokenPos, pqc) =>
    if pqc > 1 then .error (.exc .keyIncorrect)
    else
      let lm := { l with type := NType.mapT }
      let key0 := lm.data.take tokenPos
      match lastNotSpaceTab key0 with
      | none => .error (.exc .keyMissing)
      | some keyEnd =>
        let key1 := key0.take (keyEnd + 1)
        let citedStep : Except PErr Str :=
          if pqc = 1 then
            if key1.head? ≠ some '"' ∨ key1.getLast? ≠ some '"' then .error (.exc .keyIncorrect)
            else .ok ((key1.drop 1).take (key1.length - 2))
          else .ok key1
        match citedStep with
        | .error e => .error e
        | .ok key2 =>
          let key := removeEscapes key2
          let valueStart := if tokenPos + 1 = lm.data.length then none
            else firstNotSpaceTabFrom lm.data (tokenPos + 1)
          let value := match valueStart with
            | none => ([] : Str)
            | some vst => lm.data.drop vst
          if isSeqStart value then .error (.exc .blockSequenceNotAllowed)
          else
            let keyLine := { lm with data := key }
            if value ≠ [] then
              if value = ['|'] then
                let kl := { keyLine with litFlag := true, nlFlag := true }
                match rest with
                | [] => .error .usesEndIterator
                | n :: rest' =>
                  let (n', k) := ppScalar (some kl) n rest'
                  .ok ([kl, n'], k + 1)
              else if value = ['>'] then
                let kl := { keyLine with foldFlag := true, nlFlag := true }
                match rest with
                | [] => .error .usesEndIterator
                | n :: rest' =>
                  let (n', k) := ppScalar (some kl) n rest'
                  .ok ([kl, n'], k + 1)
              else if value = ['|', '-'] then
                let kl := { keyLine with litFlag := true }
                match rest with
                | [] => .error .usesEndIterator
                | n :: rest' =>
                  let (n', k) := ppScalar (some kl) n rest'
                  .ok ([kl, n'], k + 1)
              else if value = ['>', '-'] then
                let kl := { keyLine with foldFlag := true }
                match rest with
                | [] => .error .usesEndIterator
                | n :: rest' =>
                  let (n', k) := ppScalar (some kl) n rest'
                  .ok ([kl, n'], k + 1)
              else
                if (match rest.head? with
                    | some nx => decide (nx.offset > l.offset)
                    | none => false) = true then
                  .error (.exc .incorrectOffset)
                else
                  match stripValueQuotes value with
                  | .error e => .error e
                  | .ok v' =>
                    let vLine : RL := { data := v', no := l.no, offset := valueStart.getD 0 }
                    let (v'', k) := ppScalar (some keyLine) vLine rest
                    .ok ([keyLine, v''], k)
            else
              if (match rest.head? with
                  | some nx => decide (nx.offset ≤ l.offset)
                  | none => false) = true then
                let ph : RL := { data := [], no := l.no, offset := tokenPos + 1, type := .scalarT }
                .ok ([keyLine, ph], 0)
              else
                .ok ([keyLine], 0)

/-- One iteration of the `PostProcessLines` loop: the sequence stage,
falling through to the mapping/scalar stages. -/
def ppOne (prev : Option RL) (l : RL) (rest : List RL) :
    Except PErr (List RL × Nat) :=
  if isSeqStart l.data then
    let l' := { l with type := NType.seqT }
    match firstNotSpaceTabFrom l'.data 1 with
    | none => .ok ([l'], 0)
    | some vs =>
      let marker := { l' with data := [] }
      let newL : RL := { data := l'.data.drop vs, no := l'.no, offset := l'.offset + vs }
      match ppMapOrScalar (some marker) newL rest with
      | .error e => .error e
      | .ok (outs, k) => .ok (marker :: outs, k)
  else ppMapOrScalar prev l rest

/-- The driver of `PostProcessLines`.  Every step consumes at least the
current line, so fuel `length + 1` always suffices; running out of fuel
is marked by `PErr.fuelOut` and shown unreachable where needed. -/
def ppGo : Nat → Option RL → List RL → Except PErr (List RL)
  | 0, _, _ => .error .fuelOut
  | _ + 1, _, [] => .ok []
  | fuel + 1, prev, l :: rest =>
    match ppOne prev l rest with
    | .error e => .error e
    | .ok (outs, k) =>
      match ppGo fuel (match outs.getLast? with | some x => some x | none => prev) (rest.drop k) with
      | .error e => .error e
      | .ok tail => .ok (outs ++ tail)

/-- `PostProcessLines`: the loop plus the final last-line-is-scalar check. -/
def postProcess (lines : List RL) : Except PErr (List RL) :=
  match ppGo (lines.length + 1) none lines with
  | .error e => .error e
  | .ok out =>
    match out.getLast? with
    | some lst => if lst.type ≠ NType.scalarT then .error (.exc .unexpectedDocumentEnd) else .ok out
    | none => .ok out

/-! ## Phase C: `ProcessRoot` / `ProcessSequence` / `ProcessMap` /
`ProcessScalar`.  The recursion is fuel-bounded; `processRoot` supplies
fuel that is ample for the line count. -/

/-- `ProcessScalar`: assign the payload and advance. -/
def processScalarL (target : Node) (lines : List RL) : Except PErr (Node × List RL) :=
  match lines with
  | [] => .error .usesEndIterator
  | pLine :: rest => .ok (target.assignStr pLine.data, rest)

mutual

/-- `ProcessSequence`. -/
def processSeq (fuel : Nat) (node : Node) (lines : List RL) :
    Except PErr (Node × List RL) :=
  match fuel with
  | 0 => .error .fuelOut
  | fuel + 1 =>
    match lines with
    | [] => .ok (node, [])
    | pLine :: rest =>
      let (idx, node1) := node.pushBackOp
      match rest with
      | [] => .error (.exc .unexpectedDocumentEnd)
      | next :: _ =>
        let step : Except PErr (Node × List RL) :=
          match next.type with
          | .seqT => processSeq fuel Node.nul rest
          | .mapT => processMap fuel Node.nul rest
          | .scalarT => processScalarL Node.nul rest
          | .noneT => .ok (Node.nul, rest)
        match step with
        | .error e => .error e
        | .ok (child, rest2) =>
          let node2 := node1.seqSetAt idx child
          match rest2 with
          | [] => .ok (node2, [])
          | nx :: _ =>
            if nx.offset < pLine.offset then .ok (node2, rest2)
            else if nx.offset > pLine.offset then .error (.exc .incorrectOffset)
            else if nx.type ≠ pLine.type then .error (.exc .differentEntryNotAllowed)
            else processSeq fuel node2 rest2

/-- `ProcessMap`. -/
def processMap (fuel : Nat) (node : Node) (lines : List RL) :
    Except PErr (Node × List RL) :=
  match fuel with
  | 0 => .error .fuelOut
  | fuel + 1 =>
    match lines with
    | [] => .ok (node, [])
    | pLine :: rest =>
      let (child0, node1) := node.getKeyOp pLine.data
      match rest with
      | [] => .error (.exc .unexpectedDocumentEnd)
      | next :: _ =>
        let step : Except PErr (Node × List RL) :=
          match next.type with
          | .seqT => processSeq fuel child0 rest
          | .mapT => processMap fuel child0 rest
          | .scalarT => processScalarL child0 rest
          | .noneT => .ok (child0, rest)
        match step with
        | .error e => .error e
        | .ok (child, rest2) =>
          let node2 := node1.mapSetAt pLine.data child
          match rest2 with
          | [] => .ok (node2, [])
          | nx :: _ =>
            if nx.offset < pLine.offset then .ok (node2, rest2)
            else if nx.offset > pLine.offset then .error (.exc .incorrectOffset)
            else if nx.type ≠ pLine.type then .error (.exc .differentEntryNotAllowed)
            else processMap fuel node2 rest2

end

/-- `ProcessRoot`: dispatch on the first line's kind, then require that
the whole list has been consumed. -/
def processRoot (node : Node) (lines : List RL) : Except PErr Node :=
  match lines with
  | [] => .ok node
  | first :: _ =>
    let fuel := 2 * lines.length + 2
    let r := match first.type with
      | NType.seqT => processSeq fuel node lines
      | NType.mapT => processMap fuel node lines
      | NType.scalarT => processScalarL node lines
      | NType.noneT => .ok (node, lines)
    match r with
    | .error e => .error e
    | .ok (node', rest) =>
      if rest ≠ [] then .error (.exc .unexpectedDocumentEnd) else .ok node'

/-! ## `ReaderImp::Parse`: the pipeline with its catch-all handler -/

/-- Outcome of a parse call on a fresh root. -/
inductive POut where
  | ok (root : Node) (lines : List RL)
  | failed (e : Err) (root : Node) (lines : List RL)
  | undefined

/-- `ReaderImp::Parse(root, stream)`: clear the root, run the three
phases; on a raised error, `ClearLines()` then `root.Clear()` before
rethrowing.  `POut.undefined` marks the runs that reach the model's
artificial outcomes (the end-iterator dereference, fuel exhaustion),
which raise no C++ exception. -/
def parseTop (input : Str) : POut :=
  match readLinesS input with
  | .error e => .failed e Node.nul []
  | .ok lines =>
    match postProcess lines with
    | .error (.exc e) => .failed e Node.nul []
    | .error _ => .undefined
    | .ok pls =>
      match processRoot Node.nul.clearN pls with
      | .error (.exc e) => .failed e Node.nul []
      | .error _ => .undefined
      | .ok node => .ok node pls

/-- The root produced by a successful parse. -/
def parseRoot (input : Str) : Option Node :=
  match parseTop input with
  | .ok n _ => some n
  | _ => none

/-! ## The emitter (`Serialize`, `SerializeLoop`, `LineFolding`) -/

/-- `SerializeConfig`. -/
structure Cfg where
  spaceIndentation : Nat
  scalarMaxLength : Nat
  sequenceMapNewline : Bool
  mapScalarNewline : Bool

/-- The default serialization configuration used throughout: two-space
indentation, no folding, no extra newlines. -/
def cfg0 : Cfg := ⟨2, 0, false, false⟩

/-- The body of `LineFolding`: jump `maxLength` from the last break, find
the next space at or after the stop, split there and continue; otherwise
emit the (nonempty) tail.  The break position advances strictly on every
step, so fuel `length + 1` always suffices (`none` = out of fuel). -/
def lineFoldingGo : Nat → Str → Nat → Nat → Option (List Str)
  | 0, _, _, _ => none
  | fuel + 1, input, maxLength, lastPos =>
    let currentPos := lastPos + maxLength
    if currentPos < input.length then
      match findIdxOpt (fun c => c = ' ') (input.drop currentPos) with
      | none =>
        let endLine := input.drop lastPos
        some (if endLine = [] then [] else [endLine])
      | some i =>
        let spacePos := currentPos + i
        (lineFoldingGo fuel input maxLength (spacePos + 1)).map
          (fun rest => (input.drop lastPos).take (spacePos - lastPos) :: rest)
    else
      let endLine := input.drop lastPos
      some (if endLine = [] then [] else [endLine])

/-- `LineFolding`: clear the output; an empty input folds to nothing. -/
def lineFolding (input : Str) (maxLength : Nat) : List Str :=
  if input = [] then []
  else (lineFoldingGo (input.length + 1) input maxLength 0).getD []

/-- The characters of `KeyShouldBeCited` (listed by literal or code
point: double quote, colon, curly braces, brackets, comma, ampersand,
asterisk, hash, question mark, bar, dash, angle brackets, equals, bang,
percent, at sign). -/
def citedChars : Str :=
  ['"', ':', Char.ofNat 123, Char.ofNat 125, '[', ']', ',', '&', '*', '#',
   '?', '|', '-', '<', '>', '=', '!', '%', '@']

/-- `KeyShouldBeCited`. -/
def keyShouldBeCited (key : Str) : Bool :=
  key.any (fun c => citedChars.contains c)

/-- `AddEscapeTokens(key, "\\\"")`: escape backslashes, then quotes. -/
def addEscapesKey : Str → Str
  | [] => []
  | c :: rest => (if c = '\\' ∨ c = '"' then ['\\', c] else [c]) ++ addEscapesKey rest

/-- The per-line output loop after a `|` or `>` header. -/
def emitBlockLines (lines : List Str) (level : Nat) : Str :=
  match lines with
  | [] => []
  | l :: rest => List.replicate level ' ' ++ l ++ ['\n'] ++ emitBlockLines rest level

/-- The scalar branch of `SerializeLoop`. -/
def serScalar (value : Str) (useLevel : Bool) (level : Nat) (cfg : Cfg) : Str :=
  if value = [] then ['\n']
  else
    let lines0 := splitNl value
    let endNewline := (lines0.getLast?.getD []) = []
    let lines1 := if endNewline then lines0.dropLast else lines0
    if lines1.length > 1 then
      ['|'] ++ (if ¬endNewline then ['-'] else []) ++ ['\n'] ++ emitBlockLines lines1 level
    else
      let frontLine := lines1.head?.getD []
      if cfg.scalarMaxLength = 0 ∨ frontLine.length ≤ cfg.scalarMaxLength ∨
         (lineFolding frontLine cfg.scalarMaxLength).length = 1 then
        (if useLevel then List.replicate level ' ' else []) ++ value ++ ['\n']
      else
        ['>'] ++ (if ¬endNewline then ['-'] else []) ++ ['\n'] ++
          emitBlockLines (lineFolding frontLine cfg.scalarMaxLength) level

mutual

/-- `SerializeLoop`. -/
def serNode (n : Node) (useLevel : Bool) (level : Nat) (cfg : Cfg) : Str :=
  match n with
  | .nul => []
  | .scalar v => serScalar v useLevel level cfg
  | .seq es => serSeqEs es level cfg
  | .map es => serMapEs es useLevel 0 level cfg

/-- The sequence branch: skip None children; `- ` then the child, on a
new line for sequence children (and map children if configured). -/
def serSeqEs (es : List (Nat × Node)) (level : Nat) (cfg : Cfg) : Str :=
  match es with
  | [] => []
  | (_, value) :: rest =>
    if value.kind = NType.noneT then serSeqEs rest level cfg
    else
      let ulnl : Bool :=
        value.kind = NType.seqT ∨ (value.kind = NType.mapT ∧ cfg.sequenceMapNewline)
      List.replicate level ' ' ++ ['-', ' '] ++ (if ulnl then ['\n'] else []) ++
        serNode value ulnl (level + 2) cfg ++ serSeqEs rest level cfg

/-- The map branch: skip None children; emit the (escaped, possibly
quoted) key, then the child inline or on a new line. -/
def serMapEs (es : List (Str × Node)) (useLevel : Bool) (count : Nat)
    (level : Nat) (cfg : Cfg) : Str :=
  match es with
  | [] => []
  | (k, value) :: rest =>
    if value.kind = NType.noneT then serMapEs rest useLevel count level cfg
    else
      let pre : Str := if useLevel ∨ count > 0 then List.replicate level ' ' else []
      let key := addEscapesKey k
      let keyOut : Str :=
        if keyShouldBeCited key then ['"'] ++ key ++ ['"'] ++ [':', ' ']
        else key ++ [':', ' ']
      let ulnl : Bool :=
        ¬(value.kind = NType.scalarT) ∨ (value.kind = NType.scalarT ∧ cfg.mapScalarNewline)
      pre ++ keyOut ++ (if ulnl then ['\n'] else []) ++
        serNode value ulnl (level + cfg.spaceIndentation) cfg ++
        serMapEs rest true (count + 1) level cfg

end

/-- `Serialize(root, stream, config)`: validate the indentation, then run
the loop from level 0 with `useLevel = false`. -/
def serializeTop (root : Node) (cfg : Cfg) : Except Err Str :=
  if cfg.spaceIndentation < 2 then .error .indentation
  else .ok (serNode root false 0 cfg)

/-! ## Auxiliary notions used by the claims -/

/-- The three user-visible sequence mutations of the claims. -/
inductive SeqOp where
  | pushB : SeqOp
  | pushF : SeqOp
  | eraseAt (i : Nat) : SeqOp
deriving DecidableEq, Repr

/-- Whether an operation is an erase. -/
def SeqOp.isErase : SeqOp → Bool
  | .eraseAt _ => true
  | _ => false

/-- Apply one operation (`PushFront` needs fuel, see above). -/
def applySeqOp (fuel : Nat) (n : Node) : SeqOp → Option Node
  | .pushB => some (n.pushBackOp).2
  | .pushF => n.pushFrontOp fuel
  | .eraseAt i => some (n.eraseIndexOp i)

/-- Apply a list of operations left to right. -/
def applySeqOps (fuel : Nat) : Node → List SeqOp → Option Node
  | n, [] => some n
  | n, op :: rest =>
    match applySeqOp fuel n op with
    | none => none
    | some n' => applySeqOps fuel n' rest

/-- Whether index `i` is present (not a sentinel miss) in a sequence. -/
def seqHasIdx (n : Node) (i : Nat) : Bool :=
  match n with
  | .seq es => (natMapFind es i).isSome
  | _ => false

/-- Sequence entries carry exactly the keys `start, start+1, …`. -/
def DenseFrom : Nat → List (Nat × Node) → Prop
  | _, [] => True
  | start, (k, _) :: rest => k = start ∧ DenseFrom (start + 1) rest

/-- The density claim: every index below `size()` is present. -/
def DenseNode (n : Node) : Prop :=
  ∀ i, i < n.sizeN → seqHasIdx n i = true

/-- `node[key] = value` on a map node: `operator[](key)` then scalar
assignment through the returned reference. -/
def mapSetScalar (n : Node) (k : Str) (v : Str) : Node :=
  let (child, n1) := n.getKeyOp k
  n1.mapSetAt k (child.assignStr v)

/-- The key sequence visited by `begin()`/`end()` iteration of a map. -/
def iterKeys (n : Node) : List Str :=
  match n with
  | .map es => es.map Prod.fst
  | _ => []

/-- The entry sequence visited by `begin()`/`end()` iteration of a map. -/
def iterEntries (n : Node) : List (Str × Node) :=
  match n with
  | .map es => es
  | _ => []

/-- The text the emitter produces for one map key (escaped, and quoted
when it contains a cited character), colon included but without the
trailing space. -/
def renderKeyC (k : Str) : Str :=
  let key := addEscapesKey k
  if keyShouldBeCited key then ['"'] ++ key ++ ['"'] ++ [':']
  else key ++ [':']

/-- The text the emitter produces for one map key (escaped, and quoted
when it contains a cited character), colon and space included. -/
def renderKey (k : Str) : Str :=
  let key := addEscapesKey k
  if keyShouldBeCited key then ['"'] ++ key ++ ['"'] ++ [':', ' ']
  else key ++ [':', ' ']

/-- `a` is strictly below the first key of an entry list (trivially true
on the empty list). -/
def belowNext (a : Str) : List (Str × Node) → Prop
  | [] => True
  | (k, _) :: _ => strLtB a k = true

/-- All values of a map entry list are scalars. -/
def mapValsScalarB : List (Str × Node) → Bool
  | [] => true
  | (_, v) :: rest =>
    (match v with | Node.scalar _ => true | _ => false) && mapValsScalarB rest

mutual

/-- Trees on which a deep copy is faithful: every sequence is nonempty
with keys exactly `0..n-1`, every map is nonempty with strictly
ascending keys (the `std::map` invariant), as produced by the parser or
by index-free user mutation. -/
def canonicalB : Node → Bool
  | .nul => true
  | .scalar _ => true
  | .seq es => (match es with | [] => false | _ => true) && seqCanonB 0 es
  | .map es => (match es with | [] => false | _ => true) && mapCanonB none es

def seqCanonB : Nat → List (Nat × Node) → Bool
  | _, [] => true
  | expect, (k, c) :: rest =>
    (decide (k = expect)) && canonicalB c && seqCanonB (expect + 1) rest

def mapCanonB : Option Str → List (Str × Node) → Bool
  | _, [] => true
  | prev, (k, c) :: rest =>
    (match prev with | none => true | some p => strLtB p k) && canonicalB c &&
      mapCanonB (some k) rest

end

/-! ## Round-trip notions (the class of trees proved to round-trip)

The serialized text of a tree is a sequence of physical lines.  The
functions below compute, per subtree, the list of physical lines paired
with the `ReaderLine` the reading phase extracts from each (trimmed
payload, 1-based line number, indentation offset), and the list of lines
the post-processing phase turns those into.  The line counter is
threaded so that the numbers are the physical line positions. -/

/-- `n` spaces. -/
def spc (n : Nat) : Str := List.replicate n ' '

/-- Glue line payloads into a document text, one newline after each. -/
def joinNL (ls : List Str) : Str := (ls.map (fun l => l ++ ['\n'])).flatten

/-- A character a round-tripping scalar payload may contain: printable
ASCII without double quote, colon and hash (newline is excluded by the
range). -/
def goodChar (c : Char) : Bool :=
  decide (32 ≤ c.val) && decide (c.val ≤ 125) &&
  !(decide (c = '"')) && !(decide (c = ':')) && !(decide (c = '#'))

/-- A scalar payload that survives the trip unchanged: nonempty, good
characters only, no surrounding spaces (trimming would drop them), not a
sequence start (`PostProcessMapping` rejects those as values), not one
of the four block-scalar headers. -/
def goodScalar (v : Str) : Bool :=
  !(decide (v = [])) && v.all goodChar &&
  !(decide (v.head? = some ' ')) && !(decide (v.getLast? = some ' ')) &&
  !(isSeqStart v) &&
  !(decide (v = ['|'])) && !(decide (v = ['>'])) &&
  !(decide (v = ['|', '-'])) && !(decide (v = ['>', '-']))

/-- A key character: a good payload character that is not a backslash. -/
def goodKeyChar (c : Char) : Bool := goodChar c && !(decide (c = '\\'))

/-- A key that survives the trip: nonempty, good key characters, no
surrounding spaces. -/
def goodKey (kc : Str) : Bool :=
  !(decide (kc = [])) && kc.all goodKeyChar &&
  !(decide (kc.head? = some ' ')) && !(decide (kc.getLast? = some ' '))

mutual

/-- The round-tripping trees: scalars with good payloads, nonempty
sequences indexed `0..n-1`, nonempty maps with good, strictly ascending
keys and good children. -/
def goodB : Node → Bool
  | .nul => false
  | .scalar v => goodScalar v
  | .seq es => (match es with | [] => false | _ => true) && goodSeqB 0 es
  | .map es => (match es with | [] => false | _ => true) && goodMapB none es

def goodSeqB : Nat → List (Nat × Node) → Bool
  | _, [] => true
  | expect, (k, c) :: rest =>
    decide (k = expect) && goodB c && goodSeqB (expect + 1) rest

def goodMapB : Option Str → List (Str × Node) → Bool
  | _, [] => true
  | prev, (k, c) :: rest =>
    goodKey k && (match prev with | none => true | some p => strLtB p k) &&
    goodB c && goodMapB (some k) rest

end

/-- Good at the root: a scalar root line must additionally not read as a
document marker. -/
def goodRootB : Node → Bool
  | .scalar v =>
    goodScalar v && !(decide (v = ['-', '-', '-'])) &&
    !(decide (v = ['.', '.', '.']))
  | n => goodB n

/-- The offset recorded for the scalar value line of a map entry: just
past the rendered key and the following space. -/
def localOff (k : Str) : Nat := (renderKeyC k).length + 1

mutual

/-- Physical line and extracted reader line of every line of a sequence
body at a given level, threading the 1-based physical line counter. -/
def tSeq : List (Nat × Node) → Nat → Nat → List (Str × RL) × Nat
  | [], _, n => ([], n)
  | (_, c) :: rest, lv, n =>
    let item : List (Str × RL) × Nat :=
      match c with
      | Node.scalar v =>
        ([(spc lv ++ ['-', ' '] ++ v,
           { data := ['-', ' '] ++ v, no := n, offset := lv })], n + 1)
      | Node.map ms =>
        match tMap ms false (lv + 2) n with
        | ([], n1) => ([], n1)
        | ((ph, rl) :: t, n1) =>
          ((spc lv ++ ['-', ' '] ++ ph,
            { data := ['-', ' '] ++ rl.data, no := n, offset := lv }) :: t, n1)
      | Node.seq ss =>
        let (ls, n1) := tSeq ss (lv + 2) (n + 1)
        ((spc lv ++ ['-', ' '],
          { data := ['-'], no := n, offset := lv }) :: ls, n1)
      | Node.nul => ([], n)
    let (ls2, n2) := tSeq rest lv item.2
    (item.1 ++ ls2, n2)

/-- Physical line and extracted reader line of every line of a map body
at a given level.  `firstInd` says whether the first entry carries its
own indentation (it does not when it continues a `- ` item line, where
the caller re-attaches it). -/
def tMap : List (Str × Node) → Bool → Nat → Nat → List (Str × RL) × Nat
  | [], _, _, n => ([], n)
  | (k, c) :: rest, firstInd, lv, n =>
    let ind : Str := if firstInd then spc lv else []
    let item : List (Str × RL) × Nat :=
      match c with
      | Node.scalar v =>
        ([(ind ++ renderKey k ++ v,
           { data := renderKey k ++ v, no := n, offset := lv })], n + 1)
      | Node.map ms =>
        let (ls, n1) := tMap ms true (lv + 2) (n + 1)
        ((ind ++ renderKey k,
          { data := renderKeyC k, no := n, offset := lv }) :: ls, n1)
      | Node.seq ss =>
        let (ls, n1) := tSeq ss (lv + 2) (n + 1)
        ((ind ++ renderKey k,
          { data := renderKeyC k, no := n, offset := lv }) :: ls, n1)
      | Node.nul => ([], n)
    let (ls2, n2) := tMap rest true lv item.2
    (item.1 ++ ls2, n2)

end

/-- Physical/reader lines of a whole good document. -/
def tRoot : Node → List (Str × RL)
  | Node.scalar v => [(v, { data := v, no := 1, offset := 0 })]
  | Node.seq es => (tSeq es 0 1).1
  | Node.map es => (tMap es false 0 1).1
  | Node.nul => []

mutual

/-- The post-processed lines of a sequence body: per child a marker line
(empty payload when the marker was split, `-` when it stood alone) and
the child's lines. -/
def pSeq : List (Nat × Node) → Nat → Nat → List RL × Nat
  | [], _, n => ([], n)
  | (_, c) :: rest, lv, n =>
    let item : List RL × Nat :=
      match c with
      | Node.scalar v =>
        ([{ data := [], no := n, offset := lv, type := .seqT },
          { data := v, no := n, offset := lv + 2, type := .scalarT }], n + 1)
      | Node.map ms =>
        let (ls, n1) := pMap ms (lv + 2) n
        ({ data := [], no := n, offset := lv, type := .seqT } :: ls, n1)
      | Node.seq ss =>
        let (ls, n1) := pSeq ss (lv + 2) (n + 1)
        ({ data := ['-'], no := n, offset := lv, type := .seqT } :: ls, n1)
      | Node.nul => ([], n)
    let (ls2, n2) := pSeq rest lv item.2
    (item.1 ++ ls2, n2)

/-- The post-processed lines of a map body: per entry a key line (the
decoded key) and either the inserted scalar value line (at its local
value-start offset) or the child's lines. -/
def pMap : List (Str × Node) → Nat → Nat → List RL × Nat
  | [], _, n => ([], n)
  | (k, c) :: rest, lv, n =>
    let item : List RL × Nat :=
      match c with
      | Node.scalar v =>
        ([{ data := k, no := n, offset := lv, type := .mapT },
          { data := v, no := n, offset := localOff k, type := .scalarT }], n + 1)
      | Node.map ms =>
        let (ls, n1) := pMap ms (lv + 2) (n + 1)
        ({ data := k, no := n, offset := lv, type := .mapT } :: ls, n1)
      | Node.seq ss =>
        let (ls, n1) := pSeq ss (lv + 2) (n + 1)
        ({ data := k, no := n, offset := lv, type := .mapT } :: ls, n1)
      | Node.nul => ([], n)
    let (ls2, n2) := pMap rest lv item.2
    (item.1 ++ ls2, n2)

end

/-- The post-processed lines of a whole good document. -/
def pRoot : Node → List RL
  | Node.scalar v => [{ data := v, no := 1, offset := 0, type := .scalarT }]
  | Node.seq es => (pSeq es 0 1).1
  | Node.map es => (pMap es 0 1).1
  | Node.nul => []

/-- The reader lines of a sequence body (second components). -/
def tSeqL (es : List (Nat × Node)) (lv n : Nat) : List RL :=
  ((tSeq es lv n).1).map Prod.snd

/-- The reader lines of a map body (second components). -/
def tMapL (es : List (Str × Node)) (b : Bool) (lv n : Nat) : List RL :=
  ((tMap es b lv n).1).map Prod.snd

/-- The lines of a pair list are numbered consecutively from `n`. -/
def seqNosFrom : Nat → List (Str × RL) → Prop
  | _, [] => True
  | n, p :: rest => p.2.no = n ∧ seqNosFrom (n + 1) rest

/-- What the reading phase needs of one physical line: kept as is by the
comment strip, not a document marker, no carriage return, no character
outside the accepted set, no embedded newline, and trimmed exactly to
the recorded reader line. -/
def PairOK (p : Str × RL) : Prop :=
  p.1 ≠ [] ∧ findNotCited p.1 '#' = none ∧
  p.1 ≠ "---".toList ∧ p.1 ≠ "...".toList ∧
  p.1.getLast? ≠ some '\r' ∧
  findIdxOpt (fun c => ¬(c = '\t' ∨ (32 ≤ c.val ∧ c.val ≤ 125))) p.1 = none ∧
  '\n' ∉ p.1 ∧
  trimRL { data := p.1, no := p.2.no, offset := 0 } = .ok (some p.2)

/-- The previous-line argument post-processing would carry after a block
of produced lines. -/
def olast (ls : List RL) (p : Option RL) : Option RL :=
  match ls.getLast? with
  | some x => some x
  | none => p

/-- Shape of the first physical/reader line of a block: the trimmed core
with the block's indentation (present if `b`), up to one trailing space,
made of acceptable characters. -/
def HeadCore (b : Bool) (lv n : Nat) : List (Str × RL) → Prop
  | [] => True
  | (ph, rl) :: _ => ∃ core j, j ≤ 1 ∧
      ph = (if b then spc lv else []) ++ core ++ spc j ∧
      rl = { data := core, no := n, offset := lv } ∧
      core ≠ [] ∧ core.head? ≠ some ' ' ∧ core.getLast? ≠ some ' ' ∧
      (∀ c ∈ core, 32 ≤ c.val ∧ c.val ≤ 125 ∧ c ≠ '#')

/-! # Theorems -/

/-! ## `PushFront` never finishes on a nonempty sequence -/

theorem natMapFind_assign_self (m : List (Nat × Node)) (k : Nat) (v : Node) :
    natMapFind (natMapAssign m k v) k = some v := by
  induction m with
  | nil => simp [natMapAssign, natMapFind]
  | cons hd tl ih =>
    obtain ⟨k', v'⟩ := hd
    by_cases h1 : k < k'
    · simp [natMapAssign, h1, natMapFind]
    · by_cases h2 : k = k'
      · simp [natMapAssign, h1, h2, natMapFind]
      · simp [natMapAssign, h1, h2, natMapFind, ih]

theorem natMapSuccKey_assign (m : List (Nat × Node)) (k : Nat) (v : Node) :
    natMapSuccKey (natMapAssign m (k + 1) v) k = some (k + 1) := by
  induction m with
  | nil => simp [natMapAssign, natMapSuccKey]
  | cons hd tl ih =>
    obtain ⟨k', v'⟩ := hd
    by_cases h1 : k + 1 < k'
    · simp [natMapAssign, h1, natMapSuccKey]
    · by_cases h2 : k + 1 = k'
      · subst h2
        simp [natMapAssign, natMapSuccKey]
      · have h3 : ¬ (k < k') := by omega
        simp [natMapAssign, h1, h2, natMapSuccKey, h3, ih]

theorem pushFrontGo_nonterm (fuel : Nat) :
    ∀ (m : List (Nat × Node)) (k : Nat),
      (natMapFind m k).isSome = true → pushFrontGo fuel m (some k) = none := by
  induction fuel with
  | zero => intro m k _; rfl
  | succ n ih =>
    intro m k _
    show pushFrontGo (n + 1) m (some k) = none
    simp only [pushFrontGo]
    rw [natMapSuccKey_assign]
    apply ih
    rw [natMapFind_assign_self]
    rfl

theorem pushFrontFuel_nonempty (fuel : Nat) (e : Nat × Node) (rest : List (Nat × Node)) :
    pushFrontFuel fuel (e :: rest) = none := by
  obtain ⟨k, v⟩ := e
  show (pushFrontGo fuel ((k, v) :: rest) (some k)).map
    (fun m => natMapInsertNew m 0 Node.nul) = none
  rw [pushFrontGo_nonterm]
  · rfl
  · simp [natMapFind]

/-- C4 (code_bug): `PushFront` on any nonempty sequence never terminates:
the loop keeps inserting `it->first + 1` and the forward iterator lands
on the just-inserted successor each time, so it never reaches the end —
the claim instead promises termination, a shift of every child from `i`
to `i+1`, and a fresh child at position 0. -/
theorem c4_pushfront_diverges (fuel : Nat) (e : Nat × Node) (rest : List (Nat × Node)) :
    Node.pushFrontOp fuel (Node.seq (e :: rest)) = none := by
  show (pushFrontFuel fuel (e :: rest)).map Node.seq = none
  rw [pushFrontFuel_nonempty]
  rfl

/-- C5 (counterexample): not every node operation is total — `PushFront`
on a two-element sequence does not terminate for any amount of fuel. -/
theorem c5_counterexample :
    ¬ PushFrontTerminates [(0, Node.nul), (1, Node.nul)] := by
  rintro ⟨fuel, m, h⟩
  rw [pushFrontFuel_nonempty] at h
  exact Option.noConfusion h

/-- C5 (amended): the read and erase operations are total with the
claimed behavior — an absent index reads as the sentinel None node,
erase-at on a non-sequence and erase-key on a non-map leave the node
unchanged — though `PushFront`/`Insert` are excluded from totality. -/
theorem c5_total_lookup_erase :
    (∀ (n : Node) (i : Nat), n.kind ≠ NType.seqT → n.eraseIndexOp i = n) ∧
    (∀ (n : Node) (k : Str), n.kind ≠ NType.mapT → n.eraseKeyOp k = n) ∧
    (∀ (n : Node) (i : Nat), seqHasIdx (n.getIndexOp i).1 i = false →
      (n.getIndexOp i).2 = Node.nul) := by
  refine ⟨?_, ?_, ?_⟩
  · intro n i h
    cases n with
    | seq es => exact absurd rfl h
    | nul => rfl
    | scalar s => rfl
    | map es => rfl
  · intro n k h
    cases n with
    | map es => exact absurd rfl h
    | nul => rfl
    | scalar s => rfl
    | seq es => rfl
  · intro n i h
    cases n with
    | seq es =>
      simp only [Node.getIndexOp, initSequenceN, seqHasIdx] at h ⊢
      cases hf : natMapFind es i with
      | none => simp [hf]
      | some c => simp [hf] at h
    | nul => rfl
    | scalar s => rfl
    | map es => rfl

/-- C5 (witness). -/
theorem c5_total_lookup_erase_witness :
    (Node.scalar ['a']).eraseIndexOp 0 = Node.scalar ['a'] ∧
    (Node.scalar ['a']).eraseKeyOp ['k'] = Node.scalar ['a'] ∧
    ((Node.seq [(1, Node.nul)]).getIndexOp 0).2 = Node.nul :=
  ⟨c5_total_lookup_erase.1 (Node.scalar ['a']) 0 (by decide),
   c5_total_lookup_erase.2.1 (Node.scalar ['a']) ['k'] (by decide),
   c5_total_lookup_erase.2.2 (Node.seq [(1, Node.nul)]) 0 (by rfl)⟩

/-! ## Sequence density (claim C3) -/

/-- C3 (counterexample): two push-backs followed by erase-at(0) leave
the sequence with size 1 but no entry at index 0 — `child-at(0)` is a
sentinel miss, so the sequence does not index densely from 0. -/
theorem c3_counterexample :
    applySeqOps 1 Node.nul [SeqOp.pushB, SeqOp.pushB, SeqOp.eraseAt 0] =
      some (Node.seq [(1, Node.nul)]) ∧
    (Node.seq [(1, Node.nul)]).sizeN = 1 ∧
    seqHasIdx (Node.seq [(1, Node.nul)]) 0 = false :=
  ⟨rfl, rfl, rfl⟩

theorem denseFrom_append (v : Node) :
    ∀ (es : List (Nat × Node)) (s : Nat), DenseFrom s es →
      DenseFrom s (es ++ [(s + es.length, v)]) := by
  intro es
  induction es with
  | nil => intro s _; exact ⟨by simp, trivial⟩
  | cons hd tl ih =>
    intro s h
    obtain ⟨k, c⟩ := hd
    obtain ⟨hk, htl⟩ := h
    subst hk
    refine ⟨rfl, ?_⟩
    have := ih (k + 1) htl
    have harith : k + 1 + tl.length = k + (tl.length + 1) := by omega
    rw [harith] at this
    simpa using this

theorem natMapInsertNew_append (v : Node) :
    ∀ (es : List (Nat × Node)) (s : Nat), DenseFrom s es →
      natMapInsertNew es (s + es.length) v = es ++ [(s + es.length, v)] := by
  intro es
  induction es with
  | nil => intro s _; simp [natMapInsertNew]
  | cons hd tl ih =>
    intro s h
    obtain ⟨k, c⟩ := hd
    obtain ⟨hk, htl⟩ := h
    subst hk
    show natMapInsertNew ((k, c) :: tl) (k + (tl.length + 1)) v = _
    have h1 : ¬ (k + (tl.length + 1) < k) := by omega
    have h2 : ¬ (k + (tl.length + 1) = k) := by omega
    simp only [natMapInsertNew, if_neg h1, if_neg h2, List.cons_append, List.length_cons]
    have := ih (k + 1) htl
    rw [show k + (tl.length + 1) = k + 1 + tl.length by omega, this]

theorem natMapLastKey_dense :
    ∀ (es : List (Nat × Node)) (s : Nat), DenseFrom s es → es ≠ [] →
      natMapLastKey es = some (s + es.length - 1) := by
  intro es
  induction es with
  | nil => intro s _ h; exact absurd rfl h
  | cons hd tl ih =>
    intro s h _
    obtain ⟨k, c⟩ := hd
    obtain ⟨hk, htl⟩ := h
    subst hk
    cases tl with
    | nil => simp [natMapLastKey]
    | cons hd2 tl2 =>
      have := ih (k + 1) htl (by simp)
      simp only [natMapLastKey, this, List.length_cons]
      congr 1
      omega

theorem natMapFind_dense :
    ∀ (es : List (Nat × Node)) (s i : Nat), DenseFrom s es → i < es.length →
      (natMapFind es (s + i)).isSome = true := by
  intro es
  induction es with
  | nil => intro s i _ h; simp at h
  | cons hd tl ih =>
    intro s i h hi
    obtain ⟨k, c⟩ := hd
    obtain ⟨hk, htl⟩ := h
    subst hk
    cases i with
    | zero => simp [natMapFind]
    | succ j =>
      have h1 : ¬ (k + (j + 1) = k) := by omega
      simp only [natMapFind, if_neg h1]
      have := ih (k + 1) j htl (by simpa using hi)
      rwa [show k + 1 + j = k + (j + 1) by omega] at this

theorem pushBackOp_dense (es : List (Nat × Node)) (hd : DenseFrom 0 es) :
    (Node.seq es).pushBackOp = (es.length, Node.seq (es ++ [(es.length, Node.nul)])) := by
  cases es with
  | nil => rfl
  | cons e0 tl =>
    have hlast := natMapLastKey_dense (e0 :: tl) 0 hd (by simp)
    have happ := natMapInsertNew_append Node.nul (e0 :: tl) 0 hd
    simp only [Nat.zero_add] at hlast happ
    have harith : (e0 :: tl).length - 1 + 1 = (e0 :: tl).length := by simp
    simp only [Node.pushBackOp, initSequenceN, seqPushBackE, hlast, harith, happ]

/-- The invariant carried through the operations: the node is either the
initial None node or a sequence with keys exactly `0..n-1`. -/
theorem applySeqOps_dense_inv :
    ∀ (ops : List SeqOp) (fuel : Nat) (n : Node),
      (∀ op ∈ ops, op.isErase = false) →
      (n = Node.nul ∨ ∃ es, n = Node.seq es ∧ DenseFrom 0 es) →
      ∀ s, applySeqOps fuel n ops = some s →
        s = Node.nul ∨ ∃ es, s = Node.seq es ∧ DenseFrom 0 es := by
  intro ops
  induction ops with
  | nil =>
    intro fuel n _ hinv s h
    simp only [applySeqOps] at h
    cases h
    exact hinv
  | cons op rest ih =>
    intro fuel n hops hinv s h
    simp only [applySeqOps] at h
    cases hop : applySeqOp fuel n op with
    | none => rw [hop] at h; exact Option.noConfusion h
    | some n' =>
      rw [hop] at h
      refine ih fuel n' (fun o ho => hops o (List.mem_cons_of_mem _ ho)) ?_ s h
      -- show the invariant is preserved by one non-erase operation
      have hopE : op.isErase = false := hops op (List.mem_cons_self _ _)
      cases op with
      | eraseAt i => simp [SeqOp.isErase] at hopE
      | pushB =>
        simp only [applySeqOp] at hop
        rcases hinv with hn | ⟨es, hn, hd⟩
        · subst hn
          cases hop
          right
          exact ⟨[(0, Node.nul)], rfl, rfl, trivial⟩
        · subst hn
          rw [pushBackOp_dense es hd] at hop
          cases hop
          right
          refine ⟨es ++ [(es.length, Node.nul)], rfl, ?_⟩
          have := denseFrom_append Node.nul es 0 hd
          simpa using this
      | pushF =>
        simp only [applySeqOp, Node.pushFrontOp] at hop
        rcases hinv with hn | ⟨es, hn, hd⟩
        · subst hn
          simp only [initSequenceN] at hop
          cases fuel with
          | zero => simp [pushFrontFuel, pushFrontGo] at hop
          | succ f =>
            simp only [pushFrontFuel, pushFrontGo, List.head?, Option.map] at hop
            cases hop
            right
            exact ⟨[(0, Node.nul)], rfl, rfl, trivial⟩
        · subst hn
          simp only [initSequenceN] at hop
          cases es with
          | nil =>
            cases fuel with
            | zero => simp [pushFrontFuel, pushFrontGo] at hop
            | succ f =>
              simp only [pushFrontFuel, pushFrontGo, List.head?, Option.map] at hop
              cases hop
              right
              exact ⟨[(0, Node.nul)], rfl, rfl, trivial⟩
          | cons e0 tl =>
            rw [pushFrontFuel_nonempty] at hop
            exact Option.noConfusion hop

/-- C3 (amended): after any finite mix of push-back and push-front
operations that completes, the sequence indexes densely: `child-at(i)`
is a present entry for every `i` in `[0, size)` (erase-at is excluded:
it removes the entry without reindexing, see the counterexample). -/
theorem c3_density (ops : List SeqOp) (fuel : Nat) (s : Node)
    (hops : ∀ op ∈ ops, op.isErase = false)
    (h : applySeqOps fuel Node.nul ops = some s) :
    DenseNode s := by
  have hinv := applySeqOps_dense_inv ops fuel Node.nul hops (Or.inl (by trivial)) s h
  rcases hinv with rfl | ⟨es, rfl, hd⟩
  · intro i hi; simp [Node.sizeN] at hi
  · intro i hi
    simp only [Node.sizeN] at hi
    simp only [seqHasIdx]
    have := natMapFind_dense es 0 i hd hi
    simpa using this

/-- C3 (witness). -/
theorem c3_density_witness : DenseNode (Node.seq [(0, Node.nul), (1, Node.nul)]) :=
  c3_density [SeqOp.pushB, SeqOp.pushB] 1 (Node.seq [(0, Node.nul), (1, Node.nul)])
    (by decide) rfl

/-! ## Line folding (claim C9) -/

theorem findIdxOpt_bound (p : Char → Bool) :
    ∀ (l : Str) (i : Nat), findIdxOpt p l = some i → i < l.length := by
  intro l
  induction l with
  | nil => intro i h; simp [findIdxOpt] at h
  | cons hd tl ih =>
    intro i h
    simp only [findIdxOpt] at h
    by_cases hp : p hd
    · rw [if_pos hp] at h
      cases h
      simp
    · rw [if_neg hp] at h
      cases hi : findIdxOpt p tl with
      | none => rw [hi] at h; simp at h
      | some j =>
        rw [hi] at h
        simp only [Option.map_some'] at h
        cases h
        have := ih j hi
        simp
        omega

theorem findIdxOpt_getElem? (p : Char → Bool) :
    ∀ (l : Str) (i : Nat), findIdxOpt p l = some i →
      ∃ c, l[i]? = some c ∧ p c = true := by
  intro l
  induction l with
  | nil => intro i h; simp [findIdxOpt] at h
  | cons hd tl ih =>
    intro i h
    simp only [findIdxOpt] at h
    by_cases hp : p hd
    · rw [if_pos hp] at h
      cases h
      exact ⟨hd, by simp, hp⟩
    · rw [if_neg hp] at h
      cases hi : findIdxOpt p tl with
      | none => rw [hi] at h; simp at h
      | some j =>
        rw [hi] at h
        simp only [Option.map_some'] at h
        obtain ⟨c, hc1, hc2⟩ := ih j hi
        cases h
        exact ⟨c, by simpa using hc1, hc2⟩

theorem findIdxOpt_none (p : Char → Bool) :
    ∀ (l : Str), findIdxOpt p l = none ↔ ∀ c ∈ l, p c = false := by
  intro l
  induction l with
  | nil => simp [findIdxOpt]
  | cons hd tl ih =>
    simp only [findIdxOpt]
    by_cases hp : p hd
    · simp [hp]
    · simp only [if_neg hp, Option.map_eq_none', ih, List.mem_cons]
      constructor
      · intro h c hc
        rcases hc with rfl | hc
        · simpa using hp
        · exact h c hc
      · intro h c hc
        exact h c (Or.inr hc)

theorem lineFoldingGo_isSome :
    ∀ (fuel : Nat) (input : Str) (L lastPos : Nat),
      input.length + 1 ≤ fuel + lastPos → lastPos ≤ input.length →
      (lineFoldingGo fuel input L lastPos).isSome = true := by
  intro fuel
  induction fuel with
  | zero => intro input L lastPos h1 h2; omega
  | succ f ih =>
    intro input L lastPos h1 h2
    simp only [lineFoldingGo]
    by_cases hc : lastPos + L < input.length
    · simp only [if_pos hc]
      cases hf : findIdxOpt (fun c => decide (c = ' ')) (input.drop (lastPos + L)) with
      | none => simp
      | some i =>
        simp only [Option.isSome_map']
        have hib : i < (input.drop (lastPos + L)).length := findIdxOpt_bound _ _ _ hf
        rw [List.length_drop] at hib
        apply ih
        · omega
        · omega
    · simp [if_neg hc]

/-- C9 (counterexample): on the empty input `LineFolding` clears the
output and returns zero pieces, not at least one. -/
theorem c9_counterexample :
    lineFolding [] 5 = [] ∧ ¬ (1 ≤ (lineFolding [] 5).length) :=
  ⟨rfl, by decide⟩

/-- C9 (amended): for every nonempty input and positive max-length, the
folding produces at least one piece, and two or more pieces only when a
splittable space exists at or after position `L`. -/
theorem c9_folding (input : Str) (L : Nat) (hne : input ≠ []) (_hL : 0 < L) :
    1 ≤ (lineFolding input L).length ∧
    (2 ≤ (lineFolding input L).length → ∃ i, L ≤ i ∧ input[i]? = some ' ') := by
  have hlen : 0 < input.length := List.length_pos.mpr hne
  unfold lineFolding
  rw [if_neg hne]
  show 1 ≤ ((lineFoldingGo (input.length + 1) input L 0).getD []).length ∧ _
  simp only [lineFoldingGo]
  by_cases hc : 0 + L < input.length
  · rw [if_pos hc]
    cases hf : findIdxOpt (fun c => decide (c = ' ')) (input.drop (0 + L)) with
    | none =>
      simp only [List.drop_zero, if_neg hne, Option.getD_some]
      exact ⟨by simp, by intro h2; simp at h2⟩
    | some i =>
      have hib : i < (input.drop (0 + L)).length := findIdxOpt_bound _ _ _ hf
      have hib' : i < input.length - (0 + L) := by rwa [List.length_drop] at hib
      have hs : (lineFoldingGo input.length input L (0 + L + i + 1)).isSome = true := by
        apply lineFoldingGo_isSome <;> omega
      obtain ⟨rest, hrest⟩ := Option.isSome_iff_exists.mp hs
      simp only [hrest, Option.map_some', Option.getD_some]
      refine ⟨by simp, ?_⟩
      intro _
      refine ⟨0 + L + i, by omega, ?_⟩
      obtain ⟨c, hc1, hc2⟩ := findIdxOpt_getElem? _ _ _ hf
      have hc3 : c = ' ' := of_decide_eq_true hc2
      subst hc3
      rw [← List.getElem?_drop]
      exact hc1
  · rw [if_neg hc]
    simp only [List.drop_zero, if_neg hne, Option.getD_some]
    exact ⟨by simp, by intro h2; simp at h2⟩

/-- C9 (witness). -/
theorem c9_folding_witness :
    1 ≤ (lineFolding ['a', ' ', 'b'] 1).length ∧
    (2 ≤ (lineFolding ['a', ' ', 'b'] 1).length →
      ∃ i, 1 ≤ i ∧ (['a', ' ', 'b'] : Str)[i]? = some ' ') :=
  c9_folding ['a', ' ', 'b'] 1 (by decide) (by decide)

/-! ## Failure resets the root and frees the line list (claim C6) -/

/-- C6 (confirmed): whenever the parse pipeline raises one of the error
kinds, the catch-all handler in `ReaderImp::Parse` has run `ClearLines()`
and `root.Clear()`, so the surfaced outcome carries a None root and an
empty `ReaderLine` list — no partially built tree remains. -/
theorem c6_failed_resets (input : Str) (e : Err) (r : Node) (ls : List RL)
    (h : parseTop input = POut.failed e r ls) : r = Node.nul ∧ ls = [] := by
  unfold parseTop at h
  split at h
  · cases h; exact ⟨rfl, rfl⟩
  · split at h
    · cases h; exact ⟨rfl, rfl⟩
    · cases h
    · split at h
      · cases h; exact ⟨rfl, rfl⟩
      · cases h
      · cases h

/-- C6 (witness): the input `":"` raises `keyMissing`; the outcome
carries the cleared root and the freed line list. -/
theorem c6_failed_resets_witness : Node.nul = Node.nul ∧ ([] : List RL) = [] :=
  c6_failed_resets ":".toList Err.keyMissing Node.nul [] rfl

/-! ## Single quotes never open quoted spans (claim C7) -/

/-- C7 (counterexample): a `#` lying between two single quotes is found
by `FindNotCited` (position 2), so it starts a comment — `ReadLines`
truncates the line to the part before it; a `:` between single quotes is
likewise taken as the map key separator. -/
theorem c7_counterexample :
    findNotCited "'a#b'".toList '#' = some 2 ∧
    findNotCited "'a:b'".toList ':' = some 2 ∧
    (readLinesS "'a#b'".toList).map (List.map RL.data) = Except.ok ["'a".toList] :=
  ⟨rfl, rfl, rfl⟩

theorem collectQuotesGo_no_dq :
    ∀ (s : Str) (pos : Nat) (prev : Option Char), '"' ∉ s →
      collectQuotesGo none pos prev s = [] := by
  intro s
  induction s with
  | nil => intro pos prev _; rfl
  | cons c rest ih =>
    intro pos prev h
    have hc : ¬ (c = '"') := fun hcc => h (hcc ▸ List.mem_cons_self c rest)
    have hcond : ¬ (c = '"' ∧ (pos = 0 ∨ prev ≠ some '\\')) := fun hx => hc hx.1
    simp only [collectQuotesGo, if_neg hcond]
    exact ih (pos + 1) (some c) (fun hx => h (List.mem_cons_of_mem c hx))

theorem collectQuotes_no_dq (s : Str) (h : '"' ∉ s) : collectQuotes s = [] :=
  collectQuotesGo_no_dq s 0 none h

/-- C7 (amended): a single quote is scanned over but never opens or
closes a quoted span — only unescaped double quotes do.  On any line
without a double quote (however many single quotes it has), the
"not-cited" search for a token is the plain first-occurrence search, so
a `#` between single quotes starts a comment and a `:` between single
quotes is the map key separator. -/
theorem c7_single_quotes_never_cite (s : Str) (tok : Char) (h : '"' ∉ s) :
    findNotCited s tok = findCharFrom s tok 0 := by
  unfold findNotCited findNotCitedPQ
  rw [collectQuotes_no_dq s h]
  cases hf : findCharFrom s tok 0 with
  | none => rfl
  | some tp => rfl

/-- C7 (witness). -/
theorem c7_single_quotes_never_cite_witness :
    findNotCited "'a#b'".toList '#' = findCharFrom "'a#b'".toList '#' 0 :=
  c7_single_quotes_never_cite "'a#b'".toList '#' (by decide)

/-! ## Document markers (claim C8) -/

/-- C8 (counterexample): the exact line `---` discards the accumulated
lines even when it occurs after a non-marker content line — parsing
`"a: 1\n---\nb: 2\n"` keeps only `b: 2`, so the marker is not limited to
occurring before the first content line. -/
theorem c8_counterexample :
    (readLinesS "a: 1\n---\nb: 2\n".toList).map (List.map RL.data) =
      Except.ok ["b: 2".toList] :=
  rfl

/-- C8 (amended): an exact line `---` acts as the start-of-document
marker — discarding every line accumulated so far — exactly on its first
occurrence, whether or not content lines preceded it; after that flag is
set, a later `---` is an ordinary content line.  An exact line `...`
terminates reading immediately: the accumulated lines are returned and
the remaining input is ignored, whatever it is. -/
theorem c8_markers :
    (∀ (rest : List Str) (n : Nat) (acc : List RL),
      readLinesGo ("---".toList :: rest) false n acc = readLinesGo rest true (n + 1) []) ∧
    (∀ (rest : List Str) (n : Nat) (acc : List RL),
      readLinesGo ("---".toList :: rest) true n acc =
        readLinesGo rest true (n + 1) (acc ++ [{ data := "---".toList, no := n + 1, offset := 0 }])) ∧
    (∀ (rest : List Str) (found : Bool) (n : Nat) (acc : List RL),
      readLinesGo ("...".toList :: rest) found n acc = Except.ok acc) := by
  refine ⟨fun rest n acc => rfl, fun rest n acc => rfl, fun rest found n acc => ?_⟩
  cases found <;> rfl

/-! ## The byte-string order used by `std::map<std::string, Node*>` -/

theorem uint32_lt_toNat (a b : UInt32) : a < b ↔ a.toNat < b.toNat :=
  ⟨fun h => by exact_mod_cast h, fun h => by exact_mod_cast h⟩

theorem char_eq_of_not_lt (a b : Char) (h1 : ¬ a.val < b.val) (h2 : ¬ b.val < a.val) :
    a = b := by
  apply Char.ext
  apply UInt32.ext
  rw [uint32_lt_toNat] at h1 h2
  omega

theorem strLtB_irrefl : ∀ (a : Str), strLtB a a = false := by
  intro a
  induction a with
  | nil => rfl
  | cons c rest ih =>
    have h : ¬ c.val < c.val := by rw [uint32_lt_toNat]; omega
    simp only [strLtB, if_neg h]
    exact ih

theorem strLtB_asymm : ∀ (a b : Str), strLtB a b = true → strLtB b a = false := by
  intro a
  induction a with
  | nil =>
    intro b h
    cases b with
    | nil => rfl
    | cons c rest => rfl
  | cons c rest ih =>
    intro b h
    cases b with
    | nil => exact absurd h (by simp [strLtB])
    | cons d ds =>
      simp only [strLtB] at h ⊢
      by_cases h1 : c.val < d.val
      · have h2 : ¬ d.val < c.val := by
          rw [uint32_lt_toNat] at h1 ⊢; omega
        rw [if_neg h2, if_pos h1]
      · rw [if_neg h1] at h
        by_cases h2 : d.val < c.val
        · rw [if_pos h2] at h; exact Bool.noConfusion h
        · rw [if_neg h2] at h
          rw [if_neg h2, if_neg h1]
          exact ih ds h

theorem strLtB_trans : ∀ (a b c : Str),
    strLtB a b = true → strLtB b c = true → strLtB a c = true := by
  intro a
  induction a with
  | nil =>
    intro b c hab hbc
    cases b with
    | nil => exact hbc
    | cons d ds =>
      cases c with
      | nil => exact absurd hbc (by simp [strLtB])
      | cons e es => rfl
  | cons x xs ih =>
    intro b c hab hbc
    cases b with
    | nil => exact absurd hab (by simp [strLtB])
    | cons d ds =>
      cases c with
      | nil => exact absurd hbc (by simp [strLtB])
      | cons e es =>
        simp only [strLtB] at hab hbc ⊢
        by_cases h1 : x.val < d.val
        · by_cases h2 : d.val < e.val
          · have hxe : x.val < e.val := by
              rw [uint32_lt_toNat] at h1 h2 ⊢; omega
            rw [if_pos hxe]
          · rw [if_neg h2] at hbc
            by_cases h3 : e.val < d.val
            · rw [if_pos h3] at hbc; exact Bool.noConfusion hbc
            · have hde : d = e := char_eq_of_not_lt d e h2 h3
              subst hde
              rw [if_pos h1]
        · rw [if_neg h1] at hab
          by_cases h4 : d.val < x.val
          · rw [if_pos h4] at hab; exact Bool.noConfusion hab
          · have hxd : x = d := char_eq_of_not_lt x d h1 h4
            subst hxd
            rw [if_neg h4] at hab
            by_cases h2 : x.val < e.val
            · rw [if_pos h2]
            · rw [if_neg h2] at hbc
              by_cases h3 : e.val < x.val
              · rw [if_pos h3] at hbc; exact Bool.noConfusion hbc
              · have hxe : x = e := char_eq_of_not_lt x e h2 h3
                subst hxe
                rw [if_neg h3] at hbc
                rw [if_neg h2, if_neg h2]
                exact ih ds es hab hbc

theorem strLtB_trichotomy : ∀ (a b : Str),
    strLtB a b = true ∨ a = b ∨ strLtB b a = true := by
  intro a
  induction a with
  | nil =>
    intro b
    cases b with
    | nil => exact Or.inr (Or.inl (by trivial))
    | cons d ds => exact Or.inl rfl
  | cons x xs ih =>
    intro b
    cases b with
    | nil => exact Or.inr (Or.inr rfl)
    | cons d ds =>
      by_cases h1 : x.val < d.val
      · exact Or.inl (by simp only [strLtB, if_pos h1])
      · by_cases h2 : d.val < x.val
        · exact Or.inr (Or.inr (by simp only [strLtB, if_pos h2]))
        · have hxd : x = d := char_eq_of_not_lt x d h1 h2
          subst hxd
          rcases ih ds with h | h | h
          · exact Or.inl (by simp only [strLtB, if_neg h1, if_neg h2]; exact h)
          · subst h; exact Or.inr (Or.inl (by trivial))
          · exact Or.inr (Or.inr (by simp only [strLtB, if_neg h1, if_neg h2]; exact h))

/-! ## Map iteration order and the emitter (claim C1) -/

/-- C1 (counterexample): inserting key `b` before key `a` still iterates
and serializes `a` first — `std::map` orders by key, not by insertion. -/
theorem c1_counterexample :
    iterKeys (mapSetScalar (mapSetScalar Node.nul "b".toList "2".toList)
      "a".toList "1".toList) = ["a".toList, "b".toList] ∧
    serializeTop (mapSetScalar (mapSetScalar Node.nul "b".toList "2".toList)
      "a".toList "1".toList) cfg0 = Except.ok "a: 1\nb: 2\n".toList :=
  ⟨rfl, rfl⟩

theorem chain'_strMapInsertNew (k : Str) (v : Node) :
    ∀ (es : List (Str × Node)),
      List.Chain' (fun a b => strLtB a b = true) (es.map Prod.fst) →
      List.Chain' (fun a b => strLtB a b = true)
        ((strMapInsertNew es k v).map Prod.fst) := by
  intro es
  induction es with
  | nil => intro _; simp [strMapInsertNew]
  | cons hd tl ih =>
    intro h
    obtain ⟨k', v'⟩ := hd
    rw [List.map_cons, List.chain'_cons'] at h
    obtain ⟨hhead, htl⟩ := h
    by_cases h1 : strLtB k k' = true
    · simp only [strMapInsertNew, if_pos h1, List.map_cons, List.chain'_cons]
      refine ⟨h1, ?_⟩
      rw [List.chain'_cons']
      exact ⟨hhead, htl⟩
    · by_cases h2 : k = k'
      · simp only [strMapInsertNew, if_neg h1, if_pos h2, List.map_cons]
        rw [List.chain'_cons']
        exact ⟨hhead, htl⟩
      · have h3 : strLtB k' k = true := by
          rcases strLtB_trichotomy k k' with h | h | h
          · exact absurd h h1
          · exact absurd h h2
          · exact h
        simp only [strMapInsertNew, if_neg h1, if_neg h2, List.map_cons]
        rw [List.chain'_cons']
        refine ⟨?_, ih htl⟩
        intro y hy
        cases tl with
        | nil =>
          simp [strMapInsertNew] at hy
          subst hy
          exact h3
        | cons hd2 tl2 =>
          obtain ⟨k2, v2⟩ := hd2
          by_cases g1 : strLtB k k2 = true
          · simp [strMapInsertNew, if_pos g1] at hy
            subst hy
            exact h3
          · by_cases g2 : k = k2
            · simp [strMapInsertNew, if_neg g1, if_pos g2] at hy
              subst hy
              exact hhead k2 (by simp)
            · simp [strMapInsertNew, if_neg g1, if_neg g2] at hy
              subst hy
              exact hhead k2 (by simp)

theorem chain'_strMapAssign (k : Str) (v : Node) :
    ∀ (es : List (Str × Node)),
      List.Chain' (fun a b => strLtB a b = true) (es.map Prod.fst) →
      List.Chain' (fun a b => strLtB a b = true)
        ((strMapAssign es k v).map Prod.fst) := by
  intro es
  induction es with
  | nil => intro _; simp [strMapAssign]
  | cons hd tl ih =>
    intro h
    obtain ⟨k', v'⟩ := hd
    rw [List.map_cons, List.chain'_cons'] at h
    obtain ⟨hhead, htl⟩ := h
    by_cases h1 : strLtB k k' = true
    · simp only [strMapAssign, if_pos h1, List.map_cons, List.chain'_cons]
      refine ⟨h1, ?_⟩
      rw [List.chain'_cons']
      exact ⟨hhead, htl⟩
    · by_cases h2 : k = k'
      · subst h2
        simp only [strMapAssign, if_neg h1, eq_self_iff_true, if_true, List.map_cons]
        rw [List.chain'_cons']
        exact ⟨hhead, htl⟩
      · have h3 : strLtB k' k = true := by
          rcases strLtB_trichotomy k k' with h | h | h
          · exact absurd h h1
          · exact absurd h h2
          · exact h
        simp only [strMapAssign, if_neg h1, if_neg h2, List.map_cons]
        rw [List.chain'_cons']
        refine ⟨?_, ih htl⟩
        intro y hy
        cases tl with
        | nil =>
          simp [strMapAssign] at hy
          subst hy
          exact h3
        | cons hd2 tl2 =>
          obtain ⟨k2, v2⟩ := hd2
          by_cases g1 : strLtB k k2 = true
          · simp [strMapAssign, if_pos g1] at hy
            subst hy
            exact h3
          · by_cases g2 : k = k2
            · subst g2
              simp [strMapAssign, if_neg g1] at hy
              subst hy
              exact h3
            · simp [strMapAssign, if_neg g1, if_neg g2] at hy
              subst hy
              exact hhead k2 (by simp)

theorem strMapAssign_insertNew_collapse (k : Str) (x v : Node) :
    ∀ (es : List (Str × Node)),
      strMapAssign (strMapInsertNew es k x) k v = strMapAssign es k v := by
  intro es
  induction es with
  | nil =>
    have h : ¬ (strLtB k k = true) := by rw [strLtB_irrefl]; simp
    simp [strMapInsertNew, strMapAssign, h]
  | cons hd tl ih =>
    obtain ⟨k', v'⟩ := hd
    by_cases h1 : strLtB k k' = true
    · have hirr : ¬ (strLtB k k = true) := by rw [strLtB_irrefl]; simp
      simp [strMapInsertNew, strMapAssign, h1, hirr]
    · by_cases h2 : k = k'
      · subst h2
        simp [strMapInsertNew, strMapAssign, h1]
      · simp [strMapInsertNew, strMapAssign, h1, h2, ih]

theorem mapValsScalarB_assign (k : Str) (s : Str) :
    ∀ (es : List (Str × Node)), mapValsScalarB es = true →
      mapValsScalarB (strMapAssign es k (Node.scalar s)) = true := by
  intro es
  induction es with
  | nil => intro _; simp [strMapAssign, mapValsScalarB]
  | cons hd tl ih =>
    intro h
    obtain ⟨k', v'⟩ := hd
    simp only [mapValsScalarB, Bool.and_eq_true] at h
    by_cases h1 : strLtB k k' = true
    · simp only [strMapAssign, if_pos h1]
      simp [mapValsScalarB, h.1, h.2]
    · by_cases h2 : k = k'
      · simp only [strMapAssign, if_neg h1, if_pos h2]
        simp [mapValsScalarB, h.2]
      · simp only [strMapAssign, if_neg h1, if_neg h2]
        simp [mapValsScalarB, h.1, ih h.2]

theorem assignStr_eq (n : Node) (s : Str) : n.assignStr s = Node.scalar s := by
  cases n <;> rfl

theorem mapSetScalar_nul (k v : Str) :
    mapSetScalar Node.nul k v = Node.map (strMapAssign [] k (Node.scalar v)) := by
  simp only [mapSetScalar, Node.getKeyOp, initMapN, mapGetNodeE, strMapFind, Node.mapSetAt,
    assignStr_eq]
  rw [strMapAssign_insertNew_collapse]

theorem mapSetScalar_map (es : List (Str × Node)) (k v : Str) :
    mapSetScalar (Node.map es) k v = Node.map (strMapAssign es k (Node.scalar v)) := by
  cases hf : strMapFind es k with
  | some c =>
    simp only [mapSetScalar, Node.getKeyOp, initMapN, mapGetNodeE, hf, Node.mapSetAt,
      assignStr_eq]
  | none =>
    simp only [mapSetScalar, Node.getKeyOp, initMapN, mapGetNodeE, hf, Node.mapSetAt,
      assignStr_eq]
    rw [strMapAssign_insertNew_collapse]

theorem foldl_mapSetScalar_inv (kvs : List (Str × Str)) :
    ∀ (n : Node),
      (n = Node.nul ∨ ∃ es, n = Node.map es ∧
        List.Chain' (fun a b => strLtB a b = true) (es.map Prod.fst) ∧
        mapValsScalarB es = true) →
      ((kvs.foldl (fun m kv => mapSetScalar m kv.1 kv.2) n) = Node.nul ∨
        ∃ es, (kvs.foldl (fun m kv => mapSetScalar m kv.1 kv.2) n) = Node.map es ∧
          List.Chain' (fun a b => strLtB a b = true) (es.map Prod.fst) ∧
          mapValsScalarB es = true) := by
  induction kvs with
  | nil => intro n h; simp only [List.foldl_nil]; exact h
  | cons kv rest ih =>
    intro n h
    obtain ⟨k, v⟩ := kv
    simp only [List.foldl_cons]
    apply ih
    rcases h with rfl | ⟨es, rfl, hchain, hvals⟩
    · right
      refine ⟨strMapAssign [] k (Node.scalar v), mapSetScalar_nul k v, ?_, ?_⟩
      · exact chain'_strMapAssign k (Node.scalar v) [] (by simp)
      · exact mapValsScalarB_assign k v [] rfl
    · right
      refine ⟨strMapAssign es k (Node.scalar v), mapSetScalar_map es k v, ?_, ?_⟩
      · exact chain'_strMapAssign k (Node.scalar v) es hchain
      · exact mapValsScalarB_assign k v es hvals

theorem serMapEs_scalars :
    ∀ (es : List (Str × Node)) (ul : Bool) (cnt : Nat), mapValsScalarB es = true →
      serMapEs es ul cnt 0 cfg0 =
        (es.map (fun kv => renderKey kv.1 ++ serScalar kv.2.asStr false 2 cfg0)).flatten := by
  intro es
  induction es with
  | nil => intro ul cnt _; rfl
  | cons hd tl ih =>
    intro ul cnt h
    obtain ⟨k, val⟩ := hd
    simp only [mapValsScalarB, Bool.and_eq_true] at h
    obtain ⟨h1, h2⟩ := h
    cases val with
    | nul => exact absurd h1 (by simp)
    | seq s => exact absurd h1 (by simp)
    | map s => exact absurd h1 (by simp)
    | scalar s =>
      simp only [serMapEs, Node.kind]
      rw [ih true (cnt + 1) h2]
      simp [cfg0, renderKey, Node.asStr, List.replicate, ite_self, serNode]

/-- C1 (amended): map iteration visits entries in strictly ascending
lexicographic key order — the `std::map` order, regardless of insertion
order — and the emitter walks the same iteration, emitting one
`key: value` block per entry in exactly that order. -/
theorem c1_sorted_iteration (kvs : List (Str × Str)) :
    List.Chain' (fun a b => strLtB a b = true)
      (iterKeys (kvs.foldl (fun m kv => mapSetScalar m kv.1 kv.2) Node.nul)) ∧
    serNode (kvs.foldl (fun m kv => mapSetScalar m kv.1 kv.2) Node.nul) false 0 cfg0 =
      ((iterEntries (kvs.foldl (fun m kv => mapSetScalar m kv.1 kv.2) Node.nul)).map
        (fun kv => renderKey kv.1 ++ serScalar kv.2.asStr false 2 cfg0)).flatten := by
  have hinv := foldl_mapSetScalar_inv kvs Node.nul (Or.inl (by trivial))
  rcases hinv with h | ⟨es, h, hchain, hvals⟩
  · rw [h]
    exact ⟨List.chain'_nil, rfl⟩
  · rw [h]
    refine ⟨hchain, ?_⟩
    show serMapEs es false 0 0 cfg0 = _
    exact serMapEs_scalars es false 0 hvals

/-! ## Deep-copy assignment (claim C10) -/

/-- C10 (counterexample): assigning from a distinct node that is an
empty sequence produces a None node, not a structurally equal sequence —
`CopyNode`'s sequence branch only acts per child, so an empty container
never coerces the target. -/
theorem c10_counterexample :
    (Node.assignNode Node.nul (Node.seq [])).kind = NType.noneT ∧
    (Node.seq []).kind = NType.seqT ∧
    structEqB (Node.assignNode Node.nul (Node.seq [])) (Node.seq []) = false :=
  ⟨rfl, rfl, rfl⟩

theorem natMapAssign_append_last (x v : Node) :
    ∀ (acc : List (Nat × Node)) (s : Nat), DenseFrom s acc →
      natMapAssign (acc ++ [(s + acc.length, x)]) (s + acc.length) v =
        acc ++ [(s + acc.length, v)] := by
  intro acc
  induction acc with
  | nil =>
    intro s _
    have h1 : ¬ (s + 0 < s + 0) := by omega
    simp [natMapAssign]
  | cons hd tl ih =>
    intro s h
    obtain ⟨k, c⟩ := hd
    obtain ⟨hk, htl⟩ := h
    subst hk
    have h1 : ¬ (k + (tl.length + 1) < k) := by omega
    have h2 : ¬ (k + (tl.length + 1) = k) := by omega
    simp only [List.cons_append, List.length_cons, natMapAssign, if_neg h1, if_neg h2,
      List.append_eq]
    have := ih (k + 1) htl
    rw [show k + 1 + tl.length = k + (tl.length + 1) by omega] at this
    rw [this]

theorem strMapFind_none_of_lt (k : Str) :
    ∀ (acc : List (Str × Node)),
      (∀ a ∈ acc.map Prod.fst, strLtB a k = true) → strMapFind acc k = none := by
  intro acc
  induction acc with
  | nil => intro _; rfl
  | cons hd tl ih =>
    intro hb
    obtain ⟨k', w⟩ := hd
    have hlt : strLtB k' k = true := hb k' (by rw [List.map_cons]; exact List.mem_cons_self _ _)
    have hne : ¬ (k = k') := by
      intro he
      subst he
      rw [strLtB_irrefl] at hlt
      exact Bool.noConfusion hlt
    simp only [strMapFind, if_neg hne]
    exact ih (fun a ha => hb a (by rw [List.map_cons]; exact List.mem_cons_of_mem _ ha))

theorem strMapInsertNew_append_all (k : Str) (v : Node) :
    ∀ (acc : List (Str × Node)),
      (∀ a ∈ acc.map Prod.fst, strLtB a k = true) →
      strMapInsertNew acc k v = acc ++ [(k, v)] := by
  intro acc
  induction acc with
  | nil => intro _; simp [strMapInsertNew]
  | cons hd tl ih =>
    intro hb
    obtain ⟨k', w⟩ := hd
    have hlt : strLtB k' k = true := hb k' (by rw [List.map_cons]; exact List.mem_cons_self _ _)
    have h1 : ¬ (strLtB k k' = true) := by
      rw [strLtB_asymm k' k hlt]
      simp
    have h2 : ¬ (k = k') := by
      intro he
      subst he
      rw [strLtB_irrefl] at hlt
      exact Bool.noConfusion hlt
    simp only [strMapInsertNew, if_neg h1, if_neg h2, List.cons_append, List.append_eq]
    rw [ih (fun a ha => hb a (by rw [List.map_cons]; exact List.mem_cons_of_mem _ ha))]

theorem strMapAssign_append_all (k : Str) (x v : Node) :
    ∀ (acc : List (Str × Node)),
      (∀ a ∈ acc.map Prod.fst, strLtB a k = true) →
      strMapAssign (acc ++ [(k, x)]) k v = acc ++ [(k, v)] := by
  intro acc
  induction acc with
  | nil =>
    intro _
    have h1 : ¬ (strLtB k k = true) := by rw [strLtB_irrefl]; simp
    simp [strMapAssign, h1]
  | cons hd tl ih =>
    intro hb
    obtain ⟨k', w⟩ := hd
    have hlt : strLtB k' k = true := hb k' (by rw [List.map_cons]; exact List.mem_cons_self _ _)
    have h1 : ¬ (strLtB k k' = true) := by
      rw [strLtB_asymm k' k hlt]
      simp
    have h2 : ¬ (k = k') := by
      intro he
      subst he
      rw [strLtB_irrefl] at hlt
      exact Bool.noConfusion hlt
    simp only [List.cons_append, strMapAssign, if_neg h1, if_neg h2, List.append_eq]
    rw [ih (fun a ha => hb a (by rw [List.map_cons]; exact List.mem_cons_of_mem _ ha))]

mutual

theorem copy_structEq : ∀ (src : Node), canonicalB src = true →
    structEqB (copyInto src Node.nul) src = true
  | Node.nul, _ => rfl
  | Node.scalar s, _ => by simp [copyInto, assignStr_eq, structEqB]
  | Node.seq es, h => by
    cases es with
    | nil => simp [canonicalB] at h
    | cons e0 tl =>
      simp only [canonicalB, Bool.and_eq_true] at h
      obtain ⟨seq_build, eqb⟩ := copySeq_build (e0 :: tl) [] trivial (by simpa using h.2)
      show structEqB (copySeqList (e0 :: tl) Node.nul) (Node.seq (e0 :: tl)) = true
      have hsame : copySeqList (e0 :: tl) Node.nul = copySeqList (e0 :: tl) (Node.seq []) := rfl
      rw [hsame, eqb.1]
      simpa [structEqB] using eqb.2

  | Node.map es, h => by
    cases es with
    | nil => simp [canonicalB] at h
    | cons e0 tl =>
      simp only [canonicalB, Bool.and_eq_true] at h
      obtain ⟨map_build, eqb⟩ := copyMap_build (e0 :: tl) [] (by intro a ha; simp at ha)
        (by simpa using h.2)
      show structEqB (copyMapList (e0 :: tl) Node.nul) (Node.map (e0 :: tl)) = true
      have hsame : copyMapList (e0 :: tl) Node.nul = copyMapList (e0 :: tl) (Node.map []) := rfl
      rw [hsame, eqb.1]
      simpa [structEqB] using eqb.2

theorem copySeq_build : ∀ (es : List (Nat × Node)) (acc : List (Nat × Node)),
    DenseFrom 0 acc → seqCanonB acc.length es = true →
    ∃ es2, copySeqList es (Node.seq acc) = Node.seq (acc ++ es2) ∧
      seqEntriesEqB es2 es = true
  | [], acc, _, _ => ⟨[], by simp [copySeqList], rfl⟩
  | (k, c) :: rest, acc, hd, h => by
    simp only [seqCanonB, Bool.and_eq_true, decide_eq_true_eq] at h
    obtain ⟨⟨hk, hc⟩, hrest⟩ := h
    have hchild := copy_structEq c hc
    have hpb := pushBackOp_dense acc hd
    have hassign := natMapAssign_append_last Node.nul (copyInto c Node.nul) acc 0 hd
    simp only [Nat.zero_add] at hassign
    have hd' : DenseFrom 0 (acc ++ [(acc.length, copyInto c Node.nul)]) := by
      have := denseFrom_append (copyInto c Node.nul) acc 0 hd
      simpa using this
    have hlen' : (acc ++ [(acc.length, copyInto c Node.nul)]).length = acc.length + 1 := by
      simp
    obtain ⟨es2, hrun, heq⟩ := copySeq_build rest
      (acc ++ [(acc.length, copyInto c Node.nul)]) hd' (by rw [hlen']; exact hrest)
    refine ⟨(acc.length, copyInto c Node.nul) :: es2, ?_, ?_⟩
    · show copySeqList ((k, c) :: rest) (Node.seq acc) = _
      simp only [copySeqList, hpb, Node.seqSetAt, hassign]
      rw [hrun]
      simp
    · simp only [seqEntriesEqB, Bool.and_eq_true, decide_eq_true_eq]
      exact ⟨⟨hk.symm, hchild⟩, heq⟩

theorem copyMap_build : ∀ (es : List (Str × Node)) (acc : List (Str × Node)),
    (∀ a ∈ acc.map Prod.fst, belowNext a es) →
    mapCanonB ((acc.map Prod.fst).getLast?) es = true →
    ∃ es2, copyMapList es (Node.map acc) = Node.map (acc ++ es2) ∧
      mapEntriesEqB es2 es = true
  | [], acc, _, _ => ⟨[], by simp [copyMapList], rfl⟩
  | (k, c) :: rest, acc, hb, h => by
    simp only [mapCanonB, Bool.and_eq_true] at h
    have hb0 : ∀ a ∈ acc.map Prod.fst, strLtB a k = true := fun a ha => hb a ha
    have hc : canonicalB c = true := h.1.2
    have hrest : mapCanonB (some k) rest = true := h.2
    have hchild := copy_structEq c hc
    have hfind := strMapFind_none_of_lt k acc hb0
    have hins := strMapInsertNew_append_all k Node.nul acc hb0
    have hassign := strMapAssign_append_all k Node.nul (copyInto c Node.nul) acc hb0
    have hb' : ∀ a ∈ (acc ++ [(k, copyInto c Node.nul)]).map Prod.fst,
        belowNext a rest := by
      intro a ha
      cases rest with
      | nil => trivial
      | cons r2 rtl =>
        obtain ⟨k2, c2⟩ := r2
        have hk2 : strLtB k k2 = true := by
          simp only [mapCanonB, Bool.and_eq_true] at hrest
          exact hrest.1.1
        show strLtB a k2 = true
        simp only [List.map_append, List.mem_append, List.map_cons, List.mem_cons] at ha
        rcases ha with ha | ha
        · exact strLtB_trans a k k2 (hb0 a ha) hk2
        · simp at ha
          subst ha
          exact hk2
    have hlast' : ((acc ++ [(k, copyInto c Node.nul)]).map Prod.fst).getLast? = some k := by
      simp
    obtain ⟨es2, hrun, heq⟩ := copyMap_build rest (acc ++ [(k, copyInto c Node.nul)]) hb'
      (by rw [hlast']; exact hrest)
    refine ⟨(k, copyInto c Node.nul) :: es2, ?_, ?_⟩
    · show copyMapList ((k, c) :: rest) (Node.map acc) = _
      simp only [copyMapList, Node.getKeyOp, initMapN, mapGetNodeE, hfind, hins,
        Node.mapSetAt, hassign]
      rw [hrun]
      simp
    · simp only [mapEntriesEqB, Bool.and_eq_true, decide_eq_true_eq]
      exact ⟨⟨trivial, hchild⟩, heq⟩

end

/-- C10 (amended): self-assignment (`n = n`) clears the node to None —
the target is cleared before the aliased source is read.  For distinct
nodes the assignment produces a structurally equal deep copy whenever
the source tree is canonical: every sequence nonempty with indices
exactly `0..n-1` and every map nonempty with its (`std::map`-sorted)
strictly ascending keys.  (Empty containers degrade to None, see the
counterexample.) -/
theorem c10_assign (n src : Node) (h : canonicalB src = true) :
    Node.assignSelf n = Node.nul ∧ structEqB (Node.assignNode n src) src = true := by
  refine ⟨rfl, ?_⟩
  show structEqB (copyInto src Node.nul) src = true
  exact copy_structEq src h

/-- C10 (witness). -/
theorem c10_assign_witness :
    Node.assignSelf (Node.scalar ['y']) = Node.nul ∧
    structEqB (Node.assignNode (Node.scalar ['y'])
        (Node.map [(['k'], Node.scalar ['v'])]))
      (Node.map [(['k'], Node.scalar ['v'])]) = true :=
  c10_assign (Node.scalar ['y']) (Node.map [(['k'], Node.scalar ['v'])]) (by decide)

/-! ## Round trip (claim C2): line-splitting and trimming machinery -/

theorem renderKey_eq (k : Str) : renderKey k = renderKeyC k ++ [' '] := by
  unfold renderKey renderKeyC
  by_cases h : keyShouldBeCited (addEscapesKey k) <;> simp [h]

theorem joinNL_cons (l : Str) (ls : List Str) :
    joinNL (l :: ls) = l ++ '\n' :: joinNL ls := by
  simp [joinNL]

theorem joinNL_append (a b : List Str) :
    joinNL (a ++ b) = joinNL a ++ joinNL b := by
  simp [joinNL]

theorem splitNl_no_nl : ∀ (v : Str), '\n' ∉ v → splitNl v = [v] := by
  intro v
  induction v with
  | nil => intro _; rfl
  | cons c rest ih =>
    intro h
    have hc : ¬ (c = '\n') := fun e => h (e ▸ List.mem_cons_self _ _)
    simp only [splitNl, if_neg hc]
    rw [ih (fun hm => h (List.mem_cons_of_mem _ hm))]

theorem splitNl_append : ∀ (a b : Str), '\n' ∉ a →
    splitNl (a ++ '\n' :: b) = a :: splitNl b := by
  intro a
  induction a with
  | nil => intro b _; simp [splitNl]
  | cons c rest ih =>
    intro b h
    have hc : ¬ (c = '\n') := fun e => h (e ▸ List.mem_cons_self _ _)
    simp only [List.cons_append, splitNl, if_neg hc, List.append_eq]
    rw [ih b (fun hm => h (List.mem_cons_of_mem _ hm))]

theorem splitNl_joinNL : ∀ (ls : List Str), (∀ l ∈ ls, '\n' ∉ l) →
    splitNl (joinNL ls) = ls ++ [[]] := by
  intro ls
  induction ls with
  | nil => intro _; rfl
  | cons l rest ih =>
    intro h
    rw [joinNL_cons, splitNl_append l _ (h l (List.mem_cons_self _ _)),
        ih (fun x hx => h x (List.mem_cons_of_mem _ hx))]
    rfl

theorem findIdxOpt_append_none (p : Char → Bool) :
    ∀ (a b : Str), (∀ c ∈ a, p c = false) →
    findIdxOpt p (a ++ b) = (findIdxOpt p b).map (· + a.length) := by
  intro a
  induction a with
  | nil => intro b _; simp
  | cons c rest ih =>
    intro b h
    have hc : p c = false := h c (List.mem_cons_self _ _)
    simp only [List.cons_append, findIdxOpt, hc, if_neg (by simp : ¬ (false = true)),
      Bool.false_eq_true, if_false, List.append_eq]
    rw [ih b (fun x hx => h x (List.mem_cons_of_mem _ hx))]
    cases findIdxOpt p b <;> simp [Nat.add_assoc, Nat.add_comm 1]

theorem length_spc (n : Nat) : (spc n).length = n := by simp [spc]

theorem mem_spc {c : Char} {n : Nat} (h : c ∈ spc n) : c = ' ' :=
  List.eq_of_mem_replicate h

theorem trimRL_shape (m j no : Nat) (core : Str)
    (hne : core ≠ [])
    (hh : core.head? ≠ some ' ') (hl : core.getLast? ≠ some ' ')
    (ht : '\t' ∉ core) :
    trimRL { data := spc m ++ core ++ spc j, no := no, offset := 0 } =
      .ok (some { data := core, no := no, offset := m }) := by
  have hlen : (spc m ++ core ++ spc j).length = m + (core.length + j) := by
    simp [spc]
  have hclen : 1 ≤ core.length := by
    cases core with
    | nil => exact absurd rfl hne
    | cons a b => simp
  -- no tab anywhere in the physical line
  have hnotab : ∀ c ∈ spc m ++ core ++ spc j, c ≠ '\t' := by
    intro c hc
    rcases List.mem_append.mp hc with h12 | h3
    · rcases List.mem_append.mp h12 with h1 | h2
      · obtain rfl := mem_spc h1; decide
      · intro e; exact ht (e ▸ h2)
    · obtain rfl := mem_spc h3; decide
  have hfirstTab : findCharFrom (spc m ++ core ++ spc j) '\t' 0 = none := by
    unfold findCharFrom
    rw [List.drop_zero, (findIdxOpt_none _ _).mpr]
    intro c hc
    simp [hnotab c hc]
  -- the head character of the core passes the not-space-tab test
  obtain ⟨c0, cs, rfl⟩ : ∃ c0 cs, core = c0 :: cs := by
    cases core with
    | nil => exact absurd rfl hne
    | cons a b => exact ⟨a, b, rfl⟩
  have hc0s : c0 ≠ ' ' := by intro e; exact hh (by simp [e])
  have hc0t : c0 ≠ '\t' := by
    intro e; exact ht (e ▸ List.mem_cons_self _ _)
  have hfirst : firstNotSpaceTab (spc m ++ (c0 :: cs) ++ spc j) = some m := by
    unfold firstNotSpaceTab
    rw [List.append_assoc,
      findIdxOpt_append_none _ _ _ (by intro c hc; obtain rfl := mem_spc hc; decide)]
    simp only [List.cons_append, findIdxOpt]
    rw [if_pos (by simp [hc0s, hc0t])]
    simp [length_spc]
  -- the last character of the core passes the not-space-tab test
  have hrev : (spc m ++ (c0 :: cs) ++ spc j).reverse =
      spc j ++ ((c0 :: cs).reverse ++ spc m) := by
    simp [spc, List.reverse_append]
  obtain ⟨d0, ds, hds⟩ : ∃ d0 ds, (c0 :: cs).reverse = d0 :: ds := by
    cases hrw : (c0 :: cs).reverse with
    | nil => exact absurd (List.reverse_eq_nil_iff.mp hrw) (by simp)
    | cons a b => exact ⟨a, b, rfl⟩
  have hd0last : (c0 :: cs).getLast? = some d0 := by
    rw [← List.head?_reverse, hds]; rfl
  have hd0s : d0 ≠ ' ' := by intro e; exact hl (by rw [hd0last, e])
  have hd0t : d0 ≠ '\t' := by
    intro e
    have : d0 ∈ (c0 :: cs).reverse := by rw [hds]; exact List.mem_cons_self _ _
    exact ht (e ▸ (List.mem_reverse.mp this))
  have hlast : lastNotSpaceTab (spc m ++ (c0 :: cs) ++ spc j) =
      some (m + (c0 :: cs).length - 1) := by
    unfold lastNotSpaceTab
    rw [hrev,
      findIdxOpt_append_none _ _ _ (by intro c hc; obtain rfl := mem_spc hc; decide),
      hds]
    simp only [findIdxOpt]
    rw [if_pos (by simp [hd0s, hd0t])]
    simp only [Option.map_some', length_spc, hlen, List.length_cons]
    congr 1
    omega
  -- assemble the trim result
  unfold trimRL
  simp only [hfirst, hfirstTab, hlast]
  rw [if_neg (by simp)]
  have hdrop : (spc m ++ (c0 :: cs) ++ spc j).drop m = (c0 :: cs) ++ spc j := by
    have h1 : (spc m).length = m := length_spc m
    calc (spc m ++ (c0 :: cs) ++ spc j).drop m
        = (spc m ++ ((c0 :: cs) ++ spc j)).drop (spc m).length := by
          rw [h1, List.append_assoc]
      _ = (c0 :: cs) ++ spc j := List.drop_left _ _
  have htake : ((c0 :: cs) ++ spc j).take (m + (c0 :: cs).length - 1 - m + 1) =
      c0 :: cs := by
    have : m + (c0 :: cs).length - 1 - m + 1 = (c0 :: cs).length := by
      have : 1 ≤ (c0 :: cs).length := by simp
      omega
    rw [this, List.take_left]
  simp only [Option.getD_some, hdrop, htake]

/-! ## Round trip: the reading phase on well-formed physical lines -/

theorem readLinesGo_last (n : Nat) (acc : List RL) :
    readLinesGo [[]] false n acc = .ok acc := rfl

theorem readLinesGo_pairs : ∀ (ps : List (Str × RL)) (B : List Str) (n : Nat)
    (acc : List RL), (∀ p ∈ ps, PairOK p) → seqNosFrom (n + 1) ps →
    readLinesGo (ps.map Prod.fst ++ B) false n acc =
      readLinesGo B false (n + ps.length)
        (acc ++ ps.map (fun p => { data := p.1, no := p.2.no, offset := 0 })) := by
  intro ps
  induction ps with
  | nil => intro B n acc _ _; simp
  | cons p rest ih =>
    intro B n acc h hn
    obtain ⟨hok, hnrest⟩ := hn
    obtain ⟨hne, hcom, hm1, hm2, hcr, hcs, -, -⟩ := h p (List.mem_cons_self _ _)
    simp only [List.map_cons, List.cons_append, readLinesGo, hcom]
    rw [if_neg (by intro hand; exact hm1 hand.2)]
    rw [if_neg hm2]
    rw [if_neg hcr]
    rw [if_neg hne]
    simp only [hcs, List.append_eq]
    rw [ih B (n + 1) _ (fun x hx => h x (List.mem_cons_of_mem _ hx)) hnrest]
    rw [hok]
    have harith : n + 1 + rest.length = n + (rest.length + 1) := by omega
    rw [harith, List.append_assoc]
    simp

theorem trimAll_pairs : ∀ (ps : List (Str × RL)), (∀ p ∈ ps, PairOK p) →
    trimAll (ps.map (fun p => { data := p.1, no := p.2.no, offset := 0 })) =
      .ok (ps.map Prod.snd) := by
  intro ps
  induction ps with
  | nil => intro _; rfl
  | cons p rest ih =>
    intro h
    obtain ⟨-, -, -, -, -, -, -, htrim⟩ := h p (List.mem_cons_self _ _)
    simp only [List.map_cons, trimAll]
    rw [htrim, ih (fun x hx => h x (List.mem_cons_of_mem _ hx))]
    rfl

theorem readLinesS_pairs (ps : List (Str × RL))
    (h : ∀ p ∈ ps, PairOK p) (hn : seqNosFrom 1 ps) :
    readLinesS (joinNL (ps.map Prod.fst)) = .ok (ps.map Prod.snd) := by
  have hnl : ∀ l ∈ ps.map Prod.fst, '\n' ∉ l := by
    intro l hl
    obtain ⟨p, hp, rfl⟩ := List.mem_map.mp hl
    exact (h p hp).2.2.2.2.2.2.1
  unfold readLinesS
  rw [splitNl_joinNL _ hnl,
    readLinesGo_pairs ps [[]] 0 [] h (by simpa using hn), readLinesGo_last]
  simp only [List.nil_append]
  show trimAll (ps.map (fun p => { data := p.1, no := p.2.no, offset := 0 })) =
    .ok (ps.map Prod.snd)
  exact trimAll_pairs ps h

/-! ## Round trip: facts about good characters, keys and payloads -/

theorem goodChar_spec {c : Char} (h : goodChar c = true) :
    32 ≤ c.val ∧ c.val ≤ 125 ∧ c ≠ '"' ∧ c ≠ ':' ∧ c ≠ '#' := by
  unfold goodChar at h
  simp only [Bool.and_eq_true, Bool.not_eq_true', decide_eq_false_iff_not,
    decide_eq_true_eq] at h
  tauto

theorem ctrl_ne_of_ge {c : Char} (h : 32 ≤ c.val) :
    c ≠ '\n' ∧ c ≠ '\t' ∧ c ≠ '\r' := by
  refine ⟨?_, ?_, ?_⟩ <;> rintro rfl <;> exact absurd h (by decide)

theorem mem_of_getLast_eq : ∀ {l : Str} {a : Char}, l.getLast? = some a → a ∈ l := by
  intro l a h
  rw [← List.head?_reverse] at h
  have hm : a ∈ l.reverse := by
    cases hr : l.reverse with
    | nil => rw [hr] at h; cases h
    | cons x xs =>
      rw [hr] at h
      cases h
      exact List.mem_cons_self _ _
  exact List.mem_reverse.mp hm

theorem goodScalar_spec {v : Str} (h : goodScalar v = true) :
    v ≠ [] ∧ (∀ c ∈ v, goodChar c = true) ∧ v.head? ≠ some ' ' ∧
    v.getLast? ≠ some ' ' ∧ isSeqStart v = false ∧
    v ≠ ['|'] ∧ v ≠ ['>'] ∧ v ≠ ['|', '-'] ∧ v ≠ ['>', '-'] := by
  unfold goodScalar at h
  simp only [Bool.and_eq_true, Bool.not_eq_true', decide_eq_false_iff_not,
    List.all_eq_true] at h
  tauto

theorem goodKey_spec {k : Str} (h : goodKey k = true) :
    k ≠ [] ∧ (∀ c ∈ k, goodChar c = true ∧ c ≠ '\\') ∧
    k.head? ≠ some ' ' ∧ k.getLast? ≠ some ' ' := by
  unfold goodKey at h
  simp only [Bool.and_eq_true, Bool.not_eq_true', decide_eq_false_iff_not,
    List.all_eq_true] at h
  refine ⟨h.1.1.1, ?_, h.1.2, h.2⟩
  intro c hc
  have := h.1.1.2 c hc
  unfold goodKeyChar at this
  simp only [Bool.and_eq_true, Bool.not_eq_true', decide_eq_false_iff_not] at this
  exact this

theorem addEscapesKey_id : ∀ (k : Str), (∀ c ∈ k, c ≠ '\\' ∧ c ≠ '"') →
    addEscapesKey k = k := by
  intro k
  induction k with
  | nil => intro _; rfl
  | cons c rest ih =>
    intro h
    obtain ⟨h1, h2⟩ := h c (List.mem_cons_self _ _)
    simp only [addEscapesKey]
    rw [if_neg (fun hor => hor.elim h1 h2), List.singleton_append,
      ih (fun x hx => h x (List.mem_cons_of_mem _ hx))]

theorem renderKeyC_cases {k : Str} (h : goodKey k = true) :
    (keyShouldBeCited k = false ∧ renderKeyC k = k ++ [':']) ∨
    (keyShouldBeCited k = true ∧ renderKeyC k = '"' :: (k ++ ['"', ':'])) := by
  obtain ⟨-, hch, -, -⟩ := goodKey_spec h
  have hesc : addEscapesKey k = k :=
    addEscapesKey_id k (fun c hc => ⟨(hch c hc).2, (goodChar_spec (hch c hc).1).2.2.1⟩)
  unfold renderKeyC
  rw [hesc]
  by_cases hc : keyShouldBeCited k
  · right
    refine ⟨hc, ?_⟩
    rw [if_pos hc]
    simp
  · left
    refine ⟨by simp [hc], ?_⟩
    rw [if_neg hc]

theorem renderKeyC_decomp {k : Str} (h : goodKey k = true) :
    ∃ X, renderKeyC k = X ++ [':'] ∧ renderKey k = X ++ [':', ' '] ∧ X ≠ [] ∧
      X.head? ≠ some ' ' ∧ X.head? ≠ some '-' ∧ X.getLast? ≠ some ' ' ∧
      (∀ c ∈ X, 32 ≤ c.val ∧ c.val ≤ 125 ∧ c ≠ '#') ∧ ':' ∉ X := by
  obtain ⟨hne, hch, hh, hl⟩ := goodKey_spec h
  have hrk : renderKey k = renderKeyC k ++ [' '] := renderKey_eq k
  rcases renderKeyC_cases h with ⟨hcit, hr⟩ | ⟨hcit, hr⟩
  · refine ⟨k, hr, ?_, hne, hh, ?_, hl, ?_, ?_⟩
    · rw [hrk, hr]; simp
    · -- an uncited key contains no dash, in particular not at the head
      intro hhd
      have hdm : '-' ∈ k := by
        cases k with
        | nil => cases hhd
        | cons a b => cases hhd; exact List.mem_cons_self _ _
      have : keyShouldBeCited k = true := by
        unfold keyShouldBeCited
        rw [List.any_eq_true]
        exact ⟨'-', hdm, by decide⟩
      rw [this] at hcit; cases hcit
    · intro c hc
      obtain ⟨a1, a2, -, -, a5⟩ := goodChar_spec (hch c hc).1
      exact ⟨a1, a2, a5⟩
    · intro hcol
      exact (goodChar_spec (hch ':' hcol).1).2.2.2.1 rfl
  · refine ⟨'"' :: (k ++ ['"']), ?_, ?_, by simp, by simp, by simp, ?_, ?_, ?_⟩
    · rw [hr]; simp
    · rw [hrk, hr]; simp
    · -- last character is the closing quote
      have he : ('"' :: (k ++ ['"'])) = ('"' :: k) ++ ['"'] := by simp
      rw [he, List.getLast?_concat]
      simp
    · intro c hc
      rcases List.mem_cons.mp hc with rfl | hc2
      · refine ⟨by decide, by decide, by decide⟩
      · rcases List.mem_append.mp hc2 with h3 | h4
        · obtain ⟨a1, a2, -, -, a5⟩ := goodChar_spec (hch c h3).1
          exact ⟨a1, a2, a5⟩
        · have : c = '"' := by simpa using h4
          subst this
          refine ⟨by decide, by decide, by decide⟩
    · intro hcol
      rcases List.mem_cons.mp hcol with hq | hc2
      · cases hq
      · rcases List.mem_append.mp hc2 with h3 | h4
        · exact (goodChar_spec (hch ':' h3).1).2.2.2.1 rfl
        · simp at h4

theorem ne_of_mem_not_mem {l₁ l₂ : Str} (c : Char) (h1 : c ∈ l₁) (h2 : c ∉ l₂) :
    l₁ ≠ l₂ := fun e => h2 (e ▸ h1)

theorem findCharFrom_zero_none (s : Str) (tok : Char) (h : tok ∉ s) :
    findCharFrom s tok 0 = none := by
  unfold findCharFrom
  rw [List.drop_zero, (findIdxOpt_none _ _).mpr]
  intro c hc
  simp only [decide_eq_false_iff_not]
  intro e; exact h (e ▸ hc)

theorem findNotCited_no_tok (s : Str) (tok : Char) (h : tok ∉ s) :
    findNotCited s tok = none := by
  unfold findNotCited findNotCitedPQ
  rw [findCharFrom_zero_none s tok h]

theorem PairOK_shape (m j no : Nat) (core : Str)
    (hne : core ≠ [])
    (hh : core.head? ≠ some ' ') (hl : core.getLast? ≠ some ' ')
    (hchar : ∀ c ∈ core, 32 ≤ c.val ∧ c.val ≤ 125 ∧ c ≠ '#')
    (hm1 : spc m ++ core ++ spc j ≠ "---".toList)
    (hm2 : spc m ++ core ++ spc j ≠ "...".toList) :
    PairOK (spc m ++ core ++ spc j, { data := core, no := no, offset := m }) := by
  have hmem : ∀ c ∈ spc m ++ core ++ spc j,
      c = ' ' ∨ (32 ≤ c.val ∧ c.val ≤ 125 ∧ c ≠ '#') := by
    intro c hc
    rcases List.mem_append.mp hc with h12 | h3
    · rcases List.mem_append.mp h12 with h1 | h2
      · exact Or.inl (mem_spc h1)
      · exact Or.inr (hchar c h2)
    · exact Or.inl (mem_spc h3)
  refine ⟨?_, ?_, hm1, hm2, ?_, ?_, ?_, ?_⟩
  · intro e
    have := congrArg List.length e
    simp only [List.length_append, length_spc, List.length_nil] at this
    have hcl : core.length = 0 := by omega
    exact hne (List.length_eq_zero.mp hcl)
  · apply findNotCited_no_tok
    intro hmm
    rcases hmem _ hmm with he | ⟨-, -, hne2⟩
    · cases he
    · exact hne2 rfl
  · intro hr
    have hmm := mem_of_getLast_eq hr
    rcases hmem _ hmm with he | ⟨h32, -, -⟩
    · cases he
    · exact (ctrl_ne_of_ge h32).2.2 rfl
  · rw [(findIdxOpt_none _ _).mpr]
    intro c hc
    rcases hmem c hc with rfl | ⟨h32, h125, -⟩
    · simp
    · simp [h32, h125]
  · intro hmm
    rcases hmem _ hmm with he | ⟨h32, -, -⟩
    · cases he
    · exact (ctrl_ne_of_ge h32).1 rfl
  · have ht : '\t' ∉ core := by
      intro hmm
      exact (ctrl_ne_of_ge (hchar _ hmm).1).2.1 rfl
    exact trimRL_shape m j no core hne hh hl ht

/-! ## Round trip: the physical lines the emitter produces -/

theorem getLast?_append_ne {xs v : Str} (hne : v ≠ []) :
    (xs ++ v).getLast? = v.getLast? := by
  rw [List.getLast?_append]
  cases hv : v.getLast? with
  | none =>
    exact absurd (by simpa using congrArg (·.isSome) hv) (by simp [hne])
  | some a => rfl

theorem serScalar_good {v : Str} (h : goodScalar v = true) (lv : Nat) :
    serScalar v false lv cfg0 = v ++ ['\n'] := by
  obtain ⟨hne, hch, -, -, -, -, -, -, -⟩ := goodScalar_spec h
  have hnl : '\n' ∉ v := fun hm => (ctrl_ne_of_ge (goodChar_spec (hch _ hm)).1).1 rfl
  unfold serScalar
  rw [if_neg hne, splitNl_no_nl v hnl]
  simp only [List.getLast?_singleton, Option.getD_some]
  rw [if_neg hne]
  simp only [List.length_singleton, gt_iff_lt, Nat.lt_irrefl, if_false]
  have hc : cfg0.scalarMaxLength = 0 := rfl
  rw [if_pos (Or.inl hc)]
  simp

theorem dash_item_ne_marks (m j : Nat) (t : Str) :
    spc m ++ ('-' :: ' ' :: t) ++ spc j ≠ "---".toList ∧
    spc m ++ ('-' :: ' ' :: t) ++ spc j ≠ "...".toList := by
  cases m with
  | zero => constructor <;> (intro e; simp [spc] at e)
  | succ m' =>
    constructor <;>
      (intro e; rw [spc, List.replicate_succ] at e; simp at e)

theorem ind_eq_spc {b : Bool} {lv : Nat} (hb : b = true ∨ lv = 0) :
    (if b = true then spc lv else []) = spc lv := by
  rcases hb with rfl | h0
  · rw [if_pos rfl]
  · subst h0; cases b <;> simp [spc]

theorem pairOK_seq_scalar {v : Str} (h : goodScalar v = true) (lv n : Nat) :
    PairOK (spc lv ++ ['-', ' '] ++ v,
      { data := '-' :: ' ' :: v, no := n, offset := lv }) := by
  obtain ⟨hne, hch, -, hl, -, -, -, -, -⟩ := goodScalar_spec h
  have hshape : spc lv ++ ['-', ' '] ++ v = spc lv ++ ('-' :: ' ' :: v) ++ spc 0 := by
    simp [spc]
  rw [hshape]
  apply PairOK_shape
  · simp
  · simp
  · have he : ('-' :: ' ' :: v) = ['-', ' '] ++ v := rfl
    rw [he, getLast?_append_ne hne]
    exact hl
  · intro c hc
    rcases List.mem_cons.mp hc with rfl | hc2
    · refine ⟨by decide, by decide, by decide⟩
    rcases List.mem_cons.mp hc2 with rfl | hc3
    · refine ⟨by decide, by decide, by decide⟩
    obtain ⟨a1, a2, -, -, a5⟩ := goodChar_spec (hch c hc3)
    exact ⟨a1, a2, a5⟩
  · exact (dash_item_ne_marks lv 0 v).1
  · exact (dash_item_ne_marks lv 0 v).2

theorem pairOK_seq_marker (lv n : Nat) :
    PairOK (spc lv ++ ['-', ' '],
      { data := ['-'], no := n, offset := lv }) := by
  have hshape : spc lv ++ ['-', ' '] = spc lv ++ ['-'] ++ spc 1 := by
    simp [spc]
  have hm := dash_item_ne_marks lv 0 ([] : Str)
  have heq : spc lv ++ ('-' :: ' ' :: ([] : Str)) ++ spc 0 = spc lv ++ ['-'] ++ spc 1 := by
    simp [spc]
  rw [heq] at hm
  rw [hshape]
  apply PairOK_shape
  · simp
  · simp
  · simp
  · intro c hc
    rcases List.mem_cons.mp hc with rfl | hc2
    · refine ⟨by decide, by decide, by decide⟩
    · simp at hc2
  · exact hm.1
  · exact hm.2

theorem pairOK_seq_inline {core : Str} {j : Nat}
    (hne : core ≠ []) (hl : core.getLast? ≠ some ' ')
    (hchar : ∀ c ∈ core, 32 ≤ c.val ∧ c.val ≤ 125 ∧ c ≠ '#') (lv n : Nat) :
    PairOK (spc lv ++ ['-', ' '] ++ (core ++ spc j),
      { data := '-' :: ' ' :: core, no := n, offset := lv }) := by
  have hshape : spc lv ++ ['-', ' '] ++ (core ++ spc j) =
      spc lv ++ ('-' :: ' ' :: core) ++ spc j := by simp
  rw [hshape]
  apply PairOK_shape
  · simp
  · simp
  · have he : ('-' :: ' ' :: core) = ['-', ' '] ++ core := rfl
    rw [he, getLast?_append_ne hne]
    exact hl
  · intro c hc
    rcases List.mem_cons.mp hc with rfl | hc2
    · refine ⟨by decide, by decide, by decide⟩
    rcases List.mem_cons.mp hc2 with rfl | hc3
    · refine ⟨by decide, by decide, by decide⟩
    exact hchar c hc3
  · exact (dash_item_ne_marks lv j core).1
  · exact (dash_item_ne_marks lv j core).2

theorem pairOK_map_scalar {k v : Str} (hk : goodKey k = true)
    (hv : goodScalar v = true) {b : Bool} {lv : Nat} (hb : b = true ∨ lv = 0)
    (n : Nat) :
    PairOK ((if b then spc lv else []) ++ renderKey k ++ v,
      { data := renderKey k ++ v, no := n, offset := lv }) := by
  obtain ⟨X, hX1, hX2, hXne, hXh, -, -, hXch, -⟩ := renderKeyC_decomp hk
  obtain ⟨hvne, hvch, -, hvl, -, -, -, -, -⟩ := goodScalar_spec hv
  have hchar : ∀ c ∈ renderKey k ++ v, 32 ≤ c.val ∧ c.val ≤ 125 ∧ c ≠ '#' := by
    intro c hc
    rcases List.mem_append.mp hc with h1 | h2
    · rw [hX2] at h1
      rcases List.mem_append.mp h1 with h3 | h4
      · exact hXch c h3
      · rcases List.mem_cons.mp h4 with rfl | h5
        · refine ⟨by decide, by decide, by decide⟩
        rcases List.mem_cons.mp h5 with rfl | h6
        · refine ⟨by decide, by decide, by decide⟩
        · simp at h6
    · obtain ⟨a1, a2, -, -, a5⟩ := goodChar_spec (hvch c h2)
      exact ⟨a1, a2, a5⟩
  have hcol : ':' ∈ spc lv ++ (renderKey k ++ v) ++ spc 0 := by
    apply List.mem_append.mpr
    apply Or.inl
    apply List.mem_append.mpr
    apply Or.inr
    apply List.mem_append.mpr
    apply Or.inl
    rw [hX2]
    exact List.mem_append.mpr (Or.inr (by simp))
  have hshape : (if b then spc lv else []) ++ renderKey k ++ v =
      spc lv ++ (renderKey k ++ v) ++ spc 0 := by
    rw [ind_eq_spc hb]
    simp [spc]
  rw [hshape]
  apply PairOK_shape
  · rw [hX2]; simp
  · rw [hX2, List.append_assoc, List.head?_append_of_ne_nil _ hXne]
    exact hXh
  · rw [getLast?_append_ne hvne]
    exact hvl
  · exact hchar
  · exact ne_of_mem_not_mem ':' hcol (by decide)
  · exact ne_of_mem_not_mem ':' hcol (by decide)

theorem pairOK_map_nested {k : Str} (hk : goodKey k = true)
    {b : Bool} {lv : Nat} (hb : b = true ∨ lv = 0) (n : Nat) :
    PairOK ((if b then spc lv else []) ++ renderKey k,
      { data := renderKeyC k, no := n, offset := lv }) := by
  obtain ⟨X, hX1, hX2, hXne, hXh, -, -, hXch, -⟩ := renderKeyC_decomp hk
  have hshape : (if b then spc lv else []) ++ renderKey k =
      spc lv ++ renderKeyC k ++ spc 1 := by
    rw [ind_eq_spc hb, renderKey_eq]
    simp [spc]
  have hcol : ':' ∈ spc lv ++ renderKeyC k ++ spc 1 := by
    apply List.mem_append.mpr
    apply Or.inl
    apply List.mem_append.mpr
    apply Or.inr
    rw [hX1]
    exact List.mem_append.mpr (Or.inr (by simp))
  rw [hshape]
  apply PairOK_shape
  · rw [hX1]; simp
  · rw [hX1, List.head?_append_of_ne_nil _ hXne]
    exact hXh
  · rw [hX1, List.getLast?_concat]
    simp
  · intro c hc
    rw [hX1] at hc
    rcases List.mem_append.mp hc with h3 | h4
    · exact hXch c h3
    · rcases List.mem_cons.mp h4 with rfl | h5
      · refine ⟨by decide, by decide, by decide⟩
      · simp at h5
  · exact ne_of_mem_not_mem ':' hcol (by decide)
  · exact ne_of_mem_not_mem ':' hcol (by decide)

theorem seqNosFrom_append : ∀ (A B : List (Str × RL)) (n : Nat),
    seqNosFrom n A → seqNosFrom (n + A.length) B → seqNosFrom n (A ++ B) := by
  intro A
  induction A with
  | nil => intro B n _ hB; simpa using hB
  | cons p rest ih =>
    intro B n hA hB
    refine ⟨hA.1, ih B (n + 1) hA.2 ?_⟩
    have he : n + (p :: rest).length = n + 1 + rest.length := by
      simp only [List.length_cons]; omega
    exact he ▸ hB

theorem core_facts_seq_scalar {v : Str} (h : goodScalar v = true) :
    ('-' :: ' ' :: v) ≠ [] ∧ ('-' :: ' ' :: v).head? ≠ some ' ' ∧
    ('-' :: ' ' :: v).getLast? ≠ some ' ' ∧
    (∀ c ∈ ('-' :: ' ' :: v), 32 ≤ c.val ∧ c.val ≤ 125 ∧ c ≠ '#') := by
  obtain ⟨hne, hch, -, hl, -, -, -, -, -⟩ := goodScalar_spec h
  refine ⟨by simp, by simp, ?_, ?_⟩
  · have he : ('-' :: ' ' :: v) = ['-', ' '] ++ v := rfl
    rw [he, getLast?_append_ne hne]
    exact hl
  · intro c hc
    rcases List.mem_cons.mp hc with rfl | hc2
    · refine ⟨by decide, by decide, by decide⟩
    rcases List.mem_cons.mp hc2 with rfl | hc3
    · refine ⟨by decide, by decide, by decide⟩
    obtain ⟨a1, a2, -, -, a5⟩ := goodChar_spec (hch c hc3)
    exact ⟨a1, a2, a5⟩

theorem core_facts_map_scalar {k v : Str} (hk : goodKey k = true)
    (hv : goodScalar v = true) :
    (renderKey k ++ v) ≠ [] ∧ (renderKey k ++ v).head? ≠ some ' ' ∧
    (renderKey k ++ v).getLast? ≠ some ' ' ∧
    (∀ c ∈ renderKey k ++ v, 32 ≤ c.val ∧ c.val ≤ 125 ∧ c ≠ '#') := by
  obtain ⟨X, hX1, hX2, hXne, hXh, -, -, hXch, -⟩ := renderKeyC_decomp hk
  obtain ⟨hvne, hvch, -, hvl, -, -, -, -, -⟩ := goodScalar_spec hv
  refine ⟨by rw [hX2]; simp, ?_, ?_, ?_⟩
  · rw [hX2, List.append_assoc, List.head?_append_of_ne_nil _ hXne]
    exact hXh
  · rw [getLast?_append_ne hvne]
    exact hvl
  · intro c hc
    rcases List.mem_append.mp hc with h1 | h2
    · rw [hX2] at h1
      rcases List.mem_append.mp h1 with h3 | h4
      · exact hXch c h3
      · rcases List.mem_cons.mp h4 with rfl | h5
        · refine ⟨by decide, by decide, by decide⟩
        rcases List.mem_cons.mp h5 with rfl | h6
        · refine ⟨by decide, by decide, by decide⟩
        · simp at h6
    · obtain ⟨a1, a2, -, -, a5⟩ := goodChar_spec (hvch c h2)
      exact ⟨a1, a2, a5⟩

theorem core_facts_map_nested {k : Str} (hk : goodKey k = true) :
    renderKeyC k ≠ [] ∧ (renderKeyC k).head? ≠ some ' ' ∧
    (renderKeyC k).getLast? ≠ some ' ' ∧
    (∀ c ∈ renderKeyC k, 32 ≤ c.val ∧ c.val ≤ 125 ∧ c ≠ '#') := by
  obtain ⟨X, hX1, -, hXne, hXh, -, -, hXch, -⟩ := renderKeyC_decomp hk
  refine ⟨by rw [hX1]; simp, ?_, ?_, ?_⟩
  · rw [hX1, List.head?_append_of_ne_nil _ hXne]
    exact hXh
  · rw [hX1, List.getLast?_concat]
    simp
  · intro c hc
    rw [hX1] at hc
    rcases List.mem_append.mp hc with h3 | h4
    · exact hXch c h3
    · rcases List.mem_cons.mp h4 with rfl | h5
      · refine ⟨by decide, by decide, by decide⟩
      · simp at h5

theorem tMap_ne_nil (k : Str) (c : Node) (rest : List (Str × Node)) (b : Bool)
    (lv n : Nat) (hc : goodB c = true) :
    (tMap ((k, c) :: rest) b lv n).1 ≠ [] := by
  match c with
  | Node.nul => simp [goodB] at hc
  | Node.scalar v =>
    rcases h2 : tMap rest true lv (n + 1) with ⟨ls2, n2⟩
    simp [tMap, h2]
  | Node.seq ss =>
    rcases h1 : tSeq ss (lv + 2) (n + 1) with ⟨ls1, n1⟩
    rcases h2 : tMap rest true lv n1 with ⟨ls2, n2⟩
    simp [tMap, h1, h2]
  | Node.map ms =>
    rcases h1 : tMap ms true (lv + 2) (n + 1) with ⟨ls1, n1⟩
    rcases h2 : tMap rest true lv n1 with ⟨ls2, n2⟩
    simp [tMap, h1, h2]

theorem cfg0_indent : cfg0.spaceIndentation = 2 := rfl

theorem cfg0_maxlen : cfg0.scalarMaxLength = 0 := rfl

theorem cfg0_seqnl : cfg0.sequenceMapNewline = false := rfl

theorem cfg0_mapnl : cfg0.mapScalarNewline = false := rfl

theorem serSeqEs_cons_scalar (k : Nat) (v : Str) (rest : List (Nat × Node))
    (lv : Nat) (h : goodScalar v = true) :
    serSeqEs ((k, Node.scalar v) :: rest) lv cfg0 =
      spc lv ++ ['-', ' '] ++ v ++ ['\n'] ++ serSeqEs rest lv cfg0 := by
  simp only [serSeqEs, Node.kind]
  rw [if_neg (by decide)]
  simp [serNode, cfg0_seqnl, spc, serScalar_good h]

theorem serSeqEs_cons_seq (k : Nat) (ss : List (Nat × Node))
    (rest : List (Nat × Node)) (lv : Nat) :
    serSeqEs ((k, Node.seq ss) :: rest) lv cfg0 =
      spc lv ++ ['-', ' '] ++ ['\n'] ++ serSeqEs ss (lv + 2) cfg0 ++
        serSeqEs rest lv cfg0 := by
  simp only [serSeqEs, Node.kind]
  rw [if_neg (by decide)]
  simp [serNode, cfg0_seqnl, spc]

theorem serSeqEs_cons_map (k : Nat) (ms : List (Str × Node))
    (rest : List (Nat × Node)) (lv : Nat) :
    serSeqEs ((k, Node.map ms) :: rest) lv cfg0 =
      spc lv ++ ['-', ' '] ++ serMapEs ms false 0 (lv + 2) cfg0 ++
        serSeqEs rest lv cfg0 := by
  simp only [serSeqEs, Node.kind]
  rw [if_neg (by decide)]
  simp [serNode, cfg0_seqnl, spc]

theorem serMapEs_cons_scalar (k v : Str) (rest : List (Str × Node))
    (ul : Bool) (cnt lv : Nat) (h : goodScalar v = true) :
    serMapEs ((k, Node.scalar v) :: rest) ul cnt lv cfg0 =
      (if (ul || decide (0 < cnt)) then spc lv else []) ++ renderKey k ++ v ++
        ['\n'] ++ serMapEs rest true (cnt + 1) lv cfg0 := by
  simp only [serMapEs, Node.kind]
  rw [if_neg (by decide)]
  simp [serNode, cfg0_mapnl, cfg0_indent, spc, serScalar_good h, renderKey]

theorem serMapEs_cons_seq (k : Str) (ss : List (Nat × Node))
    (rest : List (Str × Node)) (ul : Bool) (cnt lv : Nat) :
    serMapEs ((k, Node.seq ss) :: rest) ul cnt lv cfg0 =
      (if (ul || decide (0 < cnt)) then spc lv else []) ++ renderKey k ++
        ['\n'] ++ serSeqEs ss (lv + 2) cfg0 ++
        serMapEs rest true (cnt + 1) lv cfg0 := by
  simp only [serMapEs, Node.kind]
  rw [if_neg (by decide)]
  simp [serNode, cfg0_mapnl, cfg0_indent, spc, renderKey]

theorem serMapEs_cons_map (k : Str) (ms : List (Str × Node))
    (rest : List (Str × Node)) (ul : Bool) (cnt lv : Nat) :
    serMapEs ((k, Node.map ms) :: rest) ul cnt lv cfg0 =
      (if (ul || decide (0 < cnt)) then spc lv else []) ++ renderKey k ++
        ['\n'] ++ serMapEs ms true 0 (lv + 2) cfg0 ++
        serMapEs rest true (cnt + 1) lv cfg0 := by
  simp only [serMapEs, Node.kind]
  rw [if_neg (by decide)]
  simp [serNode, cfg0_mapnl, cfg0_indent, spc, renderKey]

theorem core_facts_seq_inline {core : Str} (hne : core ≠ [])
    (hl : core.getLast? ≠ some ' ')
    (hchar : ∀ c ∈ core, 32 ≤ c.val ∧ c.val ≤ 125 ∧ c ≠ '#') :
    ('-' :: ' ' :: core) ≠ [] ∧ ('-' :: ' ' :: core).head? ≠ some ' ' ∧
    ('-' :: ' ' :: core).getLast? ≠ some ' ' ∧
    (∀ c ∈ ('-' :: ' ' :: core), 32 ≤ c.val ∧ c.val ≤ 125 ∧ c ≠ '#') := by
  refine ⟨by simp, by simp, ?_, ?_⟩
  · have he : ('-' :: ' ' :: core) = ['-', ' '] ++ core := rfl
    rw [he, getLast?_append_ne hne]
    exact hl
  · intro c hc
    rcases List.mem_cons.mp hc with rfl | hc2
    · refine ⟨by decide, by decide, by decide⟩
    rcases List.mem_cons.mp hc2 with rfl | hc3
    · refine ⟨by decide, by decide, by decide⟩
    exact hchar c hc3

/-! ## Round trip: the emitter output is exactly the computed line list -/

mutual

theorem tSeq_ok : ∀ (es : List (Nat × Node)) (i lv n : Nat),
    goodSeqB i es = true →
    (∀ p ∈ (tSeq es lv n).1, PairOK p) ∧
    seqNosFrom n (tSeq es lv n).1 ∧
    (tSeq es lv n).2 = n + (tSeq es lv n).1.length ∧
    serSeqEs es lv cfg0 = joinNL (((tSeq es lv n).1).map Prod.fst) ∧
    HeadCore true lv n (tSeq es lv n).1
  | [], i, lv, n, hg => by
    have h1 : (tSeq [] lv n).1 = [] := by simp [tSeq]
    have h2 : (tSeq [] lv n).2 = n := by simp [tSeq]
    refine ⟨?_, ?_, ?_, ?_, ?_⟩
    · intro p hp; rw [h1] at hp; simp at hp
    · rw [h1]; trivial
    · rw [h1, h2]; simp
    · rw [h1]; rfl
    · rw [h1]; trivial
  | (kk, Node.nul) :: rest, i, lv, n, hg => by
    simp [goodSeqB, goodB] at hg
  | (kk, Node.scalar v) :: rest, i, lv, n, hg => by
    simp only [goodSeqB, goodB, Bool.and_eq_true, decide_eq_true_eq] at hg
    obtain ⟨⟨-, hv⟩, hrest⟩ := hg
    obtain ⟨rP, rN, rC, rD, -⟩ := tSeq_ok rest (i + 1) lv (n + 1) hrest
    rcases h2 : tSeq rest lv (n + 1) with ⟨ls2, n2⟩
    simp only [h2] at rP rN rC rD
    have heq1 : (tSeq ((kk, Node.scalar v) :: rest) lv n).1 =
        (spc lv ++ ['-', ' '] ++ v,
          { data := ['-', ' '] ++ v, no := n, offset := lv }) :: ls2 := by
      simp [tSeq, h2]
    have heq2 : (tSeq ((kk, Node.scalar v) :: rest) lv n).2 = n2 := by
      simp [tSeq, h2]
    refine ⟨?_, ?_, ?_, ?_, ?_⟩
    · intro p hp
      rw [heq1] at hp
      rcases List.mem_cons.mp hp with rfl | hp2
      · exact pairOK_seq_scalar hv lv n
      · exact rP p hp2
    · rw [heq1]
      exact ⟨rfl, rN⟩
    · rw [heq2, heq1]
      simp only [List.length_cons]
      omega
    · rw [serSeqEs_cons_scalar kk v rest lv hv, rD, heq1]
      simp [joinNL_cons]
    · rw [heq1]
      obtain ⟨f1, f2, f3, f4⟩ := core_facts_seq_scalar hv
      exact ⟨'-' :: ' ' :: v, 0, by omega, by simp [spc], rfl, f1, f2, f3, f4⟩
  | (kk, Node.seq ss) :: rest, i, lv, n, hg => by
    simp only [goodSeqB, goodB, Bool.and_eq_true, decide_eq_true_eq] at hg
    obtain ⟨⟨-, -, hss⟩, hrest⟩ := hg
    obtain ⟨cP, cN, cC, cD, -⟩ := tSeq_ok ss 0 (lv + 2) (n + 1) hss
    rcases h1 : tSeq ss (lv + 2) (n + 1) with ⟨cls, n1⟩
    simp only [h1] at cP cN cC cD
    obtain ⟨rP, rN, rC, rD, -⟩ := tSeq_ok rest (i + 1) lv n1 hrest
    rcases h2 : tSeq rest lv n1 with ⟨ls2, n2⟩
    simp only [h2] at rP rN rC rD
    have heq1 : (tSeq ((kk, Node.seq ss) :: rest) lv n).1 =
        ((spc lv ++ ['-', ' '],
           { data := ['-'], no := n, offset := lv }) :: cls) ++ ls2 := by
      simp [tSeq, h1, h2]
    have heq2 : (tSeq ((kk, Node.seq ss) :: rest) lv n).2 = n2 := by
      simp [tSeq, h1, h2]
    refine ⟨?_, ?_, ?_, ?_, ?_⟩
    · intro p hp
      rw [heq1] at hp
      rcases List.mem_append.mp hp with hp1 | hp2
      · rcases List.mem_cons.mp hp1 with rfl | hp3
        · exact pairOK_seq_marker lv n
        · exact cP p hp3
      · exact rP p hp2
    · rw [heq1]
      apply seqNosFrom_append
      · exact ⟨rfl, cN⟩
      · simp only [List.length_cons]
        have he : n + (cls.length + 1) = n1 := by omega
        rw [he]
        exact rN
    · rw [heq2, heq1]
      simp only [List.length_append, List.length_cons]
      omega
    · rw [serSeqEs_cons_seq kk ss rest lv, cD, rD, heq1]
      simp [joinNL_cons, joinNL_append]
    · rw [heq1]
      refine ⟨['-'], 1, by omega, by simp [spc], rfl, by simp, by simp, by simp, ?_⟩
      intro c hc
      rcases List.mem_cons.mp hc with rfl | hc2
      · refine ⟨by decide, by decide, by decide⟩
      · simp at hc2
  | (kk, Node.map ms) :: rest, i, lv, n, hg => by
    simp only [goodSeqB, goodB, Bool.and_eq_true, decide_eq_true_eq] at hg
    obtain ⟨⟨-, hne0, hms⟩, hrest⟩ := hg
    have hmne : ms ≠ [] := by
      cases ms with
      | nil => simp at hne0
      | cons a b => simp
    obtain ⟨-, cP1, cN, cC, cD, cH⟩ := tMap_ok ms none false (lv + 2) n hms
    rcases h1 : tMap ms false (lv + 2) n with ⟨mls, mn⟩
    simp only [h1] at cP1 cN cC cD cH
    have hmlsne : mls ≠ [] := by
      cases ms with
      | nil => exact absurd rfl hmne
      | cons e etl =>
        obtain ⟨k1, c1⟩ := e
        have hgc : goodB c1 = true := by
          simp only [goodMapB, Bool.and_eq_true] at hms
          exact hms.1.2
        have hnn := tMap_ne_nil k1 c1 etl false (lv + 2) n hgc
        rw [h1] at hnn
        exact hnn
    rcases mls with - | ⟨⟨ph, rl⟩, t⟩
    · exact absurd rfl hmlsne
    obtain ⟨core, j, hj, hph, hrl, f1, f2, f3, f4⟩ := cH
    have hph2 : ph = core ++ spc j := by
      rw [hph]; simp
    obtain ⟨rP, rN, rC, rD, -⟩ := tSeq_ok rest (i + 1) lv mn hrest
    rcases h2 : tSeq rest lv mn with ⟨ls2, n2⟩
    simp only [h2] at rP rN rC rD
    have heq1 : (tSeq ((kk, Node.map ms) :: rest) lv n).1 =
        ((spc lv ++ ['-', ' '] ++ ph,
           { data := ['-', ' '] ++ rl.data, no := n, offset := lv }) :: t) ++ ls2 := by
      simp [tSeq, h1, h2]
    have heq2 : (tSeq ((kk, Node.map ms) :: rest) lv n).2 = n2 := by
      simp [tSeq, h1, h2]
    obtain ⟨g1, g2, g3, g4⟩ := core_facts_seq_inline f1 f3 f4
    refine ⟨?_, ?_, ?_, ?_, ?_⟩
    · intro p hp
      rw [heq1] at hp
      rcases List.mem_append.mp hp with hp1 | hp2
      · rcases List.mem_cons.mp hp1 with rfl | hp3
        · rw [hph2, hrl]
          exact pairOK_seq_inline f1 f3 f4 lv n
        · exact cP1 p (by simpa using hp3)
      · exact rP p hp2
    · rw [heq1]
      apply seqNosFrom_append
      · exact ⟨rfl, cN.2⟩
      · simp only [List.length_cons]
        have he : n + (t.length + 1) = mn := by
          simp only [List.length_cons] at cC; omega
        rw [he]
        exact rN
    · rw [heq2, heq1]
      simp only [List.length_append, List.length_cons]
      simp only [List.length_cons] at cC
      omega
    · rw [serSeqEs_cons_map kk ms rest lv, cD false 0 rfl, rD, heq1]
      simp [joinNL_cons, joinNL_append]
    · rw [heq1]
      refine ⟨'-' :: ' ' :: core, j, hj, ?_, ?_, g1, g2, g3, g4⟩
      · rw [hph2]; simp
      · simp [hrl]

theorem tMap_ok : ∀ (es : List (Str × Node)) (op : Option Str) (b : Bool)
    (lv n : Nat), goodMapB op es = true →
    ((b = true ∨ lv = 0) → ∀ p ∈ (tMap es b lv n).1, PairOK p) ∧
    (∀ p ∈ ((tMap es b lv n).1).drop 1, PairOK p) ∧
    seqNosFrom n (tMap es b lv n).1 ∧
    (tMap es b lv n).2 = n + (tMap es b lv n).1.length ∧
    (∀ (ul : Bool) (cnt : Nat), (ul || decide (0 < cnt)) = b →
      serMapEs es ul cnt lv cfg0 = joinNL (((tMap es b lv n).1).map Prod.fst)) ∧
    HeadCore b lv n (tMap es b lv n).1
  | [], op, b, lv, n, hg => by
    have h1 : (tMap [] b lv n).1 = [] := by simp [tMap]
    have h2 : (tMap [] b lv n).2 = n := by simp [tMap]
    refine ⟨?_, ?_, ?_, ?_, ?_, ?_⟩
    · intro _ p hp; rw [h1] at hp; simp at hp
    · intro p hp; rw [h1] at hp; simp at hp
    · rw [h1]; trivial
    · rw [h1, h2]; simp
    · intro ul cnt _
      rw [h1]
      simp [serMapEs, joinNL]
    · rw [h1]; trivial
  | (k, Node.nul) :: rest, op, b, lv, n, hg => by
    simp [goodMapB, goodB] at hg
  | (k, Node.scalar v) :: rest, op, b, lv, n, hg => by
    simp only [goodMapB, Bool.and_eq_true] at hg
    obtain ⟨⟨⟨hk, -⟩, hv⟩, hrest⟩ := hg
    obtain ⟨rP, rP1, rN, rC, rD, -⟩ := tMap_ok rest (some k) true lv (n + 1) hrest
    rcases h2 : tMap rest true lv (n + 1) with ⟨ls2, n2⟩
    simp only [h2] at rP rP1 rN rC rD
    have heq1 : (tMap ((k, Node.scalar v) :: rest) b lv n).1 =
        ((if b then spc lv else []) ++ renderKey k ++ v,
          { data := renderKey k ++ v, no := n, offset := lv }) :: ls2 := by
      simp [tMap, h2]
    have heq2 : (tMap ((k, Node.scalar v) :: rest) b lv n).2 = n2 := by
      simp [tMap, h2]
    refine ⟨?_, ?_, ?_, ?_, ?_, ?_⟩
    · intro hb p hp
      rw [heq1] at hp
      rcases List.mem_cons.mp hp with rfl | hp2
      · exact pairOK_map_scalar hk hv hb n
      · exact rP (Or.inl (by trivial)) p hp2
    · intro p hp
      rw [heq1] at hp
      exact rP (Or.inl (by trivial)) p (by simpa using hp)
    · rw [heq1]
      exact ⟨rfl, rN⟩
    · rw [heq2, heq1]
      simp only [List.length_cons]
      omega
    · intro ul cnt hbc
      rw [serMapEs_cons_scalar k v rest ul cnt lv hv, rD true (cnt + 1) rfl, heq1,
        hbc]
      simp [joinNL_cons]
    · rw [heq1]
      obtain ⟨f1, f2, f3, f4⟩ := core_facts_map_scalar hk hv
      exact ⟨renderKey k ++ v, 0, by omega, by simp [spc], rfl, f1, f2, f3, f4⟩
  | (k, Node.map ms) :: rest, op, b, lv, n, hg => by
    simp only [goodMapB, Bool.and_eq_true] at hg
    obtain ⟨⟨⟨hk, -⟩, hc⟩, hrest⟩ := hg
    have hms : goodMapB none ms = true := by
      simp only [goodB, Bool.and_eq_true] at hc
      exact hc.2
    obtain ⟨cP, -, cN, cC, cD, -⟩ := tMap_ok ms none true (lv + 2) (n + 1) hms
    rcases h1 : tMap ms true (lv + 2) (n + 1) with ⟨cls, n1⟩
    simp only [h1] at cP cN cC cD
    obtain ⟨rP, -, rN, rC, rD, -⟩ := tMap_ok rest (some k) true lv n1 hrest
    rcases h2 : tMap rest true lv n1 with ⟨ls2, n2⟩
    simp only [h2] at rP rN rC rD
    have heq1 : (tMap ((k, Node.map ms) :: rest) b lv n).1 =
        (((if b then spc lv else []) ++ renderKey k,
           { data := renderKeyC k, no := n, offset := lv }) :: cls) ++ ls2 := by
      simp [tMap, h1, h2]
    have heq2 : (tMap ((k, Node.map ms) :: rest) b lv n).2 = n2 := by
      simp [tMap, h1, h2]
    refine ⟨?_, ?_, ?_, ?_, ?_, ?_⟩
    · intro hb p hp
      rw [heq1] at hp
      rcases List.mem_append.mp hp with hp1 | hp2
      · rcases List.mem_cons.mp hp1 with rfl | hp3
        · exact pairOK_map_nested hk hb n
        · exact cP (Or.inl (by trivial)) p hp3
      · exact rP (Or.inl (by trivial)) p hp2
    · intro p hp
      rw [heq1] at hp
      simp only [List.cons_append, List.drop_succ_cons, List.drop_zero] at hp
      rcases List.mem_append.mp hp with hp1 | hp2
      · exact cP (Or.inl (by trivial)) p hp1
      · exact rP (Or.inl (by trivial)) p hp2
    · rw [heq1]
      apply seqNosFrom_append
      · exact ⟨rfl, cN⟩
      · simp only [List.length_cons]
        have he : n + (cls.length + 1) = n1 := by omega
        rw [he]
        exact rN
    · rw [heq2, heq1]
      simp only [List.length_append, List.length_cons]
      omega
    · intro ul cnt hbc
      rw [serMapEs_cons_map k ms rest ul cnt lv, cD true 0 rfl,
        rD true (cnt + 1) rfl, heq1, hbc]
      simp [joinNL_cons, joinNL_append]
    · rw [heq1]
      obtain ⟨f1, f2, f3, f4⟩ := core_facts_map_nested hk
      refine ⟨renderKeyC k, 1, by omega, ?_, rfl, f1, f2, f3, f4⟩
      rw [renderKey_eq]
      simp [spc]
  | (k, Node.seq ss) :: rest, op, b, lv, n, hg => by
    simp only [goodMapB, Bool.and_eq_true] at hg
    obtain ⟨⟨⟨hk, -⟩, hc⟩, hrest⟩ := hg
    have hss : goodSeqB 0 ss = true := by
      simp only [goodB, Bool.and_eq_true] at hc
      exact hc.2
    obtain ⟨cP, cN, cC, cD, -⟩ := tSeq_ok ss 0 (lv + 2) (n + 1) hss
    rcases h1 : tSeq ss (lv + 2) (n + 1) with ⟨cls, n1⟩
    simp only [h1] at cP cN cC cD
    obtain ⟨rP, -, rN, rC, rD, -⟩ := tMap_ok rest (some k) true lv n1 hrest
    rcases h2 : tMap rest true lv n1 with ⟨ls2, n2⟩
    simp only [h2] at rP rN rC rD
    have heq1 : (tMap ((k, Node.seq ss) :: rest) b lv n).1 =
        (((if b then spc lv else []) ++ renderKey k,
           { data := renderKeyC k, no := n, offset := lv }) :: cls) ++ ls2 := by
      simp [tMap, h1, h2]
    have heq2 : (tMap ((k, Node.seq ss) :: rest) b lv n).2 = n2 := by
      simp [tMap, h1, h2]
    refine ⟨?_, ?_, ?_, ?_, ?_, ?_⟩
    · intro hb p hp
      rw [heq1] at hp
      rcases List.mem_append.mp hp with hp1 | hp2
      · rcases List.mem_cons.mp hp1 with rfl | hp3
        · exact pairOK_map_nested hk hb n
        · exact cP p hp3
      · exact rP (Or.inl (by trivial)) p hp2
    · intro p hp
      rw [heq1] at hp
      simp only [List.cons_append, List.drop_succ_cons, List.drop_zero] at hp
      rcases List.mem_append.mp hp with hp1 | hp2
      · exact cP p hp1
      · exact rP (Or.inl (by trivial)) p hp2
    · rw [heq1]
      apply seqNosFrom_append
      · exact ⟨rfl, cN⟩
      · simp only [List.length_cons]
        have he : n + (cls.length + 1) = n1 := by omega
        rw [he]
        exact rN
    · rw [heq2, heq1]
      simp only [List.length_append, List.length_cons]
      omega
    · intro ul cnt hbc
      rw [serMapEs_cons_seq k ss rest ul cnt lv, cD, rD true (cnt + 1) rfl, heq1,
        hbc]
      simp [joinNL_cons, joinNL_append]
    · rw [heq1]
      obtain ⟨f1, f2, f3, f4⟩ := core_facts_map_nested hk
      refine ⟨renderKeyC k, 1, by omega, ?_, rfl, f1, f2, f3, f4⟩
      rw [renderKey_eq]
      simp [spc]

end

/-- Reading the serialized text of a good tree yields exactly the
computed reader lines. -/
theorem readLines_of_ser (T : Node) (h : goodRootB T = true) :
    readLinesS (serNode T false 0 cfg0) = .ok ((tRoot T).map Prod.snd) := by
  match T with
  | Node.nul => simp [goodRootB, goodB] at h
  | Node.scalar v =>
    simp only [goodRootB, Bool.and_eq_true, Bool.not_eq_true',
      decide_eq_false_iff_not] at h
    obtain ⟨⟨hv, hm1⟩, hm2⟩ := h
    obtain ⟨hne, hch, hh, hl, -, -, -, -, -⟩ := goodScalar_spec hv
    have hchar : ∀ c ∈ v, 32 ≤ c.val ∧ c.val ≤ 125 ∧ c ≠ '#' := by
      intro c hc
      obtain ⟨a1, a2, -, -, a5⟩ := goodChar_spec (hch c hc)
      exact ⟨a1, a2, a5⟩
    have hp := PairOK_shape 0 0 1 v hne hh hl hchar
      (by simpa [spc] using hm1) (by simpa [spc] using hm2)
    simp only [spc, List.replicate, List.nil_append, List.append_nil] at hp
    have hser : serNode (Node.scalar v) false 0 cfg0 = joinNL [v] := by
      show serScalar v false 0 cfg0 = joinNL [v]
      rw [serScalar_good hv]
      simp [joinNL]
    rw [hser]
    have := readLinesS_pairs [(v, { data := v, no := 1, offset := 0 })]
      (by intro p hp2; rcases List.mem_cons.mp hp2 with rfl | hx
          · exact hp
          · simp at hx)
      ⟨rfl, trivial⟩
    simpa using this
  | Node.seq es =>
    simp only [goodRootB, goodB, Bool.and_eq_true] at h
    obtain ⟨-, hes⟩ := h
    obtain ⟨P, N, -, D, -⟩ := tSeq_ok es 0 0 1 hes
    have hser : serNode (Node.seq es) false 0 cfg0 = serSeqEs es 0 cfg0 := rfl
    rw [hser, D]
    exact readLinesS_pairs _ P N
  | Node.map es =>
    simp only [goodRootB, goodB, Bool.and_eq_true] at h
    obtain ⟨-, hes⟩ := h
    obtain ⟨P, -, N, -, D, -⟩ := tMap_ok es none false 0 1 hes
    have hser : serNode (Node.map es) false 0 cfg0 = serMapEs es false 0 0 cfg0 := rfl
    rw [hser, D false 0 rfl]
    exact readLinesS_pairs _ (P (Or.inr rfl)) N

/-! ## Round trip: classifying the trimmed lines in post-processing -/

theorem findNotCitedPQ_no_tok (s : Str) (tok : Char) (h : tok ∉ s) :
    findNotCitedPQ s tok = (none, 0) := by
  unfold findNotCitedPQ
  rw [findCharFrom_zero_none s tok h]

theorem removeEscapes_id : ∀ (k : Str), '\\' ∉ k → removeEscapes k = k
  | [], _ => rfl
  | c :: rest, h => by
    have hc : c ≠ '\\' := fun e => h (e ▸ List.mem_cons_self _ _)
    have hr := removeEscapes_id rest (fun hm => h (List.mem_cons_of_mem _ hm))
    rw [removeEscapes.eq_def]
    split
    · rename_i heq; exact absurd heq (by simp)
    · rename_i heq; rw [List.cons.injEq] at heq; exact absurd heq.1 hc
    · rename_i heq; rw [List.cons.injEq] at heq; exact absurd heq.1 hc
    · rename_i heq
      rcases heq with ⟨rfl, rfl⟩
      rw [hr]

theorem stripValueQuotes_id (v : Str) (h : '"' ∉ v) :
    stripValueQuotes v = .ok v := by
  unfold stripValueQuotes findQuoteSpan
  rw [collectQuotes_no_dq v h]
  simp only [List.head?_nil]
  rw [if_neg (fun hh => h (by
    cases v with
    | nil => cases hh
    | cons a b => cases hh; exact List.mem_cons_self _ _))]

theorem isSeqStart_false_of_head (s : Str) (h : s.head? ≠ some '-') :
    isSeqStart s = false := by
  cases s with
  | nil => rfl
  | cons c cs =>
    have hc : c ≠ '-' := fun e => h (by simp [e])
    simp [isSeqStart, hc]

theorem lastNotSpaceTab_full (X : Str) (hne : X ≠ [])
    (hl : X.getLast? ≠ some ' ') (hl2 : X.getLast? ≠ some '\t') :
    lastNotSpaceTab X = some (X.length - 1) := by
  unfold lastNotSpaceTab
  obtain ⟨d, ds, hds⟩ : ∃ d ds, X.reverse = d :: ds := by
    cases hr : X.reverse with
    | nil => exact absurd (List.reverse_eq_nil_iff.mp hr) hne
    | cons a b => exact ⟨a, b, rfl⟩
  have hdl : X.getLast? = some d := by
    rw [← List.head?_reverse, hds]; rfl
  have hd1 : d ≠ ' ' := fun e => hl (by rw [hdl, e])
  have hd2 : d ≠ '\t' := fun e => hl2 (by rw [hdl, e])
  rw [hds]
  simp only [findIdxOpt]
  rw [if_pos (by simp [hd1, hd2])]
  simp

theorem findCharFrom_first (X tail : Str) (tok : Char) (h : tok ∉ X) :
    findCharFrom (X ++ tok :: tail) tok 0 = some X.length := by
  unfold findCharFrom
  rw [List.drop_zero, findIdxOpt_append_none _ _ _ (by
    intro c hc
    simp only [decide_eq_false_iff_not]
    intro e; exact h (e ▸ hc))]
  simp [findIdxOpt]

theorem collectQuotesGo_skip : ∀ (xs : Str), '"' ∉ xs →
    ∀ (st : Option Nat) (pos : Nat) (prev : Option Char) (rest : Str),
    collectQuotesGo st pos prev (xs ++ rest) =
      collectQuotesGo st (pos + xs.length)
        (match xs.getLast? with | some c => some c | none => prev) rest := by
  intro xs
  induction xs with
  | nil => intro _ st pos prev rest; simp
  | cons x xt ih =>
    intro h st pos prev rest
    have hx : ¬ (x = '"' ∧ (pos = 0 ∨ prev ≠ some '\\')) :=
      fun hc => h (hc.1 ▸ List.mem_cons_self _ _)
    simp only [List.cons_append, collectQuotesGo, if_neg hx, List.append_eq]
    rw [ih (fun hm => h (List.mem_cons_of_mem _ hm)) st (pos + 1) (some x) rest]
    have e1 : pos + 1 + xt.length = pos + (x :: xt).length := by
      simp only [List.length_cons]; omega
    have e2 : (match xt.getLast? with | some c => some c | none => some x) =
        (match (x :: xt).getLast? with | some c => some c | none => prev) := by
      rw [List.getLast?_cons]
      cases xt.getLast? <;> simp
    rw [e1, e2]

theorem collectQuotes_quoted (k tail : Str) (hk : '"' ∉ k) (hne : k ≠ [])
    (hbs : '\\' ∉ k) (htail : '"' ∉ tail) :
    collectQuotes ('"' :: (k ++ '"' :: tail)) = [(0, k.length + 1)] := by
  unfold collectQuotes
  rw [show collectQuotesGo none 0 none ('"' :: (k ++ '"' :: tail)) =
      collectQuotesGo (some 0) 1 (some '"') (k ++ '"' :: tail) from by
    simp only [collectQuotesGo]
    rw [if_pos (by simp)]]
  rw [collectQuotesGo_skip k hk (some 0) 1 (some '"') ('"' :: tail)]
  obtain ⟨d, hdl⟩ : ∃ d, k.getLast? = some d := by
    cases hg : k.getLast? with
    | none =>
      exact absurd (by simpa using congrArg (·.isSome) hg) (by simp [hne])
    | some a => exact ⟨a, rfl⟩
  have hd : d ≠ '\\' := fun e => hbs (by rw [← e]; exact mem_of_getLast_eq hdl)
  rw [hdl]
  simp only [collectQuotesGo]
  rw [if_pos (by simp [hd])]
  rw [collectQuotesGo_no_dq tail _ _ htail]
  have : 1 + k.length = k.length + 1 := by omega
  rw [this]

theorem drop_append_len : ∀ (X r : Str) (m : Nat),
    (X ++ r).drop (X.length + m) = r.drop m := by
  intro X
  induction X with
  | nil => intro r m; simp
  | cons c xt ih =>
    intro r m
    have he : (c :: xt).length + m = (xt.length + m) + 1 := by
      simp only [List.length_cons]; omega
    rw [he, List.cons_append, List.drop_succ_cons, ih]

theorem take_append_len : ∀ (X r : Str) (m : Nat),
    (X ++ r).take (X.length + m) = X ++ r.take m := by
  intro X
  induction X with
  | nil => intro r m; simp
  | cons c xt ih =>
    intro r m
    have he : (c :: xt).length + m = (xt.length + m) + 1 := by
      simp only [List.length_cons]; omega
    rw [he, List.cons_append, List.take_succ_cons, ih, List.cons_append]

theorem findNotCitedPQ_plain (X tail : Str) (hX1 : ':' ∉ X) (hX2 : '"' ∉ X)
    (ht2 : '"' ∉ tail) :
    findNotCitedPQ (X ++ ':' :: tail) ':' = (some X.length, 0) := by
  unfold findNotCitedPQ
  rw [findCharFrom_first X tail ':' hX1]
  rw [collectQuotes_no_dq _ (by
    intro hm
    rcases List.mem_append.mp hm with h1 | h2
    · exact hX2 h1
    · rcases List.mem_cons.mp h2 with e | h3
      · exact absurd e (by decide)
      · exact ht2 h3)]

theorem findNotCitedPQ_quoted (k tail : Str) (hne : k ≠ []) (hk1 : ':' ∉ k)
    (hk2 : '"' ∉ k) (hbs : '\\' ∉ k) (ht2 : '"' ∉ tail) :
    findNotCitedPQ ('"' :: (k ++ '"' :: ':' :: tail)) ':' =
      (some (k.length + 2), 1) := by
  unfold findNotCitedPQ
  have hfc : findCharFrom ('"' :: (k ++ '"' :: ':' :: tail)) ':' 0 =
      some (k.length + 2) := by
    have hshape : '"' :: (k ++ '"' :: ':' :: tail) =
        ('"' :: (k ++ ['"'])) ++ ':' :: tail := by simp
    rw [hshape, findCharFrom_first _ _ _ (by
      intro hm
      rcases List.mem_cons.mp hm with e | h2
      · exact absurd e (by decide)
      · rcases List.mem_append.mp h2 with h3 | h4
        · exact hk1 h3
        · have : (':' : Char) = '"' := by simpa using h4
          exact absurd this (by decide))]
    simp only [List.length_cons, List.length_append, List.length_singleton,
      List.length_nil, Option.some.injEq]
  rw [hfc]
  rw [collectQuotes_quoted k (':' :: tail) hk2 hne hbs (by
    intro hm
    rcases List.mem_cons.mp hm with e | h2
    · exact absurd e (by decide)
    · exact ht2 h2)]
  simp only [fncGo]
  rw [if_neg (by omega), if_neg (by omega)]

theorem firstNSTFrom_value (X v : Str) (hv : v ≠ []) (hh : v.head? ≠ some ' ')
    (hht : v.head? ≠ some '\t') :
    firstNotSpaceTabFrom (X ++ ':' :: ' ' :: v) (X.length + 1) =
      some (X.length + 2) := by
  unfold firstNotSpaceTabFrom
  rw [drop_append_len X (':' :: ' ' :: v) 1]
  obtain ⟨c0, cs, rfl⟩ : ∃ c0 cs, v = c0 :: cs := by
    cases v with
    | nil => exact absurd rfl hv
    | cons a b => exact ⟨a, b, rfl⟩
  have hc1 : c0 ≠ ' ' := fun e => hh (by simp [e])
  have hc2 : c0 ≠ '\t' := fun e => hht (by simp [e])
  simp only [List.drop_succ_cons, List.drop_zero, findIdxOpt]
  rw [if_neg (by simp), if_pos (by simp [hc1, hc2])]
  simp

theorem firstNSTFrom_marker (core : Str) (hcne : core ≠ [])
    (hh : core.head? ≠ some ' ') (hht : core.head? ≠ some '\t') :
    firstNotSpaceTabFrom ('-' :: ' ' :: core) 1 = some 2 := by
  unfold firstNotSpaceTabFrom
  obtain ⟨c0, cs, rfl⟩ : ∃ c0 cs, core = c0 :: cs := by
    cases core with
    | nil => exact absurd rfl hcne
    | cons a b => exact ⟨a, b, rfl⟩
  have hc1 : c0 ≠ ' ' := fun e => hh (by simp [e])
  have hc2 : c0 ≠ '\t' := fun e => hht (by simp [e])
  simp only [List.drop_succ_cons, List.drop_zero, findIdxOpt]
  rw [if_neg (by simp), if_pos (by simp [hc1, hc2])]
  simp

theorem ppScalar_plain (prev : Option RL) (l : RL) (rest : List RL)
    (hprev : ∀ p, prev = some p →
      p.litFlag = false ∧ p.foldFlag = false ∧ p.nlFlag = false)
    (hl : l.litFlag = false ∧ l.foldFlag = false ∧ l.nlFlag = false) :
    ppScalar prev l rest = ({ l with type := NType.scalarT }, 0) := by
  unfold ppScalar
  cases prev with
  | none =>
    rw [if_neg (by simp [hl.1, hl.2.1])]
  | some p =>
    obtain ⟨p1, p2, p3⟩ := hprev p rfl
    simp [copyFlagsFrom, hl.1, hl.2.1, hl.2.2, p1, p2, p3]

theorem ppMapOrScalar_scalar_data (prev : Option RL) (l : RL) (rest : List RL)
    (hnc : ':' ∉ l.data)
    (hprev : ∀ p, prev = some p →
      p.litFlag = false ∧ p.foldFlag = false ∧ p.nlFlag = false)
    (hl : l.litFlag = false ∧ l.foldFlag = false ∧ l.nlFlag = false) :
    ppMapOrScalar prev l rest = .ok ([{ l with type := NType.scalarT }], 0) := by
  unfold ppMapOrScalar
  simp only [findNotCitedPQ_no_tok l.data ':' hnc,
    ppScalar_plain prev l rest hprev hl]

theorem ppMapOrScalar_entry_scalar_gen (prev : Option RL) (l : RL)
    (rest : List RL) (X k0 k v : Str) (pqc : Nat)
    (hdata : l.data = X ++ ':' :: ' ' :: v)
    (hfnc : findNotCitedPQ l.data ':' = (some X.length, pqc))
    (hpqc : pqc ≤ 1)
    (hXne : X ≠ []) (hXl : X.getLast? ≠ some ' ') (hXlt : X.getLast? ≠ some '\t')
    (hkeyex : (if pqc = 1 then
        (if X.head? ≠ some '"' ∨ X.getLast? ≠ some '"' then
          Except.error (PErr.exc Err.keyIncorrect)
         else Except.ok ((X.drop 1).take (X.length - 2)))
      else Except.ok X) = Except.ok k0)
    (hrem : removeEscapes k0 = k)
    (hv : goodScalar v = true) (hvq : '"' ∉ v)
    (hl : l.litFlag = false ∧ l.foldFlag = false ∧ l.nlFlag = false)
    (hpeek : (match rest.head? with
              | some nx => decide (nx.offset > l.offset)
              | none => false) = false) :
    ppMapOrScalar prev l rest =
      .ok ([{ l with data := k, type := NType.mapT },
            { data := v, no := l.no, offset := X.length + 2,
              type := NType.scalarT }], 0) := by
  obtain ⟨hvne, hvch, hvh, -, hvseq, hvp1, hvp2, hvp3, hvp4⟩ := goodScalar_spec hv
  have hvht : v.head? ≠ some '\t' := by
    cases v with
    | nil => simp
    | cons c cs =>
      intro e
      have he : c = '\t' := by simpa using e
      exact (ctrl_ne_of_ge (goodChar_spec (hvch c (List.mem_cons_self _ _))).1).2.1 he
  have hvpos : 1 ≤ v.length := by
    cases v with
    | nil => exact absurd rfl hvne
    | cons a b => simp
  have hXfull : X.length - 1 + 1 = X.length := by
    have : 1 ≤ X.length := by
      cases X with
      | nil => exact absurd rfl hXne
      | cons a b => simp
    omega
  have hgt : (pqc > 1) = False := eq_false (by omega)
  have hcond2 : (X.length + 1 = (X ++ ':' :: ' ' :: v).length) = False :=
    eq_false (by
      simp only [List.length_append, List.length_cons]
      omega)
  have hvnetrue : (v ≠ []) = True := eq_true hvne
  have hvp1f : (v = ['|']) = False := eq_false hvp1
  have hvp2f : (v = ['>']) = False := eq_false hvp2
  have hvp3f : (v = ['|', '-']) = False := eq_false hvp3
  have hvp4f : (v = ['>', '-']) = False := eq_false hvp4
  rw [hdata] at hfnc
  have hps := ppScalar_plain
    (some (RL.mk k l.no l.offset NType.mapT l.litFlag l.foldFlag l.nlFlag))
    (RL.mk v l.no (X.length + 2) NType.noneT false false false) rest
    (by intro p e; injection e with e; subst e; exact ⟨hl.1, hl.2.1, hl.2.2⟩)
    ⟨rfl, rfl, rfl⟩
  unfold ppMapOrScalar
  simp only [hfnc, hdata, hgt, if_false, List.take_left,
    lastNotSpaceTab_full X hXne hXl hXlt, hXfull, List.take_length, hkeyex,
    hrem, hcond2, firstNSTFrom_value X v hvne hvh hvht,
    drop_append_len X (':' :: ' ' :: v) 2, List.drop_succ_cons, List.drop_zero,
    hvseq, Bool.false_eq_true, hvnetrue, if_true, hvp1f, hvp2f, hvp3f, hvp4f,
    hpeek, stripValueQuotes_id v hvq, Option.getD_some, hps]

theorem ppMapOrScalar_entry_nested_gen (prev : Option RL) (l : RL)
    (rest : List RL) (X k0 k : Str) (pqc : Nat)
    (hdata : l.data = X ++ [':'])
    (hfnc : findNotCitedPQ l.data ':' = (some X.length, pqc))
    (hpqc : pqc ≤ 1)
    (hXne : X ≠ []) (hXl : X.getLast? ≠ some ' ') (hXlt : X.getLast? ≠ some '\t')
    (hkeyex : (if pqc = 1 then
        (if X.head? ≠ some '"' ∨ X.getLast? ≠ some '"' then
          Except.error (PErr.exc Err.keyIncorrect)
         else Except.ok ((X.drop 1).take (X.length - 2)))
      else Except.ok X) = Except.ok k0)
    (hrem : removeEscapes k0 = k)
    (hpeek : (match rest.head? with
              | some nx => decide (nx.offset ≤ l.offset)
              | none => false) = false) :
    ppMapOrScalar prev l rest =
      .ok ([{ l with data := k, type := NType.mapT }], 0) := by
  have hXfull : X.length - 1 + 1 = X.length := by
    have : 1 ≤ X.length := by
      cases X with
      | nil => exact absurd rfl hXne
      | cons a b => simp
    omega
  have hgt : (pqc > 1) = False := eq_false (by omega)
  have hcond2 : (X.length + 1 = (X ++ [':']).length) = True :=
    eq_true (by simp)
  rw [hdata] at hfnc
  unfold ppMapOrScalar
  simp only [hfnc, hdata, hgt, if_false, List.take_left,
    lastNotSpaceTab_full X hXne hXl hXlt, hXfull, List.take_length, hkeyex,
    hrem, hcond2, if_true, isSeqStart, hpeek]
  simp

theorem ppm_entry_scalar (prev : Option RL) (l : RL) (rest : List RL)
    (k v : Str) (hk : goodKey k = true) (hv : goodScalar v = true)
    (hdata : l.data = renderKey k ++ v)
    (hl : l.litFlag = false ∧ l.foldFlag = false ∧ l.nlFlag = false)
    (hpeek : (match rest.head? with
              | some nx => decide (nx.offset > l.offset)
              | none => false) = false) :
    ppMapOrScalar prev l rest =
      .ok ([{ l with data := k, type := NType.mapT },
            { data := v, no := l.no, offset := localOff k,
              type := NType.scalarT }], 0) := by
  obtain ⟨hkne, hkch, hkh, hkl⟩ := goodKey_spec hk
  obtain ⟨-, hvch, -, -, -, -, -, -, -⟩ := goodScalar_spec hv
  have hvq : '"' ∉ v := fun hm => (goodChar_spec (hvch _ hm)).2.2.1 rfl
  have hknq : '"' ∉ k := fun hm => (goodChar_spec (hkch _ hm).1).2.2.1 rfl
  have hknc : ':' ∉ k := fun hm => (goodChar_spec (hkch _ hm).1).2.2.2.1 rfl
  have hkbs : '\\' ∉ k := fun hm => (hkch _ hm).2 rfl
  have hklt : k.getLast? ≠ some '\t' := fun e =>
    absurd (goodChar_spec (hkch _ (mem_of_getLast_eq e)).1).1 (by decide)
  have htl : '"' ∉ ' ' :: v := by
    intro hm
    rcases List.mem_cons.mp hm with e | h2
    · exact absurd e (by decide)
    · exact hvq h2
  rcases renderKeyC_cases hk with ⟨hcit, hr⟩ | ⟨hcit, hr⟩
  · have hd2 : l.data = k ++ ':' :: ' ' :: v := by
      rw [hdata, renderKey_eq, hr]; simp
    have hfnc : findNotCitedPQ l.data ':' = (some k.length, 0) := by
      rw [hd2]
      exact findNotCitedPQ_plain k (' ' :: v) hknc hknq htl
    have hres := ppMapOrScalar_entry_scalar_gen prev l rest k k k v 0 hd2 hfnc
      (by omega) hkne hkl hklt (by simp) (removeEscapes_id k hkbs) hv hvq hl hpeek
    rw [hres]
    have hoff : k.length + 2 = localOff k := by
      unfold localOff
      rw [hr]
      simp
    rw [hoff]
  · have hd2 : l.data = ('"' :: (k ++ ['"'])) ++ ':' :: ' ' :: v := by
      rw [hdata, renderKey_eq, hr]; simp
    have hd3 : l.data = '"' :: (k ++ '"' :: ':' :: (' ' :: v)) := by
      rw [hd2]; simp
    have hfnc0 := findNotCitedPQ_quoted k (' ' :: v) hkne hknc hknq hkbs htl
    have hXlen : ('"' :: (k ++ ['"'])).length = k.length + 2 := by simp
    have hfnc : findNotCitedPQ l.data ':' =
        (some (('"' :: (k ++ ['"'])).length), 1) := by
      rw [hd3, hXlen]
      exact hfnc0
    have hXlst : ('"' :: (k ++ ['"'])).getLast? = some '"' := by
      have he : ('"' :: (k ++ ['"'])) = ('"' :: k) ++ ['"'] := by simp
      rw [he, List.getLast?_concat]
    have hstrip : ((('"' :: (k ++ ['"'])).drop 1).take
        (('"' :: (k ++ ['"'])).length - 2)) = k := by
      simp only [List.drop_succ_cons, List.drop_zero, hXlen]
      have he : k.length + 2 - 2 = k.length := by omega
      rw [he, List.take_left]
    have hkeyex : (if (1 : Nat) = 1 then
        (if ('"' :: (k ++ ['"'])).head? ≠ some '"' ∨
            ('"' :: (k ++ ['"'])).getLast? ≠ some '"' then
          Except.error (PErr.exc Err.keyIncorrect)
         else Except.ok ((('"' :: (k ++ ['"'])).drop 1).take
            (('"' :: (k ++ ['"'])).length - 2)))
      else Except.ok ('"' :: (k ++ ['"']))) = Except.ok k := by
      rw [if_pos rfl, if_neg (by simp [hXlst]), hstrip]
    have hres := ppMapOrScalar_entry_scalar_gen prev l rest
      ('"' :: (k ++ ['"'])) k k v 1 hd2 hfnc (by omega) (by simp)
      (by rw [hXlst]; decide) (by rw [hXlst]; decide) hkeyex
      (removeEscapes_id k hkbs) hv hvq hl hpeek
    rw [hres]
    have hoff : ('"' :: (k ++ ['"'])).length + 2 = localOff k := by
      unfold localOff
      rw [hr]
      simp
    rw [hoff]

theorem ppm_entry_nested (prev : Option RL) (l : RL) (rest : List RL)
    (k : Str) (hk : goodKey k = true)
    (hdata : l.data = renderKeyC k)
    (hpeek : (match rest.head? with
              | some nx => decide (nx.offset ≤ l.offset)
              | none => false) = false) :
    ppMapOrScalar prev l rest =
      .ok ([{ l with data := k, type := NType.mapT }], 0) := by
  obtain ⟨hkne, hkch, hkh, hkl⟩ := goodKey_spec hk
  have hknq : '"' ∉ k := fun hm => (goodChar_spec (hkch _ hm).1).2.2.1 rfl
  have hknc : ':' ∉ k := fun hm => (goodChar_spec (hkch _ hm).1).2.2.2.1 rfl
  have hkbs : '\\' ∉ k := fun hm => (hkch _ hm).2 rfl
  have hklt : k.getLast? ≠ some '\t' := fun e =>
    absurd (goodChar_spec (hkch _ (mem_of_getLast_eq e)).1).1 (by decide)
  rcases renderKeyC_cases hk with ⟨hcit, hr⟩ | ⟨hcit, hr⟩
  · have hd2 : l.data = k ++ [':'] := by rw [hdata, hr]
    have hfnc : findNotCitedPQ l.data ':' = (some k.length, 0) := by
      rw [hd2]
      exact findNotCitedPQ_plain k [] hknc hknq (by simp)
    exact ppMapOrScalar_entry_nested_gen prev l rest k k k 0 hd2 hfnc
      (by omega) hkne hkl hklt (by simp) (removeEscapes_id k hkbs) hpeek
  · have hd2 : l.data = ('"' :: (k ++ ['"'])) ++ [':'] := by
      rw [hdata, hr]; simp
    have hd3 : l.data = '"' :: (k ++ '"' :: ':' :: ([] : Str)) := by
      rw [hd2]; simp
    have hfnc0 := findNotCitedPQ_quoted k [] hkne hknc hknq hkbs (by simp)
    have hXlen : ('"' :: (k ++ ['"'])).length = k.length + 2 := by simp
    have hfnc : findNotCitedPQ l.data ':' =
        (some (('"' :: (k ++ ['"'])).length), 1) := by
      rw [hd3, hXlen]
      exact hfnc0
    have hXlst : ('"' :: (k ++ ['"'])).getLast? = some '"' := by
      have he : ('"' :: (k ++ ['"'])) = ('"' :: k) ++ ['"'] := by simp
      rw [he, List.getLast?_concat]
    have hstrip : ((('"' :: (k ++ ['"'])).drop 1).take
        (('"' :: (k ++ ['"'])).length - 2)) = k := by
      simp only [List.drop_succ_cons, List.drop_zero, hXlen]
      have he : k.length + 2 - 2 = k.length := by omega
      rw [he, List.take_left]
    have hkeyex : (if (1 : Nat) = 1 then
        (if ('"' :: (k ++ ['"'])).head? ≠ some '"' ∨
            ('"' :: (k ++ ['"'])).getLast? ≠ some '"' then
          Except.error (PErr.exc Err.keyIncorrect)
         else Except.ok ((('"' :: (k ++ ['"'])).drop 1).take
            (('"' :: (k ++ ['"'])).length - 2)))
      else Except.ok ('"' :: (k ++ ['"']))) = Except.ok k := by
      rw [if_pos rfl, if_neg (by simp [hXlst]), hstrip]
    exact ppMapOrScalar_entry_nested_gen prev l rest
      ('"' :: (k ++ ['"'])) k k 1 hd2 hfnc (by omega) (by simp)
      (by rw [hXlst]; decide) (by rw [hXlst]; decide) hkeyex
      (removeEscapes_id k hkbs) hpeek

theorem mem_of_head_eq : ∀ {l : Str} {a : Char}, l.head? = some a → a ∈ l := by
  intro l a h
  cases l with
  | nil => cases h
  | cons x xs =>
    cases h
    exact List.mem_cons_self _ _

theorem ppOne_scalar_line (prev : Option RL) (l : RL) (rest : List RL)
    (hnc : ':' ∉ l.data) (hns : isSeqStart l.data = false)
    (hprev : ∀ p, prev = some p →
      p.litFlag = false ∧ p.foldFlag = false ∧ p.nlFlag = false)
    (hl : l.litFlag = false ∧ l.foldFlag = false ∧ l.nlFlag = false) :
    ppOne prev l rest = .ok ([{ l with type := NType.scalarT }], 0) := by
  unfold ppOne
  rw [hns]
  simp only [Bool.false_eq_true, if_false]
  exact ppMapOrScalar_scalar_data prev l rest hnc hprev hl

theorem ppOne_keyline_scalar (prev : Option RL) (l : RL) (rest : List RL)
    (k v : Str) (hk : goodKey k = true) (hv : goodScalar v = true)
    (hdata : l.data = renderKey k ++ v)
    (hl : l.litFlag = false ∧ l.foldFlag = false ∧ l.nlFlag = false)
    (hpeek : (match rest.head? with
              | some nx => decide (nx.offset > l.offset)
              | none => false) = false) :
    ppOne prev l rest =
      .ok ([{ l with data := k, type := NType.mapT },
            { data := v, no := l.no, offset := localOff k,
              type := NType.scalarT }], 0) := by
  obtain ⟨X, hX1, hX2, hXne, -, hXd, -, -, -⟩ := renderKeyC_decomp hk
  have hns : isSeqStart l.data = false := by
    apply isSeqStart_false_of_head
    rw [hdata, hX2, List.append_assoc, List.head?_append_of_ne_nil _ hXne]
    exact hXd
  unfold ppOne
  rw [hns]
  simp only [Bool.false_eq_true, if_false]
  exact ppm_entry_scalar prev l rest k v hk hv hdata hl hpeek

theorem ppOne_keyline_nested (prev : Option RL) (l : RL) (rest : List RL)
    (k : Str) (hk : goodKey k = true)
    (hdata : l.data = renderKeyC k)
    (hpeek : (match rest.head? with
              | some nx => decide (nx.offset ≤ l.offset)
              | none => false) = false) :
    ppOne prev l rest = .ok ([{ l with data := k, type := NType.mapT }], 0) := by
  obtain ⟨X, hX1, -, hXne, -, hXd, -, -, -⟩ := renderKeyC_decomp hk
  have hns : isSeqStart l.data = false := by
    apply isSeqStart_false_of_head
    rw [hdata, hX1, List.head?_append_of_ne_nil _ hXne]
    exact hXd
  unfold ppOne
  rw [hns]
  simp only [Bool.false_eq_true, if_false]
  exact ppm_entry_nested prev l rest k hk hdata hpeek

theorem ppOne_pure_marker (prev : Option RL) (l : RL) (rest : List RL)
    (hdata : l.data = ['-']) :
    ppOne prev l rest = .ok ([{ l with type := NType.seqT }], 0) := by
  have hss : isSeqStart l.data = true := by rw [hdata]; rfl
  have hfn : firstNotSpaceTabFrom l.data 1 = none := by rw [hdata]; rfl
  unfold ppOne
  simp only [hss, if_true, hfn]

theorem ppOne_marker_split (prev : Option RL) (l : RL) (rest : List RL)
    (core : Str) (outs : List RL) (kk : Nat)
    (hdata : l.data = '-' :: ' ' :: core)
    (hcne : core ≠ []) (hch : core.head? ≠ some ' ') (hct : core.head? ≠ some '\t')
    (hsub : ppMapOrScalar (some { l with type := NType.seqT, data := [] })
        { data := core, no := l.no, offset := l.offset + 2 } rest =
          .ok (outs, kk)) :
    ppOne prev l rest =
      .ok ({ l with type := NType.seqT, data := [] } :: outs, kk) := by
  have hss : isSeqStart l.data = true := by rw [hdata]; simp [isSeqStart]
  have hfn : firstNotSpaceTabFrom l.data 1 = some 2 := by
    rw [hdata]; exact firstNSTFrom_marker core hcne hch hct
  have hdrop : l.data.drop 2 = core := by rw [hdata]; rfl
  unfold ppOne
  simp only [hss, if_true, hfn, hdrop, hsub]

/-! ## Round trip: running the post-processing loop over a block -/

theorem olast_append (A B : List RL) (p : Option RL) :
    olast (A ++ B) p = olast B (olast A p) := by
  unfold olast
  rw [List.getLast?_append]
  cases hB : B.getLast? with
  | none => simp
  | some x => simp

theorem emap_emap {α β γ : Type} (f : α → β) (g : β → γ) (x : Except PErr α) :
    Except.map g (Except.map f x) = Except.map (fun a => g (f a)) x := by
  cases x <;> rfl

theorem emap_congr {α β : Type} (f g : α → β) (x : Except PErr α)
    (h : ∀ a, f a = g a) : Except.map f x = Except.map g x := by
  cases x <;> simp [Except.map, h]

mutual

theorem pSeq_flags : ∀ (es : List (Nat × Node)) (lv n : Nat),
    ∀ x ∈ (pSeq es lv n).1,
      x.litFlag = false ∧ x.foldFlag = false ∧ x.nlFlag = false
  | [], lv, n => by
    intro x hx
    simp [pSeq] at hx
  | (kk, c) :: rest, lv, n => by
    intro x hx
    rcases hc : c with - | v | ss | ms
    all_goals rw [hc] at hx
    · rcases h2 : pSeq rest lv n with ⟨ls2, n2⟩
      simp only [pSeq, h2] at hx
      simp only [List.nil_append] at hx
      exact pSeq_flags rest lv n x (by rw [h2]; exact hx)
    · rcases h2 : pSeq rest lv (n + 1) with ⟨ls2, n2⟩
      simp only [pSeq, h2] at hx
      rcases List.mem_append.mp hx with h1 | h1
      · rcases List.mem_cons.mp h1 with rfl | h3
        · exact ⟨rfl, rfl, rfl⟩
        rcases List.mem_cons.mp h3 with rfl | h4
        · exact ⟨rfl, rfl, rfl⟩
        · simp at h4
      · exact pSeq_flags rest lv (n + 1) x (by rw [h2]; exact h1)
    · rcases h1 : pSeq ss (lv + 2) (n + 1) with ⟨cls, n1⟩
      rcases h2 : pSeq rest lv n1 with ⟨ls2, n2⟩
      simp only [pSeq, h1, h2] at hx
      rcases List.mem_append.mp hx with ha | hb
      · rcases List.mem_cons.mp ha with rfl | h3
        · exact ⟨rfl, rfl, rfl⟩
        · exact pSeq_flags ss (lv + 2) (n + 1) x (by rw [h1]; exact h3)
      · exact pSeq_flags rest lv n1 x (by rw [h2]; exact hb)
    · rcases h1 : pMap ms (lv + 2) n with ⟨cls, n1⟩
      rcases h2 : pSeq rest lv n1 with ⟨ls2, n2⟩
      simp only [pSeq, h1, h2] at hx
      rcases List.mem_append.mp hx with ha | hb
      · rcases List.mem_cons.mp ha with rfl | h3
        · exact ⟨rfl, rfl, rfl⟩
        · exact pMap_flags ms (lv + 2) n x (by rw [h1]; exact h3)
      · exact pSeq_flags rest lv n1 x (by rw [h2]; exact hb)

theorem pMap_flags : ∀ (es : List (Str × Node)) (lv n : Nat),
    ∀ x ∈ (pMap es lv n).1,
      x.litFlag = false ∧ x.foldFlag = false ∧ x.nlFlag = false
  | [], lv, n => by
    intro x hx
    simp [pMap] at hx
  | (kk, c) :: rest, lv, n => by
    intro x hx
    rcases hc : c with - | v | ss | ms
    all_goals rw [hc] at hx
    · rcases h2 : pMap rest lv n with ⟨ls2, n2⟩
      simp only [pMap, h2] at hx
      simp only [List.nil_append] at hx
      exact pMap_flags rest lv n x (by rw [h2]; exact hx)
    · rcases h2 : pMap rest lv (n + 1) with ⟨ls2, n2⟩
      simp only [pMap, h2] at hx
      rcases List.mem_append.mp hx with h1 | h1
      · rcases List.mem_cons.mp h1 with rfl | h3
        · exact ⟨rfl, rfl, rfl⟩
        rcases List.mem_cons.mp h3 with rfl | h4
        · exact ⟨rfl, rfl, rfl⟩
        · simp at h4
      · exact pMap_flags rest lv (n + 1) x (by rw [h2]; exact h1)
    · rcases h1 : pSeq ss (lv + 2) (n + 1) with ⟨cls, n1⟩
      rcases h2 : pMap rest lv n1 with ⟨ls2, n2⟩
      simp only [pMap, h1, h2] at hx
      rcases List.mem_append.mp hx with ha | hb
      · rcases List.mem_cons.mp ha with rfl | h3
        · exact ⟨rfl, rfl, rfl⟩
        · exact pSeq_flags ss (lv + 2) (n + 1) x (by rw [h1]; exact h3)
      · exact pMap_flags rest lv n1 x (by rw [h2]; exact hb)
    · rcases h1 : pMap ms (lv + 2) (n + 1) with ⟨cls, n1⟩
      rcases h2 : pMap rest lv n1 with ⟨ls2, n2⟩
      simp only [pMap, h1, h2] at hx
      rcases List.mem_append.mp hx with ha | hb
      · rcases List.mem_cons.mp ha with rfl | h3
        · exact ⟨rfl, rfl, rfl⟩
        · exact pMap_flags ms (lv + 2) (n + 1) x (by rw [h1]; exact h3)
      · exact pMap_flags rest lv n1 x (by rw [h2]; exact hb)

end

theorem mem_of_getLast_rl : ∀ {l : List RL} {a : RL}, l.getLast? = some a → a ∈ l := by
  intro l a h
  rw [← List.head?_reverse] at h
  have hm : a ∈ l.reverse := by
    cases hr : l.reverse with
    | nil => rw [hr] at h; cases h
    | cons x xs =>
      rw [hr] at h
      injection h with h
      subst h
      exact List.mem_cons_self _ _
  exact List.mem_reverse.mp hm

theorem olast_flags (ls : List RL) (p : Option RL)
    (hls : ∀ x ∈ ls, x.litFlag = false ∧ x.foldFlag = false ∧ x.nlFlag = false)
    (hp : ∀ q, p = some q → q.litFlag = false ∧ q.foldFlag = false ∧ q.nlFlag = false) :
    ∀ q, olast ls p = some q →
      q.litFlag = false ∧ q.foldFlag = false ∧ q.nlFlag = false := by
  intro q hq
  unfold olast at hq
  cases hlast : ls.getLast? with
  | none => rw [hlast] at hq; exact hp q hq
  | some x =>
    rw [hlast] at hq
    injection hq with hq2
    subst hq2
    exact hls _ (mem_of_getLast_rl hlast)



theorem tSeq_ne_nil (kk : Nat) (c : Node) (rest : List (Nat × Node))
    (lv n : Nat) (hc : goodB c = true) :
    (tSeq ((kk, c) :: rest) lv n).1 ≠ [] := by
  match c with
  | Node.nul => simp [goodB] at hc
  | Node.scalar v =>
    rcases h2 : tSeq rest lv (n + 1) with ⟨ls2, n2⟩
    simp [tSeq, h2]
  | Node.seq ss =>
    rcases h1 : tSeq ss (lv + 2) (n + 1) with ⟨ls1, n1⟩
    rcases h2 : tSeq rest lv n1 with ⟨ls2, n2⟩
    simp [tSeq, h1, h2]
  | Node.map ms =>
    rcases h1 : tMap ms false (lv + 2) n with ⟨mls, mn⟩
    cases ms with
    | nil => simp [goodB] at hc
    | cons e etl =>
      obtain ⟨k1, c1⟩ := e
      have hgc : goodB c1 = true := by
        simp only [goodB, goodMapB, Bool.and_eq_true] at hc
        exact hc.2.1.2
      have hnn := tMap_ne_nil k1 c1 etl false (lv + 2) n hgc
      rw [h1] at hnn
      rcases mls with - | ⟨⟨ph, rl⟩, t⟩
      · exact absurd rfl hnn
      rcases h3 : tSeq rest lv mn with ⟨ls3, n3⟩
      simp [tSeq, h1, h3]

mutual

theorem pSeq_snd : ∀ (es : List (Nat × Node)) (lv n : Nat),
    (pSeq es lv n).2 = (tSeq es lv n).2
  | [], lv, n => by simp [pSeq, tSeq]
  | (kk, c) :: rest, lv, n => by
    rcases hc : c with - | v | ss | ms
    · rcases h2 : tSeq rest lv n with ⟨tl2, tn2⟩
      rcases hp2 : pSeq rest lv n with ⟨pl2, pn2⟩
      have he := pSeq_snd rest lv n
      simp only [h2, hp2] at he
      simp [pSeq, tSeq, h2, hp2, he]
    · rcases h2 : tSeq rest lv (n + 1) with ⟨tl2, tn2⟩
      rcases hp2 : pSeq rest lv (n + 1) with ⟨pl2, pn2⟩
      have he := pSeq_snd rest lv (n + 1)
      simp only [h2, hp2] at he
      simp [pSeq, tSeq, h2, hp2, he]
    · rcases h1 : tSeq ss (lv + 2) (n + 1) with ⟨tl1, tn1⟩
      rcases hp1 : pSeq ss (lv + 2) (n + 1) with ⟨pl1, pn1⟩
      have he1 := pSeq_snd ss (lv + 2) (n + 1)
      simp only [h1, hp1] at he1
      subst he1
      rcases h2 : tSeq rest lv pn1 with ⟨tl2, tn2⟩
      rcases hp2 : pSeq rest lv pn1 with ⟨pl2, pn2⟩
      have he2 := pSeq_snd rest lv pn1
      simp only [h2, hp2] at he2
      simp [pSeq, tSeq, h1, hp1, h2, hp2, he2]
    · rcases h1 : tMap ms false (lv + 2) n with ⟨tl1, tn1⟩
      rcases hp1 : pMap ms (lv + 2) n with ⟨pl1, pn1⟩
      have he1 := pMap_snd ms false (lv + 2) n
      simp only [h1, hp1] at he1
      subst he1
      rcases h2 : tSeq rest lv pn1 with ⟨tl2, tn2⟩
      rcases hp2 : pSeq rest lv pn1 with ⟨pl2, pn2⟩
      have he2 := pSeq_snd rest lv pn1
      simp only [h2, hp2] at he2
      rcases tl1 with - | ⟨⟨ph, rl⟩, t⟩
      · simp [pSeq, tSeq, h1, hp1, h2, hp2, he2]
      · simp [pSeq, tSeq, h1, hp1, h2, hp2, he2]

theorem pMap_snd : ∀ (es : List (Str × Node)) (b : Bool) (lv n : Nat),
    (pMap es lv n).2 = (tMap es b lv n).2
  | [], b, lv, n => by simp [pMap, tMap]
  | (k, c) :: rest, b, lv, n => by
    rcases hc : c with - | v | ss | ms
    · rcases h2 : tMap rest true lv n with ⟨tl2, tn2⟩
      rcases hp2 : pMap rest lv n with ⟨pl2, pn2⟩
      have he := pMap_snd rest true lv n
      simp only [h2, hp2] at he
      simp [pMap, tMap, h2, hp2, he]
    · rcases h2 : tMap rest true lv (n + 1) with ⟨tl2, tn2⟩
      rcases hp2 : pMap rest lv (n + 1) with ⟨pl2, pn2⟩
      have he := pMap_snd rest true lv (n + 1)
      simp only [h2, hp2] at he
      simp [pMap, tMap, h2, hp2, he]
    · rcases h1 : tSeq ss (lv + 2) (n + 1) with ⟨tl1, tn1⟩
      rcases hp1 : pSeq ss (lv + 2) (n + 1) with ⟨pl1, pn1⟩
      have he1 := pSeq_snd ss (lv + 2) (n + 1)
      simp only [h1, hp1] at he1
      subst he1
      rcases h2 : tMap rest true lv pn1 with ⟨tl2, tn2⟩
      rcases hp2 : pMap rest lv pn1 with ⟨pl2, pn2⟩
      have he2 := pMap_snd rest true lv pn1
      simp only [h2, hp2] at he2
      simp [pMap, tMap, h1, hp1, h2, hp2, he2]
    · rcases h1 : tMap ms true (lv + 2) (n + 1) with ⟨tl1, tn1⟩
      rcases hp1 : pMap ms (lv + 2) (n + 1) with ⟨pl1, pn1⟩
      have he1 := pMap_snd ms true (lv + 2) (n + 1)
      simp only [h1, hp1] at he1
      subst he1
      rcases h2 : tMap rest true lv pn1 with ⟨tl2, tn2⟩
      rcases hp2 : pMap rest lv pn1 with ⟨pl2, pn2⟩
      have he2 := pMap_snd rest true lv pn1
      simp only [h2, hp2] at he2
      simp [pMap, tMap, h1, hp1, h2, hp2, he2]

end

theorem tMapL_head_off (es : List (Str × Node)) (op : Option Str) (b : Bool)
    (lv m : Nat) (hg : goodMapB op es = true) :
    ∀ d t, tMapL es b lv m = d :: t → d.offset = lv := by
  intro d t hdt
  obtain ⟨-, -, -, -, -, cH⟩ := tMap_ok es op b lv m hg
  unfold tMapL at hdt
  rcases h1 : (tMap es b lv m).1 with - | ⟨⟨ph, rl⟩, t0⟩
  · rw [h1] at hdt
    cases hdt
  · rw [h1] at hdt cH
    obtain ⟨core, j, -, -, hrl, -⟩ := cH
    simp only [List.map_cons] at hdt
    injection hdt with hd ht
    rw [← hd, hrl]

theorem tSeqL_head_off (es : List (Nat × Node)) (i lv m : Nat)
    (hg : goodSeqB i es = true) :
    ∀ d t, tSeqL es lv m = d :: t → d.offset = lv := by
  intro d t hdt
  obtain ⟨-, -, -, -, cH⟩ := tSeq_ok es i lv m hg
  unfold tSeqL at hdt
  rcases h1 : (tSeq es lv m).1 with - | ⟨⟨ph, rl⟩, t0⟩
  · rw [h1] at hdt
    cases hdt
  · rw [h1] at hdt cH
    obtain ⟨core, j, -, -, hrl, -⟩ := cH
    simp only [List.map_cons] at hdt
    injection hdt with hd ht
    rw [← hd, hrl]

theorem head_below_mono (X : List RL) (L L2 : Nat) (hLL : L ≤ L2)
    (h : match X.head? with | some r => r.offset < L | none => True) :
    (match X.head? with | some r => r.offset < L2 | none => True) := by
  rcases hx : X.head? with - | r
  · simp only [hx]
  · simp only [hx] at h ⊢
    omega

theorem below_concat (A B : List RL) (lvA L : Nat)
    (hA : ∀ d t, A = d :: t → d.offset = lvA) (hAL : lvA < L)
    (hB : match B.head? with | some r => r.offset < L | none => True) :
    (match (A ++ B).head? with | some r => r.offset < L | none => True) := by
  cases A with
  | nil =>
    rw [List.nil_append]
    exact hB
  | cons d t =>
    have := hA d t rfl
    simp only [List.cons_append, List.head?_cons]
    omega

theorem peek_gt_of_below (X : List RL) (off L : Nat) (hoffL : L ≤ off + 1)
    (h : match X.head? with | some r => r.offset < L | none => True) :
    (match X.head? with
     | some nx => decide (nx.offset > off)
     | none => false) = false := by
  rcases hx : X.head? with - | r
  · simp only [hx]
  · simp only [hx] at h ⊢
    simp only [decide_eq_false_iff_not]
    omega

theorem peek_le_of_eq (X : List RL) (off lvh : Nat) (hlt : off < lvh)
    (d : RL) (t : List RL) (hX : X = d :: t) (hd : d.offset = lvh) :
    (match X.head? with
     | some nx => decide (nx.offset ≤ off)
     | none => false) = false := by
  subst hX
  simp only [List.head?_cons, decide_eq_false_iff_not]
  omega



theorem tMapL_cons (es : List (Str × Node)) (op : Option Str) (b : Bool)
    (lv m : Nat) (hg : goodMapB op es = true) (hne : es ≠ []) :
    ∃ d t, tMapL es b lv m = d :: t ∧ d.offset = lv := by
  rcases es with - | ⟨⟨k1, c1⟩, es'⟩
  · exact absurd rfl hne
  · have hgc : goodB c1 = true := by
      simp only [goodMapB, Bool.and_eq_true] at hg
      exact hg.1.2
    have hnn := tMap_ne_nil k1 c1 es' b lv m hgc
    rcases h1 : (tMap ((k1, c1) :: es') b lv m).1 with - | ⟨⟨ph, rl⟩, t0⟩
    · rw [h1] at hnn
      exact absurd rfl hnn
    · refine ⟨rl, t0.map Prod.snd, ?_, ?_⟩
      · unfold tMapL
        rw [h1]
        rfl
      · exact tMapL_head_off _ op b lv m hg rl (t0.map Prod.snd)
          (by unfold tMapL; rw [h1]; rfl)

theorem tSeqL_cons (es : List (Nat × Node)) (i lv m : Nat)
    (hg : goodSeqB i es = true) (hne : es ≠ []) :
    ∃ d t, tSeqL es lv m = d :: t ∧ d.offset = lv := by
  rcases es with - | ⟨⟨k1, c1⟩, es'⟩
  · exact absurd rfl hne
  · have hgc : goodB c1 = true := by
      simp only [goodSeqB, Bool.and_eq_true] at hg
      exact hg.1.2
    have hnn := tSeq_ne_nil k1 c1 es' lv m hgc
    rcases h1 : (tSeq ((k1, c1) :: es') lv m).1 with - | ⟨⟨ph, rl⟩, t0⟩
    · rw [h1] at hnn
      exact absurd rfl hnn
    · refine ⟨rl, t0.map Prod.snd, ?_, ?_⟩
      · unfold tSeqL
        rw [h1]
        rfl
      · exact tSeqL_head_off _ i lv m hg rl (t0.map Prod.snd)
          (by unfold tSeqL; rw [h1]; rfl)

theorem renderKey_core_facts {k : Str} (h : goodKey k = true) (v : Str) :
    (renderKey k ++ v ≠ [] ∧ (renderKey k ++ v).head? ≠ some ' ' ∧
      (renderKey k ++ v).head? ≠ some '\t') ∧
    (renderKeyC k ≠ [] ∧ (renderKeyC k).head? ≠ some ' ' ∧
      (renderKeyC k).head? ≠ some '\t') := by
  obtain ⟨X, hX1, hX2, hXne, hXh, -, -, hXch, -⟩ := renderKeyC_decomp h
  have hh1 : (renderKey k ++ v).head? = X.head? := by
    rw [hX2, List.append_assoc, List.head?_append_of_ne_nil _ hXne]
  have hh2 : (renderKeyC k).head? = X.head? := by
    rw [hX1, List.head?_append_of_ne_nil _ hXne]
  have hnt : X.head? ≠ some '\t' := fun e =>
    absurd (hXch _ (mem_of_head_eq e)).1 (by decide)
  refine ⟨⟨?_, ?_, ?_⟩, ⟨?_, ?_, ?_⟩⟩
  · rw [hX2]
    simp
  · rw [hh1]
    exact hXh
  · rw [hh1]
    exact hnt
  · rw [hX1]
    simp
  · rw [hh2]
    exact hXh
  · rw [hh2]
    exact hnt

mutual

theorem ppSeq_run : ∀ (es : List (Nat × Node)) (i lv n : Nat) (rest : List RL)
    (prev : Option RL) (fuel : Nat),
    goodSeqB i es = true →
    (∀ p, prev = some p →
      p.litFlag = false ∧ p.foldFlag = false ∧ p.nlFlag = false) →
    (match rest.head? with
     | some r => r.offset < lv
     | none => True) →
    ppGo (fuel + (tSeqL es lv n).length) prev (tSeqL es lv n ++ rest) =
      Except.map (fun t => (pSeq es lv n).1 ++ t)
        (ppGo fuel (olast (pSeq es lv n).1 prev) rest)
  | [], i, lv, n, rest, prev, fuel, hg, hprev, hrest => by
    have hT : tSeqL [] lv n = [] := by unfold tSeqL; simp [tSeq]
    have hP : (pSeq [] lv n).1 = [] := by simp [pSeq]
    rw [hT, hP]
    simp only [List.length_nil, Nat.add_zero, List.nil_append]
    cases hgo : ppGo fuel (olast [] prev) rest with
    | error e => simp [olast] at hgo ⊢; rw [hgo]; rfl
    | ok t => simp [olast] at hgo ⊢; rw [hgo]; rfl
  | (kk, Node.nul) :: restE, i, lv, n, rest, prev, fuel, hg, hprev, hrest => by
    simp [goodSeqB, goodB] at hg
  | (kk, Node.scalar v) :: restE, i, lv, n, rest, prev, fuel, hg, hprev, hrest => by
    simp only [goodSeqB, Bool.and_eq_true] at hg
    obtain ⟨⟨-, hv⟩, hrestE⟩ := hg
    obtain ⟨hvne, hvch, hvh, -, -, -, -, -, -⟩ := goodScalar_spec hv
    have hvt : v.head? ≠ some '\t' := fun e =>
      absurd (goodChar_spec (hvch _ (mem_of_head_eq e))).1 (by decide)
    have hncv : ':' ∉ v := fun hm =>
      (goodChar_spec (hvch _ hm)).2.2.2.1 rfl
    rcases h2 : tSeq restE lv (n + 1) with ⟨tls, n2⟩
    have hT : tSeqL ((kk, Node.scalar v) :: restE) lv n =
        { data := ['-', ' '] ++ v, no := n, offset := lv } :: tls.map Prod.snd := by
      unfold tSeqL
      simp [tSeq, h2]
    have hT2 : tSeqL restE lv (n + 1) = tls.map Prod.snd := by
      unfold tSeqL
      rw [h2]
    have hP : (pSeq ((kk, Node.scalar v) :: restE) lv n).1 =
        { data := [], no := n, offset := lv, type := NType.seqT } ::
        { data := v, no := n, offset := lv + 2, type := NType.scalarT } ::
        (pSeq restE lv (n + 1)).1 := by
      rcases hp2 : pSeq restE lv (n + 1) with ⟨pls, pn2⟩
      simp [pSeq, hp2]
    rw [hT]
    simp only [List.cons_append, List.length_cons]
    have hfe : fuel + ((tls.map Prod.snd).length + 1) =
        (fuel + (tls.map Prod.snd).length) + 1 := by omega
    rw [hfe]
    simp only [ppGo]
    have hsub := ppMapOrScalar_scalar_data
      (some { data := [], no := n, offset := lv, type := NType.seqT })
      { data := v, no := n, offset := lv + 2 }
      ((tls.map Prod.snd) ++ rest) hncv
      (by intro p e; injection e with e; subst e; exact ⟨rfl, rfl, rfl⟩)
      ⟨rfl, rfl, rfl⟩
    rw [ppOne_marker_split prev _ ((tls.map Prod.snd) ++ rest) v _ 0 rfl
      hvne hvh hvt hsub]
    have HIH := ppSeq_run restE (i + 1) lv (n + 1) rest
      (some { data := v, no := n, offset := lv + 2, type := NType.scalarT })
      fuel hrestE (by intro p e; injection e with e; subst e; exact ⟨rfl, rfl, rfl⟩)
      hrest
    rw [hT2] at HIH
    simp only [List.drop_zero]
    rw [show ((({ data := [], no := n, offset := lv, type := NType.seqT } : RL) ::
        [{ data := v, no := n, offset := lv + 2, type := NType.scalarT }]).getLast?) =
        some { data := v, no := n, offset := lv + 2, type := NType.scalarT } from rfl]
    rw [HIH, hP]
    have holast : olast ({ data := [], no := n, offset := lv, type := NType.seqT } ::
        { data := v, no := n, offset := lv + 2, type := NType.scalarT } ::
        (pSeq restE lv (n + 1)).1) prev =
        olast ((pSeq restE lv (n + 1)).1)
          (some { data := v, no := n, offset := lv + 2,
                  type := NType.scalarT }) := by
      have he : ({ data := [], no := n, offset := lv, type := NType.seqT } ::
          { data := v, no := n, offset := lv + 2, type := NType.scalarT } ::
          (pSeq restE lv (n + 1)).1) =
          [{ data := [], no := n, offset := lv, type := NType.seqT },
           { data := v, no := n, offset := lv + 2, type := NType.scalarT }] ++
          (pSeq restE lv (n + 1)).1 := rfl
      rw [he, olast_append]
      rfl
    rw [holast]
    cases hgo : ppGo fuel (olast ((pSeq restE lv (n + 1)).1)
        (some { data := v, no := n, offset := lv + 2,
                type := NType.scalarT })) rest with
    | error e => simp [Except.map]
    | ok t => simp [Except.map]
  | (kk, Node.seq ss) :: restE, i, lv, n, rest, prev, fuel, hg, hprev, hrest => by
    simp only [goodSeqB, Bool.and_eq_true] at hg
    obtain ⟨⟨-, hc⟩, hrestE⟩ := hg
    have hssne : ss ≠ [] := by
      intro e
      subst e
      simp [goodB] at hc
    have hss : goodSeqB 0 ss = true := by
      rcases ss with - | e
      · exact absurd rfl hssne
      · simp only [goodB, Bool.and_eq_true] at hc
        exact hc.2
    rcases h1 : tSeq ss (lv + 2) (n + 1) with ⟨mls, mn⟩
    rcases h2 : tSeq restE lv mn with ⟨tls, n2⟩
    have hT : tSeqL ((kk, Node.seq ss) :: restE) lv n =
        { data := ['-'], no := n, offset := lv } ::
        (mls.map Prod.snd ++ tls.map Prod.snd) := by
      unfold tSeqL
      simp [tSeq, h1, h2]
    have hTm : tSeqL ss (lv + 2) (n + 1) = mls.map Prod.snd := by
      unfold tSeqL
      rw [h1]
    have hTr : tSeqL restE lv mn = tls.map Prod.snd := by
      unfold tSeqL
      rw [h2]
    have hsnd : (pSeq ss (lv + 2) (n + 1)).2 = mn := by
      rw [pSeq_snd ss (lv + 2) (n + 1), h1]
    have hP : (pSeq ((kk, Node.seq ss) :: restE) lv n).1 =
        { data := ['-'], no := n, offset := lv, type := NType.seqT } ::
        ((pSeq ss (lv + 2) (n + 1)).1 ++ (pSeq restE lv mn).1) := by
      rcases hp1 : pSeq ss (lv + 2) (n + 1) with ⟨pls, pn1⟩
      have hpn : pn1 = mn := by rw [← hsnd, hp1]
      rcases hp2 : pSeq restE lv mn with ⟨pls2, pn2⟩
      simp [pSeq, hp1, hpn, hp2]
    rw [hT]
    simp only [List.cons_append, List.length_cons, List.length_append,
      List.append_assoc]
    have hfe : fuel + ((mls.map Prod.snd).length + (tls.map Prod.snd).length + 1) =
        ((fuel + (tls.map Prod.snd).length) + (mls.map Prod.snd).length) + 1 := by
      omega
    rw [hfe]
    simp only [ppGo]
    rw [ppOne_pure_marker prev _ ((mls.map Prod.snd) ++ ((tls.map Prod.snd) ++ rest))
      rfl]
    have HIH1 := ppSeq_run ss 0 (lv + 2) (n + 1) ((tls.map Prod.snd) ++ rest)
      (some { data := ['-'], no := n, offset := lv, type := NType.seqT })
      (fuel + (tls.map Prod.snd).length) hss
      (by intro p e; injection e with e; subst e; exact ⟨rfl, rfl, rfl⟩)
      (by
        refine below_concat (tls.map Prod.snd) rest lv (lv + 2) ?_ (by omega) ?_
        · intro d t hdt
          exact tSeqL_head_off restE (i + 1) lv mn hrestE d t (by rw [hTr]; exact hdt)
        · exact head_below_mono rest lv (lv + 2) (by omega) hrest)
    rw [hTm] at HIH1
    simp only [List.drop_zero]
    rw [show (([{ data := ['-'], no := n, offset := lv, type := NType.seqT }] : List RL).getLast?) =
        some { data := ['-'], no := n, offset := lv, type := NType.seqT } from rfl]
    rw [HIH1]
    have hfl1 : ∀ p, (olast (pSeq ss (lv + 2) (n + 1)).1
        (some { data := ['-'], no := n, offset := lv, type := NType.seqT })) =
          some p →
        p.litFlag = false ∧ p.foldFlag = false ∧ p.nlFlag = false := by
      apply olast_flags
      · exact pSeq_flags ss (lv + 2) (n + 1)
      · intro q e
        injection e with e
        subst e
        exact ⟨rfl, rfl, rfl⟩
    have HIH2 := ppSeq_run restE (i + 1) lv mn rest
      (olast (pSeq ss (lv + 2) (n + 1)).1
        (some { data := ['-'], no := n, offset := lv, type := NType.seqT }))
      fuel hrestE hfl1 hrest
    rw [hTr] at HIH2
    rw [HIH2, hP]
    have holast : olast ({ data := ['-'], no := n, offset := lv, type := NType.seqT } ::
        ((pSeq ss (lv + 2) (n + 1)).1 ++ (pSeq restE lv mn).1)) prev =
        olast (pSeq restE lv mn).1
          (olast (pSeq ss (lv + 2) (n + 1)).1
            (some { data := ['-'], no := n, offset := lv,
                    type := NType.seqT })) := by
      have he : ({ data := ['-'], no := n, offset := lv, type := NType.seqT } ::
          ((pSeq ss (lv + 2) (n + 1)).1 ++ (pSeq restE lv mn).1)) =
          ([{ data := ['-'], no := n, offset := lv, type := NType.seqT }] ++
            (pSeq ss (lv + 2) (n + 1)).1) ++ (pSeq restE lv mn).1 := by
        simp
      rw [he, olast_append, olast_append]
      rfl
    rw [holast]
    cases hgo : ppGo fuel (olast (pSeq restE lv mn).1
        (olast (pSeq ss (lv + 2) (n + 1)).1
          (some { data := ['-'], no := n, offset := lv,
                  type := NType.seqT }))) rest with
    | error e => simp [Except.map]
    | ok t => simp [Except.map, List.append_assoc]
  | (kk, Node.map []) :: restE, i, lv, n, rest, prev, fuel, hg, hprev, hrest => by
    simp [goodSeqB, goodB] at hg
  | (kk, Node.map ((k1, Node.nul) :: ms')) :: restE, i, lv, n, rest, prev, fuel, hg, hprev, hrest => by
    simp [goodSeqB, goodB, goodMapB] at hg
  | (kk, Node.map ((k1, Node.scalar v1) :: ms')) :: restE, i, lv, n, rest, prev, fuel, hg, hprev, hrest => by
    simp only [goodSeqB, Bool.and_eq_true] at hg
    obtain ⟨⟨-, hc⟩, hrestE⟩ := hg
    have hms : goodMapB none ((k1, Node.scalar v1) :: ms') = true := by
      simp only [goodB, Bool.and_eq_true] at hc
      exact hc.2
    simp only [goodMapB, Bool.and_eq_true] at hms
    obtain ⟨⟨⟨hk1, -⟩, hc1⟩, hms'⟩ := hms
    obtain ⟨⟨hcne, hch, hct⟩, -⟩ := renderKey_core_facts hk1 v1
    rcases h1 : tMap ms' true (lv + 2) (n + 1) with ⟨m1s, mn⟩
    rcases h2 : tSeq restE lv mn with ⟨tls, n2⟩
    have hT : tSeqL ((kk, Node.map ((k1, Node.scalar v1) :: ms')) :: restE) lv n =
        { data := ['-', ' '] ++ (renderKey k1 ++ v1), no := n, offset := lv } ::
        (m1s.map Prod.snd ++ tls.map Prod.snd) := by
      unfold tSeqL
      simp [tSeq, tMap, h1, h2]
    have hTm : tMapL ms' true (lv + 2) (n + 1) = m1s.map Prod.snd := by
      unfold tMapL
      rw [h1]
    have hTr : tSeqL restE lv mn = tls.map Prod.snd := by
      unfold tSeqL
      rw [h2]
    have hsnd : (pMap ms' (lv + 2) (n + 1)).2 = mn := by
      rw [pMap_snd ms' true (lv + 2) (n + 1), h1]
    have hP : (pSeq ((kk, Node.map ((k1, Node.scalar v1) :: ms')) :: restE) lv n).1 =
        { data := [], no := n, offset := lv, type := NType.seqT } ::
        ({ data := k1, no := n, offset := lv + 2, type := NType.mapT } ::
         ({ data := v1, no := n, offset := localOff k1, type := NType.scalarT } ::
          ((pMap ms' (lv + 2) (n + 1)).1 ++ (pSeq restE lv mn).1))) := by
      rcases hp1 : pMap ms' (lv + 2) (n + 1) with ⟨pls, pn1⟩
      have hpn : pn1 = mn := by rw [← hsnd, hp1]
      rcases hp2 : pSeq restE lv mn with ⟨pls2, pn2⟩
      simp [pSeq, pMap, hp1, hpn, hp2]
    rw [hT]
    simp only [List.cons_append, List.length_cons, List.length_append,
      List.append_assoc]
    have hfe : fuel + ((m1s.map Prod.snd).length + (tls.map Prod.snd).length + 1) =
        ((fuel + (tls.map Prod.snd).length) + (m1s.map Prod.snd).length) + 1 := by
      omega
    rw [hfe]
    simp only [ppGo]
    have hbelow3 : (match ((m1s.map Prod.snd) ++
        ((tls.map Prod.snd) ++ rest)).head? with
        | some r => r.offset < lv + 3
        | none => True) := by
      refine below_concat _ _ (lv + 2) (lv + 3) ?_ (by omega) ?_
      · intro d t hdt
        exact tMapL_head_off ms' (some k1) true (lv + 2) (n + 1) hms' d t
          (by rw [hTm]; exact hdt)
      · refine below_concat _ _ lv (lv + 3) ?_ (by omega) ?_
        · intro d t hdt
          exact tSeqL_head_off restE (i + 1) lv mn hrestE d t
            (by rw [hTr]; exact hdt)
        · exact head_below_mono rest lv (lv + 3) (by omega) hrest
    have hsub := ppm_entry_scalar
      (some { data := [], no := n, offset := lv, type := NType.seqT })
      { data := renderKey k1 ++ v1, no := n, offset := lv + 2 }
      ((m1s.map Prod.snd) ++ ((tls.map Prod.snd) ++ rest)) k1 v1 hk1 hc1 rfl
      ⟨rfl, rfl, rfl⟩
      (peek_gt_of_below _ (lv + 2) (lv + 3) (by omega) hbelow3)
    rw [ppOne_marker_split prev _
      ((m1s.map Prod.snd) ++ ((tls.map Prod.snd) ++ rest))
      (renderKey k1 ++ v1) _ 0 rfl hcne hch hct hsub]
    have HIH1 := ppMap_run ms' (some k1) true (lv + 2) (n + 1)
      ((tls.map Prod.snd) ++ rest)
      (some { data := v1, no := n, offset := localOff k1, type := NType.scalarT })
      (fuel + (tls.map Prod.snd).length) hms'
      (by intro p e; injection e with e; subst e; exact ⟨rfl, rfl, rfl⟩)
      (by
        refine below_concat (tls.map Prod.snd) rest lv (lv + 2) ?_ (by omega) ?_
        · intro d t hdt
          exact tSeqL_head_off restE (i + 1) lv mn hrestE d t
            (by rw [hTr]; exact hdt)
        · exact head_below_mono rest lv (lv + 2) (by omega) hrest)
    rw [hTm] at HIH1
    simp only [List.drop_zero]
    rw [show ((({ data := [], no := n, offset := lv, type := NType.seqT } : RL) ::
        [{ data := k1, no := n, offset := lv + 2, type := NType.mapT },
         { data := v1, no := n, offset := localOff k1,
           type := NType.scalarT }]).getLast?) =
        some { data := v1, no := n, offset := localOff k1, type := NType.scalarT }
      from rfl]
    rw [HIH1]
    have hfl1 : ∀ p, (olast (pMap ms' (lv + 2) (n + 1)).1
        (some { data := v1, no := n, offset := localOff k1,
                type := NType.scalarT })) = some p →
        p.litFlag = false ∧ p.foldFlag = false ∧ p.nlFlag = false := by
      apply olast_flags
      · exact pMap_flags ms' (lv + 2) (n + 1)
      · intro q e
        injection e with e
        subst e
        exact ⟨rfl, rfl, rfl⟩
    have HIH2 := ppSeq_run restE (i + 1) lv mn rest
      (olast (pMap ms' (lv + 2) (n + 1)).1
        (some { data := v1, no := n, offset := localOff k1,
                type := NType.scalarT }))
      fuel hrestE hfl1 hrest
    rw [hTr] at HIH2
    rw [HIH2, hP]
    have holast : olast ({ data := [], no := n, offset := lv, type := NType.seqT } ::
        ({ data := k1, no := n, offset := lv + 2, type := NType.mapT } ::
         ({ data := v1, no := n, offset := localOff k1, type := NType.scalarT } ::
          ((pMap ms' (lv + 2) (n + 1)).1 ++ (pSeq restE lv mn).1)))) prev =
        olast (pSeq restE lv mn).1
          (olast (pMap ms' (lv + 2) (n + 1)).1
            (some { data := v1, no := n, offset := localOff k1,
                    type := NType.scalarT })) := by
      have he : ({ data := [], no := n, offset := lv, type := NType.seqT } ::
          ({ data := k1, no := n, offset := lv + 2, type := NType.mapT } ::
           ({ data := v1, no := n, offset := localOff k1,
              type := NType.scalarT } ::
            ((pMap ms' (lv + 2) (n + 1)).1 ++ (pSeq restE lv mn).1)))) =
          ([{ data := [], no := n, offset := lv, type := NType.seqT },
            { data := k1, no := n, offset := lv + 2, type := NType.mapT },
            { data := v1, no := n, offset := localOff k1,
              type := NType.scalarT }] ++
            (pMap ms' (lv + 2) (n + 1)).1) ++ (pSeq restE lv mn).1 := by
        simp
      rw [he, olast_append, olast_append]
      rfl
    rw [holast]
    cases hgo : ppGo fuel (olast (pSeq restE lv mn).1
        (olast (pMap ms' (lv + 2) (n + 1)).1
          (some { data := v1, no := n, offset := localOff k1,
                  type := NType.scalarT }))) rest with
    | error e => simp [Except.map]
    | ok t => simp [Except.map, List.append_assoc]
  | (kk, Node.map ((k1, Node.seq ss1) :: ms')) :: restE, i, lv, n, rest, prev, fuel, hg, hprev, hrest => by
    simp only [goodSeqB, Bool.and_eq_true] at hg
    obtain ⟨⟨-, hc⟩, hrestE⟩ := hg
    have hms : goodMapB none ((k1, Node.seq ss1) :: ms') = true := by
      simp only [goodB, Bool.and_eq_true] at hc
      exact hc.2
    simp only [goodMapB, Bool.and_eq_true] at hms
    obtain ⟨⟨⟨hk1, -⟩, hc1⟩, hms'⟩ := hms
    obtain ⟨-, ⟨hcne, hch, hct⟩⟩ := renderKey_core_facts hk1 []
    have hss1ne : ss1 ≠ [] := by
      intro e
      subst e
      simp [goodB] at hc1
    have hss1 : goodSeqB 0 ss1 = true := by
      rcases ss1 with - | e
      · exact absurd rfl hss1ne
      · simp only [goodB, Bool.and_eq_true] at hc1
        exact hc1.2
    rcases h1 : tSeq ss1 (lv + 2 + 2) (n + 1) with ⟨m2s, mn1⟩
    rcases h1b : tMap ms' true (lv + 2) mn1 with ⟨m1s, mn⟩
    rcases h2 : tSeq restE lv mn with ⟨tls, n2⟩
    have hT : tSeqL ((kk, Node.map ((k1, Node.seq ss1) :: ms')) :: restE) lv n =
        { data := ['-', ' '] ++ renderKeyC k1, no := n, offset := lv } ::
        (m2s.map Prod.snd ++ (m1s.map Prod.snd ++ tls.map Prod.snd)) := by
      unfold tSeqL
      simp [tSeq, tMap, h1, h1b, h2]
    have hTm2 : tSeqL ss1 (lv + 2 + 2) (n + 1) = m2s.map Prod.snd := by
      unfold tSeqL
      rw [h1]
    have hTm1 : tMapL ms' true (lv + 2) mn1 = m1s.map Prod.snd := by
      unfold tMapL
      rw [h1b]
    have hTr : tSeqL restE lv mn = tls.map Prod.snd := by
      unfold tSeqL
      rw [h2]
    have hsnd2 : (pSeq ss1 (lv + 2 + 2) (n + 1)).2 = mn1 := by
      rw [pSeq_snd ss1 (lv + 2 + 2) (n + 1), h1]
    have hsnd1 : (pMap ms' (lv + 2) mn1).2 = mn := by
      rw [pMap_snd ms' true (lv + 2) mn1, h1b]
    have hP : (pSeq ((kk, Node.map ((k1, Node.seq ss1) :: ms')) :: restE) lv n).1 =
        { data := [], no := n, offset := lv, type := NType.seqT } ::
        ({ data := k1, no := n, offset := lv + 2, type := NType.mapT } ::
         ((pSeq ss1 (lv + 2 + 2) (n + 1)).1 ++
          ((pMap ms' (lv + 2) mn1).1 ++ (pSeq restE lv mn).1))) := by
      rcases hp1 : pSeq ss1 (lv + 2 + 2) (n + 1) with ⟨plsA, pnA⟩
      have hpnA : pnA = mn1 := by rw [← hsnd2, hp1]
      rcases hp1b : pMap ms' (lv + 2) mn1 with ⟨plsB, pnB⟩
      have hpnB : pnB = mn := by rw [← hsnd1, hp1b]
      rcases hp2 : pSeq restE lv mn with ⟨pls2, pn2⟩
      simp [pSeq, pMap, hp1, hpnA, hp1b, hpnB, hp2]
    obtain ⟨dh, th, hmls, hdh⟩ := tSeqL_cons ss1 0 (lv + 2 + 2) (n + 1) hss1 hss1ne
    rw [hTm2] at hmls
    rw [hT]
    simp only [List.cons_append, List.length_cons, List.length_append,
      List.append_assoc]
    have hfe : fuel + ((m2s.map Prod.snd).length + ((m1s.map Prod.snd).length +
        (tls.map Prod.snd).length) + 1) =
        (((fuel + (tls.map Prod.snd).length) + (m1s.map Prod.snd).length) +
          (m2s.map Prod.snd).length) + 1 := by
      omega
    rw [hfe]
    simp only [ppGo]
    have hsub := ppm_entry_nested
      (some { data := [], no := n, offset := lv, type := NType.seqT })
      { data := renderKeyC k1, no := n, offset := lv + 2 }
      ((m2s.map Prod.snd) ++ ((m1s.map Prod.snd) ++ ((tls.map Prod.snd) ++ rest)))
      k1 hk1 rfl
      (peek_le_of_eq _ (lv + 2) (lv + 2 + 2) (by omega) dh
        (th ++ ((m1s.map Prod.snd) ++ ((tls.map Prod.snd) ++ rest)))
        (by rw [hmls]; rfl) hdh)
    rw [ppOne_marker_split prev _
      ((m2s.map Prod.snd) ++ ((m1s.map Prod.snd) ++ ((tls.map Prod.snd) ++ rest)))
      (renderKeyC k1) _ 0 rfl hcne hch hct hsub]
    have HIH1 := ppSeq_run ss1 0 (lv + 2 + 2) (n + 1)
      ((m1s.map Prod.snd) ++ ((tls.map Prod.snd) ++ rest))
      (some { data := k1, no := n, offset := lv + 2, type := NType.mapT })
      ((fuel + (tls.map Prod.snd).length) + (m1s.map Prod.snd).length) hss1
      (by intro p e; injection e with e; subst e; exact ⟨rfl, rfl, rfl⟩)
      (by
        refine below_concat _ _ (lv + 2) (lv + 2 + 2) ?_ (by omega) ?_
        · intro d t hdt
          exact tMapL_head_off ms' (some k1) true (lv + 2) mn1 hms' d t
            (by rw [hTm1]; exact hdt)
        · refine below_concat _ _ lv (lv + 2 + 2) ?_ (by omega) ?_
          · intro d t hdt
            exact tSeqL_head_off restE (i + 1) lv mn hrestE d t
              (by rw [hTr]; exact hdt)
          · exact head_below_mono rest lv (lv + 2 + 2) (by omega) hrest)
    rw [hTm2] at HIH1
    simp only [List.drop_zero]
    rw [show ((({ data := [], no := n, offset := lv, type := NType.seqT } : RL) ::
        [{ data := k1, no := n, offset := lv + 2,
           type := NType.mapT }]).getLast?) =
        some { data := k1, no := n, offset := lv + 2, type := NType.mapT }
      from rfl]
    rw [HIH1]
    have hfl1 : ∀ p, (olast (pSeq ss1 (lv + 2 + 2) (n + 1)).1
        (some { data := k1, no := n, offset := lv + 2,
                type := NType.mapT })) = some p →
        p.litFlag = false ∧ p.foldFlag = false ∧ p.nlFlag = false := by
      apply olast_flags
      · exact pSeq_flags ss1 (lv + 2 + 2) (n + 1)
      · intro q e
        injection e with e
        subst e
        exact ⟨rfl, rfl, rfl⟩
    have HIH2 := ppMap_run ms' (some k1) true (lv + 2) mn1
      ((tls.map Prod.snd) ++ rest)
      (olast (pSeq ss1 (lv + 2 + 2) (n + 1)).1
        (some { data := k1, no := n, offset := lv + 2, type := NType.mapT }))
      (fuel + (tls.map Prod.snd).length) hms' hfl1
      (by
        refine below_concat (tls.map Prod.snd) rest lv (lv + 2) ?_ (by omega) ?_
        · intro d t hdt
          exact tSeqL_head_off restE (i + 1) lv mn hrestE d t
            (by rw [hTr]; exact hdt)
        · exact head_below_mono rest lv (lv + 2) (by omega) hrest)
    rw [hTm1] at HIH2
    rw [HIH2]
    have hfl2 : ∀ p, (olast (pMap ms' (lv + 2) mn1).1
        (olast (pSeq ss1 (lv + 2 + 2) (n + 1)).1
          (some { data := k1, no := n, offset := lv + 2,
                  type := NType.mapT }))) = some p →
        p.litFlag = false ∧ p.foldFlag = false ∧ p.nlFlag = false := by
      apply olast_flags
      · exact pMap_flags ms' (lv + 2) mn1
      · exact hfl1
    have HIH3 := ppSeq_run restE (i + 1) lv mn rest
      (olast (pMap ms' (lv + 2) mn1).1
        (olast (pSeq ss1 (lv + 2 + 2) (n + 1)).1
          (some { data := k1, no := n, offset := lv + 2,
                  type := NType.mapT })))
      fuel hrestE hfl2 hrest
    rw [hTr] at HIH3
    rw [HIH3, hP]
    have holast : olast ({ data := [], no := n, offset := lv, type := NType.seqT } ::
        ({ data := k1, no := n, offset := lv + 2, type := NType.mapT } ::
         ((pSeq ss1 (lv + 2 + 2) (n + 1)).1 ++
          ((pMap ms' (lv + 2) mn1).1 ++ (pSeq restE lv mn).1)))) prev =
        olast (pSeq restE lv mn).1
          (olast (pMap ms' (lv + 2) mn1).1
            (olast (pSeq ss1 (lv + 2 + 2) (n + 1)).1
              (some { data := k1, no := n, offset := lv + 2,
                      type := NType.mapT }))) := by
      have he : ({ data := [], no := n, offset := lv, type := NType.seqT } ::
          ({ data := k1, no := n, offset := lv + 2, type := NType.mapT } ::
           ((pSeq ss1 (lv + 2 + 2) (n + 1)).1 ++
            ((pMap ms' (lv + 2) mn1).1 ++ (pSeq restE lv mn).1)))) =
          ((([{ data := [], no := n, offset := lv, type := NType.seqT },
              { data := k1, no := n, offset := lv + 2, type := NType.mapT }] ++
             (pSeq ss1 (lv + 2 + 2) (n + 1)).1) ++
            (pMap ms' (lv + 2) mn1).1) ++ (pSeq restE lv mn).1) := by
        simp
      rw [he, olast_append, olast_append, olast_append]
      rfl
    rw [holast]
    cases hgo : ppGo fuel (olast (pSeq restE lv mn).1
        (olast (pMap ms' (lv + 2) mn1).1
          (olast (pSeq ss1 (lv + 2 + 2) (n + 1)).1
            (some { data := k1, no := n, offset := lv + 2,
                    type := NType.mapT })))) rest with
    | error e => simp [Except.map]
    | ok t => simp [Except.map, List.append_assoc]
  | (kk, Node.map ((k1, Node.map ms1) :: ms')) :: restE, i, lv, n, rest, prev, fuel, hg, hprev, hrest => by
    simp only [goodSeqB, Bool.and_eq_true] at hg
    obtain ⟨⟨-, hc⟩, hrestE⟩ := hg
    have hms : goodMapB none ((k1, Node.map ms1) :: ms') = true := by
      simp only [goodB, Bool.and_eq_true] at hc
      exact hc.2
    simp only [goodMapB, Bool.and_eq_true] at hms
    obtain ⟨⟨⟨hk1, -⟩, hc1⟩, hms'⟩ := hms
    obtain ⟨-, ⟨hcne, hch, hct⟩⟩ := renderKey_core_facts hk1 []
    have hms1ne : ms1 ≠ [] := by
      intro e
      subst e
      simp [goodB] at hc1
    have hms1 : goodMapB none ms1 = true := by
      rcases ms1 with - | e
      · exact absurd rfl hms1ne
      · simp only [goodB, Bool.and_eq_true] at hc1
        exact hc1.2
    rcases h1 : tMap ms1 true (lv + 2 + 2) (n + 1) with ⟨m2s, mn1⟩
    rcases h1b : tMap ms' true (lv + 2) mn1 with ⟨m1s, mn⟩
    rcases h2 : tSeq restE lv mn with ⟨tls, n2⟩
    have hT : tSeqL ((kk, Node.map ((k1, Node.map ms1) :: ms')) :: restE) lv n =
        { data := ['-', ' '] ++ renderKeyC k1, no := n, offset := lv } ::
        (m2s.map Prod.snd ++ (m1s.map Prod.snd ++ tls.map Prod.snd)) := by
      unfold tSeqL
      simp [tSeq, tMap, h1, h1b, h2]
    have hTm2 : tMapL ms1 true (lv + 2 + 2) (n + 1) = m2s.map Prod.snd := by
      unfold tMapL
      rw [h1]
    have hTm1 : tMapL ms' true (lv + 2) mn1 = m1s.map Prod.snd := by
      unfold tMapL
      rw [h1b]
    have hTr : tSeqL restE lv mn = tls.map Prod.snd := by
      unfold tSeqL
      rw [h2]
    have hsnd2 : (pMap ms1 (lv + 2 + 2) (n + 1)).2 = mn1 := by
      rw [pMap_snd ms1 true (lv + 2 + 2) (n + 1), h1]
    have hsnd1 : (pMap ms' (lv + 2) mn1).2 = mn := by
      rw [pMap_snd ms' true (lv + 2) mn1, h1b]
    have hP : (pSeq ((kk, Node.map ((k1, Node.map ms1) :: ms')) :: restE) lv n).1 =
        { data := [], no := n, offset := lv, type := NType.seqT } ::
        ({ data := k1, no := n, offset := lv + 2, type := NType.mapT } ::
         ((pMap ms1 (lv + 2 + 2) (n + 1)).1 ++
          ((pMap ms' (lv + 2) mn1).1 ++ (pSeq restE lv mn).1))) := by
      rcases hp1 : pMap ms1 (lv + 2 + 2) (n + 1) with ⟨plsA, pnA⟩
      have hpnA : pnA = mn1 := by rw [← hsnd2, hp1]
      rcases hp1b : pMap ms' (lv + 2) mn1 with ⟨plsB, pnB⟩
      have hpnB : pnB = mn := by rw [← hsnd1, hp1b]
      rcases hp2 : pSeq restE lv mn with ⟨pls2, pn2⟩
      simp [pSeq, pMap, hp1, hpnA, hp1b, hpnB, hp2]
    obtain ⟨dh, th, hmls, hdh⟩ := tMapL_cons ms1 none true (lv + 2 + 2) (n + 1)
      hms1 hms1ne
    rw [hTm2] at hmls
    rw [hT]
    simp only [List.cons_append, List.length_cons, List.length_append,
      List.append_assoc]
    have hfe : fuel + ((m2s.map Prod.snd).length + ((m1s.map Prod.snd).length +
        (tls.map Prod.snd).length) + 1) =
        (((fuel + (tls.map Prod.snd).length) + (m1s.map Prod.snd).length) +
          (m2s.map Prod.snd).length) + 1 := by
      omega
    rw [hfe]
    simp only [ppGo]
    have hsub := ppm_entry_nested
      (some { data := [], no := n, offset := lv, type := NType.seqT })
      { data := renderKeyC k1, no := n, offset := lv + 2 }
      ((m2s.map Prod.snd) ++ ((m1s.map Prod.snd) ++ ((tls.map Prod.snd) ++ rest)))
      k1 hk1 rfl
      (peek_le_of_eq _ (lv + 2) (lv + 2 + 2) (by omega) dh
        (th ++ ((m1s.map Prod.snd) ++ ((tls.map Prod.snd) ++ rest)))
        (by rw [hmls]; rfl) hdh)
    rw [ppOne_marker_split prev _
      ((m2s.map Prod.snd) ++ ((m1s.map Prod.snd) ++ ((tls.map Prod.snd) ++ rest)))
      (renderKeyC k1) _ 0 rfl hcne hch hct hsub]
    have HIH1 := ppMap_run ms1 none true (lv + 2 + 2) (n + 1)
      ((m1s.map Prod.snd) ++ ((tls.map Prod.snd) ++ rest))
      (some { data := k1, no := n, offset := lv + 2, type := NType.mapT })
      ((fuel + (tls.map Prod.snd).length) + (m1s.map Prod.snd).length) hms1
      (by intro p e; injection e with e; subst e; exact ⟨rfl, rfl, rfl⟩)
      (by
        refine below_concat _ _ (lv + 2) (lv + 2 + 2) ?_ (by omega) ?_
        · intro d t hdt
          exact tMapL_head_off ms' (some k1) true (lv + 2) mn1 hms' d t
            (by rw [hTm1]; exact hdt)
        · refine below_concat _ _ lv (lv + 2 + 2) ?_ (by omega) ?_
          · intro d t hdt
            exact tSeqL_head_off restE (i + 1) lv mn hrestE d t
              (by rw [hTr]; exact hdt)
          · exact head_below_mono rest lv (lv + 2 + 2) (by omega) hrest)
    rw [hTm2] at HIH1
    simp only [List.drop_zero]
    rw [show ((({ data := [], no := n, offset := lv, type := NType.seqT } : RL) ::
        [{ data := k1, no := n, offset := lv + 2,
           type := NType.mapT }]).getLast?) =
        some { data := k1, no := n, offset := lv + 2, type := NType.mapT }
      from rfl]
    rw [HIH1]
    have hfl1 : ∀ p, (olast (pMap ms1 (lv + 2 + 2) (n + 1)).1
        (some { data := k1, no := n, offset := lv + 2,
                type := NType.mapT })) = some p →
        p.litFlag = false ∧ p.foldFlag = false ∧ p.nlFlag = false := by
      apply olast_flags
      · exact pMap_flags ms1 (lv + 2 + 2) (n + 1)
      · intro q e
        injection e with e
        subst e
        exact ⟨rfl, rfl, rfl⟩
    have HIH2 := ppMap_run ms' (some k1) true (lv + 2) mn1
      ((tls.map Prod.snd) ++ rest)
      (olast (pMap ms1 (lv + 2 + 2) (n + 1)).1
        (some { data := k1, no := n, offset := lv + 2, type := NType.mapT }))
      (fuel + (tls.map Prod.snd).length) hms' hfl1
      (by
        refine below_concat (tls.map Prod.snd) rest lv (lv + 2) ?_ (by omega) ?_
        · intro d t hdt
          exact tSeqL_head_off restE (i + 1) lv mn hrestE d t
            (by rw [hTr]; exact hdt)
        · exact head_below_mono rest lv (lv + 2) (by omega) hrest)
    rw [hTm1] at HIH2
    rw [HIH2]
    have hfl2 : ∀ p, (olast (pMap ms' (lv + 2) mn1).1
        (olast (pMap ms1 (lv + 2 + 2) (n + 1)).1
          (some { data := k1, no := n, offset := lv + 2,
                  type := NType.mapT }))) = some p →
        p.litFlag = false ∧ p.foldFlag = false ∧ p.nlFlag = false := by
      apply olast_flags
      · exact pMap_flags ms' (lv + 2) mn1
      · exact hfl1
    have HIH3 := ppSeq_run restE (i + 1) lv mn rest
      (olast (pMap ms' (lv + 2) mn1).1
        (olast (pMap ms1 (lv + 2 + 2) (n + 1)).1
          (some { data := k1, no := n, offset := lv + 2,
                  type := NType.mapT })))
      fuel hrestE hfl2 hrest
    rw [hTr] at HIH3
    rw [HIH3, hP]
    have holast : olast ({ data := [], no := n, offset := lv, type := NType.seqT } ::
        ({ data := k1, no := n, offset := lv + 2, type := NType.mapT } ::
         ((pMap ms1 (lv + 2 + 2) (n + 1)).1 ++
          ((pMap ms' (lv + 2) mn1).1 ++ (pSeq restE lv mn).1)))) prev =
        olast (pSeq restE lv mn).1
          (olast (pMap ms' (lv + 2) mn1).1
            (olast (pMap ms1 (lv + 2 + 2) (n + 1)).1
              (some { data := k1, no := n, offset := lv + 2,
                      type := NType.mapT }))) := by
      have he : ({ data := [], no := n, offset := lv, type := NType.seqT } ::
          ({ data := k1, no := n, offset := lv + 2, type := NType.mapT } ::
           ((pMap ms1 (lv + 2 + 2) (n + 1)).1 ++
            ((pMap ms' (lv + 2) mn1).1 ++ (pSeq restE lv mn).1)))) =
          ((([{ data := [], no := n, offset := lv, type := NType.seqT },
              { data := k1, no := n, offset := lv + 2, type := NType.mapT }] ++
             (pMap ms1 (lv + 2 + 2) (n + 1)).1) ++
            (pMap ms' (lv + 2) mn1).1) ++ (pSeq restE lv mn).1) := by
        simp
      rw [he, olast_append, olast_append, olast_append]
      rfl
    rw [holast]
    cases hgo : ppGo fuel (olast (pSeq restE lv mn).1
        (olast (pMap ms' (lv + 2) mn1).1
          (olast (pMap ms1 (lv + 2 + 2) (n + 1)).1
            (some { data := k1, no := n, offset := lv + 2,
                    type := NType.mapT })))) rest with
    | error e => simp [Except.map]
    | ok t => simp [Except.map, List.append_assoc]
termination_by es _ _ _ _ _ _ _ _ _ => sizeOf es

theorem ppMap_run : ∀ (es : List (Str × Node)) (op : Option Str) (b : Bool)
    (lv n : Nat) (rest : List RL) (prev : Option RL) (fuel : Nat),
    goodMapB op es = true →
    (∀ p, prev = some p →
      p.litFlag = false ∧ p.foldFlag = false ∧ p.nlFlag = false) →
    (match rest.head? with
     | some r => r.offset < lv
     | none => True) →
    ppGo (fuel + (tMapL es b lv n).length) prev (tMapL es b lv n ++ rest) =
      Except.map (fun t => (pMap es lv n).1 ++ t)
        (ppGo fuel (olast (pMap es lv n).1 prev) rest)
  | [], op, b, lv, n, rest, prev, fuel, hg, hprev, hrest => by
    have hT : tMapL [] b lv n = [] := by unfold tMapL; simp [tMap]
    have hP : (pMap [] lv n).1 = [] := by simp [pMap]
    rw [hT, hP]
    simp only [List.length_nil, Nat.add_zero, List.nil_append]
    cases hgo : ppGo fuel (olast [] prev) rest with
    | error e => simp [olast] at hgo ⊢; rw [hgo]; rfl
    | ok t => simp [olast] at hgo ⊢; rw [hgo]; rfl
  | (k, Node.nul) :: restE, op, b, lv, n, rest, prev, fuel, hg, hprev, hrest => by
    simp [goodMapB, goodB] at hg
  | (k, Node.scalar v) :: restE, op, b, lv, n, rest, prev, fuel, hg, hprev, hrest => by
    simp only [goodMapB, Bool.and_eq_true] at hg
    obtain ⟨⟨⟨hk, -⟩, hv⟩, hrestE⟩ := hg
    rcases h2 : tMap restE true lv (n + 1) with ⟨tls, n2⟩
    have hT : tMapL ((k, Node.scalar v) :: restE) b lv n =
        { data := renderKey k ++ v, no := n, offset := lv } :: tls.map Prod.snd := by
      unfold tMapL
      simp [tMap, h2]
    have hT2 : tMapL restE true lv (n + 1) = tls.map Prod.snd := by
      unfold tMapL
      rw [h2]
    have hP : (pMap ((k, Node.scalar v) :: restE) lv n).1 =
        { data := k, no := n, offset := lv, type := NType.mapT } ::
        { data := v, no := n, offset := localOff k, type := NType.scalarT } ::
        (pMap restE lv (n + 1)).1 := by
      rcases hp2 : pMap restE lv (n + 1) with ⟨pls, pn2⟩
      simp [pMap, hp2]
    have hpeek : (match ((tls.map Prod.snd) ++ rest).head? with
        | some nx => decide (nx.offset >
            ({ data := renderKey k ++ v, no := n, offset := lv } : RL).offset)
        | none => false) = false := by
      obtain ⟨-, -, -, -, -, cH⟩ := tMap_ok restE (some k) true lv (n + 1) hrestE
      rw [h2] at cH
      rcases tls with - | ⟨⟨ph, rl⟩, t⟩
      · simp only [List.map_nil, List.nil_append]
        cases hr : rest.head? with
        | none => rfl
        | some r =>
          rw [hr] at hrest
          simp only [decide_eq_false_iff_not]
          omega
      · obtain ⟨core, j, -, -, hrl, -⟩ := cH
        simp only [List.map_cons, List.cons_append, List.head?_cons, hrl]
        simp
    rw [hT]
    simp only [List.cons_append, List.length_cons]
    have hfe : fuel + ((tls.map Prod.snd).length + 1) =
        (fuel + (tls.map Prod.snd).length) + 1 := by omega
    rw [hfe]
    simp only [ppGo]
    rw [ppOne_keyline_scalar prev _ ((tls.map Prod.snd) ++ rest) k v hk hv rfl
      ⟨rfl, rfl, rfl⟩ hpeek]
    have HIH := ppMap_run restE (some k) true lv (n + 1) rest
      (some { data := v, no := n, offset := localOff k, type := NType.scalarT })
      fuel hrestE (by intro p e; injection e with e; subst e; exact ⟨rfl, rfl, rfl⟩)
      hrest
    rw [hT2] at HIH
    simp only [List.drop_zero]
    rw [show (([{ data := k, no := n, offset := lv, type := NType.mapT },
         { data := v, no := n, offset := localOff k,
           type := NType.scalarT }] : List RL).getLast?) =
        some { data := v, no := n, offset := localOff k, type := NType.scalarT }
      from rfl]
    rw [HIH, hP]
    have holast : olast ({ data := k, no := n, offset := lv, type := NType.mapT } ::
        { data := v, no := n, offset := localOff k, type := NType.scalarT } ::
        (pMap restE lv (n + 1)).1) prev =
        olast ((pMap restE lv (n + 1)).1)
          (some { data := v, no := n, offset := localOff k,
                  type := NType.scalarT }) := by
      have he : ({ data := k, no := n, offset := lv, type := NType.mapT } ::
          { data := v, no := n, offset := localOff k, type := NType.scalarT } ::
          (pMap restE lv (n + 1)).1) =
          [{ data := k, no := n, offset := lv, type := NType.mapT },
           { data := v, no := n, offset := localOff k, type := NType.scalarT }] ++
          (pMap restE lv (n + 1)).1 := rfl
      rw [he, olast_append]
      rfl
    rw [holast]
    cases hgo : ppGo fuel (olast ((pMap restE lv (n + 1)).1)
        (some { data := v, no := n, offset := localOff k,
                type := NType.scalarT })) rest with
    | error e => simp [Except.map]
    | ok t => simp [Except.map]
  | (k, Node.map ms) :: restE, op, b, lv, n, rest, prev, fuel, hg, hprev, hrest => by
    simp only [goodMapB, Bool.and_eq_true] at hg
    obtain ⟨⟨⟨hk, -⟩, hc⟩, hrestE⟩ := hg
    have hmsne : ms ≠ [] := by
      intro e
      subst e
      simp [goodB] at hc
    have hms : goodMapB none ms = true := by
      rcases ms with - | e
      · exact absurd rfl hmsne
      · simp only [goodB, Bool.and_eq_true] at hc
        exact hc.2
    rcases h1 : tMap ms true (lv + 2) (n + 1) with ⟨mls, mn⟩
    rcases h2 : tMap restE true lv mn with ⟨tls, n2⟩
    have hT : tMapL ((k, Node.map ms) :: restE) b lv n =
        { data := renderKeyC k, no := n, offset := lv } ::
        (mls.map Prod.snd ++ tls.map Prod.snd) := by
      unfold tMapL
      simp [tMap, h1, h2]
    have hTm : tMapL ms true (lv + 2) (n + 1) = mls.map Prod.snd := by
      unfold tMapL
      rw [h1]
    have hTr : tMapL restE true lv mn = tls.map Prod.snd := by
      unfold tMapL
      rw [h2]
    have hsnd : (pMap ms (lv + 2) (n + 1)).2 = mn := by
      rw [pMap_snd ms true (lv + 2) (n + 1), h1]
    have hP : (pMap ((k, Node.map ms) :: restE) lv n).1 =
        { data := k, no := n, offset := lv, type := NType.mapT } ::
        ((pMap ms (lv + 2) (n + 1)).1 ++ (pMap restE lv mn).1) := by
      rcases hp1 : pMap ms (lv + 2) (n + 1) with ⟨pls, pn1⟩
      have hpn : pn1 = mn := by rw [← hsnd, hp1]
      rcases hp2 : pMap restE lv mn with ⟨pls2, pn2⟩
      simp [pMap, hp1, hpn, hp2]
    obtain ⟨dh, th, hmls, hdh⟩ := tMapL_cons ms none true (lv + 2) (n + 1) hms hmsne
    rw [hTm] at hmls
    rw [hT]
    simp only [List.cons_append, List.length_cons, List.length_append,
      List.append_assoc]
    have hfe : fuel + ((mls.map Prod.snd).length + (tls.map Prod.snd).length + 1) =
        ((fuel + (tls.map Prod.snd).length) + (mls.map Prod.snd).length) + 1 := by
      omega
    rw [hfe]
    simp only [ppGo]
    have hpeekN := peek_le_of_eq
      ((mls.map Prod.snd) ++ ((tls.map Prod.snd) ++ rest)) lv (lv + 2)
      (by omega) dh (th ++ ((tls.map Prod.snd) ++ rest))
      (by rw [hmls]; rfl) hdh
    rw [ppOne_keyline_nested prev _ ((mls.map Prod.snd) ++ ((tls.map Prod.snd) ++ rest))
      k hk rfl hpeekN]
    have HIH1 := ppMap_run ms none true (lv + 2) (n + 1) ((tls.map Prod.snd) ++ rest)
      (some { data := k, no := n, offset := lv, type := NType.mapT })
      (fuel + (tls.map Prod.snd).length) hms
      (by intro p e; injection e with e; subst e; exact ⟨rfl, rfl, rfl⟩)
      (by
        refine below_concat (tls.map Prod.snd) rest lv (lv + 2) ?_ (by omega) ?_
        · intro d t hdt
          exact tMapL_head_off restE (some k) true lv mn hrestE d t
            (by rw [hTr]; exact hdt)
        · exact head_below_mono rest lv (lv + 2) (by omega) hrest)
    rw [hTm] at HIH1
    simp only [List.drop_zero]
    rw [show (([{ data := k, no := n, offset := lv, type := NType.mapT }] : List RL).getLast?) =
        some { data := k, no := n, offset := lv, type := NType.mapT } from rfl]
    rw [HIH1]
    have hfl1 : ∀ p, (olast (pMap ms (lv + 2) (n + 1)).1
        (some { data := k, no := n, offset := lv, type := NType.mapT })) = some p →
        p.litFlag = false ∧ p.foldFlag = false ∧ p.nlFlag = false := by
      apply olast_flags
      · exact pMap_flags ms (lv + 2) (n + 1)
      · intro q e
        injection e with e
        subst e
        exact ⟨rfl, rfl, rfl⟩
    have HIH2 := ppMap_run restE (some k) true lv mn rest
      (olast (pMap ms (lv + 2) (n + 1)).1
        (some { data := k, no := n, offset := lv, type := NType.mapT }))
      fuel hrestE hfl1 hrest
    rw [hTr] at HIH2
    rw [HIH2, hP]
    have holast : olast ({ data := k, no := n, offset := lv, type := NType.mapT } ::
        ((pMap ms (lv + 2) (n + 1)).1 ++ (pMap restE lv mn).1)) prev =
        olast (pMap restE lv mn).1
          (olast (pMap ms (lv + 2) (n + 1)).1
            (some { data := k, no := n, offset := lv,
                    type := NType.mapT })) := by
      have he : ({ data := k, no := n, offset := lv, type := NType.mapT } ::
          ((pMap ms (lv + 2) (n + 1)).1 ++ (pMap restE lv mn).1)) =
          ([{ data := k, no := n, offset := lv, type := NType.mapT }] ++
            (pMap ms (lv + 2) (n + 1)).1) ++ (pMap restE lv mn).1 := by
        simp
      rw [he, olast_append, olast_append]
      rfl
    rw [holast]
    cases hgo : ppGo fuel (olast (pMap restE lv mn).1
        (olast (pMap ms (lv + 2) (n + 1)).1
          (some { data := k, no := n, offset := lv,
                  type := NType.mapT }))) rest with
    | error e => simp [Except.map]
    | ok t => simp [Except.map, List.append_assoc]
  | (k, Node.seq ss) :: restE, op, b, lv, n, rest, prev, fuel, hg, hprev, hrest => by
    simp only [goodMapB, Bool.and_eq_true] at hg
    obtain ⟨⟨⟨hk, -⟩, hc⟩, hrestE⟩ := hg
    have hssne : ss ≠ [] := by
      intro e
      subst e
      simp [goodB] at hc
    have hss : goodSeqB 0 ss = true := by
      rcases ss with - | e
      · exact absurd rfl hssne
      · simp only [goodB, Bool.and_eq_true] at hc
        exact hc.2
    rcases h1 : tSeq ss (lv + 2) (n + 1) with ⟨mls, mn⟩
    rcases h2 : tMap restE true lv mn with ⟨tls, n2⟩
    have hT : tMapL ((k, Node.seq ss) :: restE) b lv n =
        { data := renderKeyC k, no := n, offset := lv } ::
        (mls.map Prod.snd ++ tls.map Prod.snd) := by
      unfold tMapL
      simp [tMap, h1, h2]
    have hTm : tSeqL ss (lv + 2) (n + 1) = mls.map Prod.snd := by
      unfold tSeqL
      rw [h1]
    have hTr : tMapL restE true lv mn = tls.map Prod.snd := by
      unfold tMapL
      rw [h2]
    have hsnd : (pSeq ss (lv + 2) (n + 1)).2 = mn := by
      rw [pSeq_snd ss (lv + 2) (n + 1), h1]
    have hP : (pMap ((k, Node.seq ss) :: restE) lv n).1 =
        { data := k, no := n, offset := lv, type := NType.mapT } ::
        ((pSeq ss (lv + 2) (n + 1)).1 ++ (pMap restE lv mn).1) := by
      rcases hp1 : pSeq ss (lv + 2) (n + 1) with ⟨pls, pn1⟩
      have hpn : pn1 = mn := by rw [← hsnd, hp1]
      rcases hp2 : pMap restE lv mn with ⟨pls2, pn2⟩
      simp [pMap, hp1, hpn, hp2]
    obtain ⟨dh, th, hmls, hdh⟩ := tSeqL_cons ss 0 (lv + 2) (n + 1) hss hssne
    rw [hTm] at hmls
    rw [hT]
    simp only [List.cons_append, List.length_cons, List.length_append,
      List.append_assoc]
    have hfe : fuel + ((mls.map Prod.snd).length + (tls.map Prod.snd).length + 1) =
        ((fuel + (tls.map Prod.snd).length) + (mls.map Prod.snd).length) + 1 := by
      omega
    rw [hfe]
    simp only [ppGo]
    have hpeekN := peek_le_of_eq
      ((mls.map Prod.snd) ++ ((tls.map Prod.snd) ++ rest)) lv (lv + 2)
      (by omega) dh (th ++ ((tls.map Prod.snd) ++ rest))
      (by rw [hmls]; rfl) hdh
    rw [ppOne_keyline_nested prev _ ((mls.map Prod.snd) ++ ((tls.map Prod.snd) ++ rest))
      k hk rfl hpeekN]
    have HIH1 := ppSeq_run ss 0 (lv + 2) (n + 1) ((tls.map Prod.snd) ++ rest)
      (some { data := k, no := n, offset := lv, type := NType.mapT })
      (fuel + (tls.map Prod.snd).length) hss
      (by intro p e; injection e with e; subst e; exact ⟨rfl, rfl, rfl⟩)
      (by
        refine below_concat (tls.map Prod.snd) rest lv (lv + 2) ?_ (by omega) ?_
        · intro d t hdt
          exact tMapL_head_off restE (some k) true lv mn hrestE d t
            (by rw [hTr]; exact hdt)
        · exact head_below_mono rest lv (lv + 2) (by omega) hrest)
    rw [hTm] at HIH1
    simp only [List.drop_zero]
    rw [show (([{ data := k, no := n, offset := lv, type := NType.mapT }] : List RL).getLast?) =
        some { data := k, no := n, offset := lv, type := NType.mapT } from rfl]
    rw [HIH1]
    have hfl1 : ∀ p, (olast (pSeq ss (lv + 2) (n + 1)).1
        (some { data := k, no := n, offset := lv, type := NType.mapT })) = some p →
        p.litFlag = false ∧ p.foldFlag = false ∧ p.nlFlag = false := by
      apply olast_flags
      · exact pSeq_flags ss (lv + 2) (n + 1)
      · intro q e
        injection e with e
        subst e
        exact ⟨rfl, rfl, rfl⟩
    have HIH2 := ppMap_run restE (some k) true lv mn rest
      (olast (pSeq ss (lv + 2) (n + 1)).1
        (some { data := k, no := n, offset := lv, type := NType.mapT }))
      fuel hrestE hfl1 hrest
    rw [hTr] at HIH2
    rw [HIH2, hP]
    have holast : olast ({ data := k, no := n, offset := lv, type := NType.mapT } ::
        ((pSeq ss (lv + 2) (n + 1)).1 ++ (pMap restE lv mn).1)) prev =
        olast (pMap restE lv mn).1
          (olast (pSeq ss (lv + 2) (n + 1)).1
            (some { data := k, no := n, offset := lv,
                    type := NType.mapT })) := by
      have he : ({ data := k, no := n, offset := lv, type := NType.mapT } ::
          ((pSeq ss (lv + 2) (n + 1)).1 ++ (pMap restE lv mn).1)) =
          ([{ data := k, no := n, offset := lv, type := NType.mapT }] ++
            (pSeq ss (lv + 2) (n + 1)).1) ++ (pMap restE lv mn).1 := by
        simp
      rw [he, olast_append, olast_append]
      rfl
    rw [holast]
    cases hgo : ppGo fuel (olast (pMap restE lv mn).1
        (olast (pSeq ss (lv + 2) (n + 1)).1
          (some { data := k, no := n, offset := lv,
                  type := NType.mapT }))) rest with
    | error e => simp [Except.map]
    | ok t => simp [Except.map, List.append_assoc]

termination_by es _ _ _ _ _ _ _ _ _ _ => sizeOf es

end

/-! ## Round trip: assembling `PostProcessLines` over a whole document -/

theorem goodMapB_key_lt : ∀ (es : List (Str × Node)) (k : Str),
    goodMapB (some k) es = true →
    ∀ b ∈ es.map Prod.fst, strLtB k b = true
  | [], k, hg => by
    intro b hb
    simp at hb
  | (k2, c2) :: tl, k, hg => by
    intro b hb
    simp only [goodMapB, Bool.and_eq_true] at hg
    obtain ⟨⟨⟨-, hlt⟩, -⟩, htl⟩ := hg
    simp only [List.map_cons] at hb
    rcases List.mem_cons.mp hb with rfl | hb2
    · exact hlt
    · exact strLtB_trans k k2 b hlt (goodMapB_key_lt tl k2 htl b hb2)

theorem pSeq_cons (es : List (Nat × Node)) (i lv n : Nat)
    (hg : goodSeqB i es = true) (hne : es ≠ []) :
    ∃ d t, (pSeq es lv n).1 = d :: t ∧ d.offset = lv ∧ d.type = NType.seqT := by
  rcases es with - | ⟨⟨kk, c⟩, restE⟩
  · exact absurd rfl hne
  · rcases c with - | v | ss | ms
    · simp [goodSeqB, goodB] at hg
    · rcases h2 : pSeq restE lv (n + 1) with ⟨pls2, pn2⟩
      refine ⟨{ data := [], no := n, offset := lv, type := NType.seqT },
        { data := v, no := n, offset := lv + 2, type := NType.scalarT } :: pls2,
        ?_, rfl, rfl⟩
      simp [pSeq, h2]
    · rcases h1 : pSeq ss (lv + 2) (n + 1) with ⟨pls1, pn1⟩
      rcases h2 : pSeq restE lv pn1 with ⟨pls2, pn2⟩
      refine ⟨{ data := ['-'], no := n, offset := lv, type := NType.seqT },
        pls1 ++ pls2, ?_, rfl, rfl⟩
      simp [pSeq, h1, h2]
    · rcases h1 : pMap ms (lv + 2) n with ⟨pls1, pn1⟩
      rcases h2 : pSeq restE lv pn1 with ⟨pls2, pn2⟩
      refine ⟨{ data := [], no := n, offset := lv, type := NType.seqT },
        pls1 ++ pls2, ?_, rfl, rfl⟩
      simp [pSeq, h1, h2]

theorem pMap_cons (es : List (Str × Node)) (op : Option Str) (lv n : Nat)
    (hg : goodMapB op es = true) (hne : es ≠ []) :
    ∃ d t, (pMap es lv n).1 = d :: t ∧ d.offset = lv ∧ d.type = NType.mapT := by
  rcases es with - | ⟨⟨k1, c⟩, restE⟩
  · exact absurd rfl hne
  · rcases c with - | v | ss | ms
    · simp [goodMapB, goodB] at hg
    · rcases h2 : pMap restE lv (n + 1) with ⟨pls2, pn2⟩
      refine ⟨{ data := k1, no := n, offset := lv, type := NType.mapT },
        { data := v, no := n, offset := localOff k1, type := NType.scalarT } :: pls2,
        ?_, rfl, rfl⟩
      simp [pMap, h2]
    · rcases h1 : pSeq ss (lv + 2) (n + 1) with ⟨pls1, pn1⟩
      rcases h2 : pMap restE lv pn1 with ⟨pls2, pn2⟩
      refine ⟨{ data := k1, no := n, offset := lv, type := NType.mapT },
        pls1 ++ pls2, ?_, rfl, rfl⟩
      simp [pMap, h1, h2]
    · rcases h1 : pMap ms (lv + 2) (n + 1) with ⟨pls1, pn1⟩
      rcases h2 : pMap restE lv pn1 with ⟨pls2, pn2⟩
      refine ⟨{ data := k1, no := n, offset := lv, type := NType.mapT },
        pls1 ++ pls2, ?_, rfl, rfl⟩
      simp [pMap, h1, h2]

mutual

theorem pSeq_last : ∀ (es : List (Nat × Node)) (i lv n : Nat),
    goodSeqB i es = true → es ≠ [] →
    ∃ x, ((pSeq es lv n).1).getLast? = some x ∧ x.type = NType.scalarT
  | [], i, lv, n, hg, hne => absurd rfl hne
  | (kk, Node.nul) :: restE, i, lv, n, hg, hne => by
    simp [goodSeqB, goodB] at hg
  | (kk, Node.scalar v) :: restE, i, lv, n, hg, hne => by
    simp only [goodSeqB, Bool.and_eq_true] at hg
    obtain ⟨⟨-, hv⟩, hrestE⟩ := hg
    rcases h2 : pSeq restE lv (n + 1) with ⟨pls2, pn2⟩
    have hdec : (pSeq ((kk, Node.scalar v) :: restE) lv n).1 =
        [{ data := [], no := n, offset := lv, type := NType.seqT },
         { data := v, no := n, offset := lv + 2, type := NType.scalarT }] ++ pls2 := by
      simp [pSeq, h2]
    by_cases hre : restE = []
    · subst hre
      refine ⟨{ data := v, no := n, offset := lv + 2, type := NType.scalarT },
        ?_, rfl⟩
      have hnil : pls2 = [] := by
        have : (pSeq ([] : List (Nat × Node)) lv (n + 1)).1 = [] := by simp [pSeq]
        rw [h2] at this
        exact this
      rw [hdec, hnil]
      rfl
    · obtain ⟨x, hx, hxt⟩ := pSeq_last restE (i + 1) lv (n + 1) hrestE hre
      rw [h2] at hx
      refine ⟨x, ?_, hxt⟩
      rw [hdec, List.getLast?_append, hx]
      rfl
  | (kk, Node.seq ss) :: restE, i, lv, n, hg, hne => by
    simp only [goodSeqB, Bool.and_eq_true] at hg
    obtain ⟨⟨-, hc⟩, hrestE⟩ := hg
    have hssne : ss ≠ [] := by
      intro e
      subst e
      simp [goodB] at hc
    have hss : goodSeqB 0 ss = true := by
      rcases ss with - | e
      · exact absurd rfl hssne
      · simp only [goodB, Bool.and_eq_true] at hc
        exact hc.2
    rcases h1 : pSeq ss (lv + 2) (n + 1) with ⟨pls1, pn1⟩
    rcases h2 : pSeq restE lv pn1 with ⟨pls2, pn2⟩
    have hdec : (pSeq ((kk, Node.seq ss) :: restE) lv n).1 =
        ({ data := ['-'], no := n, offset := lv, type := NType.seqT } :: pls1) ++
          pls2 := by
      simp [pSeq, h1, h2]
    by_cases hre : restE = []
    · subst hre
      obtain ⟨x, hx, hxt⟩ := pSeq_last ss 0 (lv + 2) (n + 1) hss hssne
      rw [h1] at hx
      have hnil : pls2 = [] := by
        have : (pSeq ([] : List (Nat × Node)) lv pn1).1 = [] := by simp [pSeq]
        rw [h2] at this
        exact this
      refine ⟨x, ?_, hxt⟩
      rw [hdec, hnil, List.append_nil, List.getLast?_cons, hx]
      rfl
    · obtain ⟨x, hx, hxt⟩ := pSeq_last restE (i + 1) lv pn1 hrestE hre
      rw [h2] at hx
      refine ⟨x, ?_, hxt⟩
      rw [hdec, List.getLast?_append, hx]
      rfl
  | (kk, Node.map ms) :: restE, i, lv, n, hg, hne => by
    simp only [goodSeqB, Bool.and_eq_true] at hg
    obtain ⟨⟨-, hc⟩, hrestE⟩ := hg
    have hmsne : ms ≠ [] := by
      intro e
      subst e
      simp [goodB] at hc
    have hms : goodMapB none ms = true := by
      rcases ms with - | e
      · exact absurd rfl hmsne
      · simp only [goodB, Bool.and_eq_true] at hc
        exact hc.2
    rcases h1 : pMap ms (lv + 2) n with ⟨pls1, pn1⟩
    rcases h2 : pSeq restE lv pn1 with ⟨pls2, pn2⟩
    have hdec : (pSeq ((kk, Node.map ms) :: restE) lv n).1 =
        ({ data := [], no := n, offset := lv, type := NType.seqT } :: pls1) ++
          pls2 := by
      simp [pSeq, h1, h2]
    by_cases hre : restE = []
    · subst hre
      obtain ⟨x, hx, hxt⟩ := pMap_last ms none (lv + 2) n hms hmsne
      rw [h1] at hx
      have hnil : pls2 = [] := by
        have : (pSeq ([] : List (Nat × Node)) lv pn1).1 = [] := by simp [pSeq]
        rw [h2] at this
        exact this
      refine ⟨x, ?_, hxt⟩
      rw [hdec, hnil, List.append_nil, List.getLast?_cons, hx]
      rfl
    · obtain ⟨x, hx, hxt⟩ := pSeq_last restE (i + 1) lv pn1 hrestE hre
      rw [h2] at hx
      refine ⟨x, ?_, hxt⟩
      rw [hdec, List.getLast?_append, hx]
      rfl
termination_by es _ _ _ _ _ => sizeOf es

theorem pMap_last : ∀ (es : List (Str × Node)) (op : Option Str) (lv n : Nat),
    goodMapB op es = true → es ≠ [] →
    ∃ x, ((pMap es lv n).1).getLast? = some x ∧ x.type = NType.scalarT
  | [], op, lv, n, hg, hne => absurd rfl hne
  | (k1, Node.nul) :: restE, op, lv, n, hg, hne => by
    simp [goodMapB, goodB] at hg
  | (k1, Node.scalar v) :: restE, op, lv, n, hg, hne => by
    simp only [goodMapB, Bool.and_eq_true] at hg
    obtain ⟨⟨⟨-, -⟩, -⟩, hrestE⟩ := hg
    rcases h2 : pMap restE lv (n + 1) with ⟨pls2, pn2⟩
    have hdec : (pMap ((k1, Node.scalar v) :: restE) lv n).1 =
        [{ data := k1, no := n, offset := lv, type := NType.mapT },
         { data := v, no := n, offset := localOff k1,
           type := NType.scalarT }] ++ pls2 := by
      simp [pMap, h2]
    by_cases hre : restE = []
    · subst hre
      refine ⟨{ data := v, no := n, offset := localOff k1, type := NType.scalarT }, ?_, rfl⟩
      have hnil : pls2 = [] := by
        have : (pMap ([] : List (Str × Node)) lv (n + 1)).1 = [] := by simp [pMap]
        rw [h2] at this
        exact this
      rw [hdec, hnil]
      rfl
    · obtain ⟨x, hx, hxt⟩ := pMap_last restE (some k1) lv (n + 1) hrestE hre
      rw [h2] at hx
      refine ⟨x, ?_, hxt⟩
      rw [hdec, List.getLast?_append, hx]
      rfl
  | (k1, Node.seq ss) :: restE, op, lv, n, hg, hne => by
    simp only [goodMapB, Bool.and_eq_true] at hg
    obtain ⟨⟨⟨-, -⟩, hc⟩, hrestE⟩ := hg
    have hssne : ss ≠ [] := by
      intro e
      subst e
      simp [goodB] at hc
    have hss : goodSeqB 0 ss = true := by
      rcases ss with - | e
      · exact absurd rfl hssne
      · simp only [goodB, Bool.and_eq_true] at hc
        exact hc.2
    rcases h1 : pSeq ss (lv + 2) (n + 1) with ⟨pls1, pn1⟩
    rcases h2 : pMap restE lv pn1 with ⟨pls2, pn2⟩
    have hdec : (pMap ((k1, Node.seq ss) :: restE) lv n).1 =
        ({ data := k1, no := n, offset := lv, type := NType.mapT } :: pls1) ++
          pls2 := by
      simp [pMap, h1, h2]
    by_cases hre : restE = []
    · subst hre
      obtain ⟨x, hx, hxt⟩ := pSeq_last ss 0 (lv + 2) (n + 1) hss hssne
      rw [h1] at hx
      have hnil : pls2 = [] := by
        have : (pMap ([] : List (Str × Node)) lv pn1).1 = [] := by simp [pMap]
        rw [h2] at this
        exact this
      refine ⟨x, ?_, hxt⟩
      rw [hdec, hnil, List.append_nil, List.getLast?_cons, hx]
      rfl
    · obtain ⟨x, hx, hxt⟩ := pMap_last restE (some k1) lv pn1 hrestE hre
      rw [h2] at hx
      refine ⟨x, ?_, hxt⟩
      rw [hdec, List.getLast?_append, hx]
      rfl
  | (k1, Node.map ms) :: restE, op, lv, n, hg, hne => by
    simp only [goodMapB, Bool.and_eq_true] at hg
    obtain ⟨⟨⟨-, -⟩, hc⟩, hrestE⟩ := hg
    have hmsne : ms ≠ [] := by
      intro e
      subst e
      simp [goodB] at hc
    have hms : goodMapB none ms = true := by
      rcases ms with - | e
      · exact absurd rfl hmsne
      · simp only [goodB, Bool.and_eq_true] at hc
        exact hc.2
    rcases h1 : pMap ms (lv + 2) (n + 1) with ⟨pls1, pn1⟩
    rcases h2 : pMap restE lv pn1 with ⟨pls2, pn2⟩
    have hdec : (pMap ((k1, Node.map ms) :: restE) lv n).1 =
        ({ data := k1, no := n, offset := lv, type := NType.mapT } :: pls1) ++
          pls2 := by
      simp [pMap, h1, h2]
    by_cases hre : restE = []
    · subst hre
      obtain ⟨x, hx, hxt⟩ := pMap_last ms none (lv + 2) (n + 1) hms hmsne
      rw [h1] at hx
      have hnil : pls2 = [] := by
        have : (pMap ([] : List (Str × Node)) lv pn1).1 = [] := by simp [pMap]
        rw [h2] at this
        exact this
      refine ⟨x, ?_, hxt⟩
      rw [hdec, hnil, List.append_nil, List.getLast?_cons, hx]
      rfl
    · obtain ⟨x, hx, hxt⟩ := pMap_last restE (some k1) lv pn1 hrestE hre
      rw [h2] at hx
      refine ⟨x, ?_, hxt⟩
      rw [hdec, List.getLast?_append, hx]
      rfl
termination_by es _ _ _ _ _ => sizeOf es

end


theorem processSeq_nul (fuel : Nat) (l : RL) (r : List RL) :
    processSeq fuel Node.nul (l :: r) = processSeq fuel (Node.seq []) (l :: r) := by
  cases fuel with
  | zero => rfl
  | succ f => rfl

theorem processMap_nul (fuel : Nat) (l : RL) (r : List RL) :
    processMap fuel Node.nul (l :: r) = processMap fuel (Node.map []) (l :: r) := by
  cases fuel with
  | zero => rfl
  | succ f => rfl

theorem postProcess_good (T : Node) (h : goodRootB T = true) :
    postProcess ((tRoot T).map Prod.snd) = .ok (pRoot T) := by
  match T with
  | Node.nul => simp [goodRootB, goodB] at h
  | Node.scalar v =>
    simp only [goodRootB, Bool.and_eq_true, Bool.not_eq_true',
      decide_eq_false_iff_not] at h
    obtain ⟨⟨hv, -⟩, -⟩ := h
    obtain ⟨-, hvch, -, -, hseq, -, -, -, -⟩ := goodScalar_spec hv
    have hnc : ':' ∉ v := fun hm => (goodChar_spec (hvch _ hm)).2.2.2.1 rfl
    have hT : ((tRoot (Node.scalar v)).map Prod.snd) =
        [{ data := v, no := 1, offset := 0 }] := by
      simp [tRoot]
    have hP : pRoot (Node.scalar v) =
        [{ data := v, no := 1, offset := 0, type := NType.scalarT }] := by
      simp [pRoot]
    rw [hT, hP]
    unfold postProcess
    simp only [List.length_cons, List.length_nil]
    simp only [ppGo]
    rw [ppOne_scalar_line none { data := v, no := 1, offset := 0 } [] hnc hseq
      (by intro p e; cases e) ⟨rfl, rfl, rfl⟩]
    simp [ppGo]
  | Node.seq es =>
    have hg : goodSeqB 0 es = true := by
      simp only [goodRootB, goodB, Bool.and_eq_true] at h
      exact h.2
    have hne : es ≠ [] := by
      intro e
      subst e
      simp [goodRootB, goodB] at h
    have hT : ((tRoot (Node.seq es)).map Prod.snd) = tSeqL es 0 1 := by
      simp [tRoot, tSeqL]
    have hP : pRoot (Node.seq es) = (pSeq es 0 1).1 := rfl
    rw [hT, hP]
    unfold postProcess
    have hrun := ppSeq_run es 0 0 1 [] none 1 hg (by intro p e; cases e)
      (by trivial)
    rw [List.append_nil] at hrun
    have hlen : (tSeqL es 0 1).length + 1 = 1 + (tSeqL es 0 1).length := by omega
    rw [hlen, hrun]
    obtain ⟨x, hx, hxt⟩ := pSeq_last es 0 0 1 hg hne
    simp only [ppGo, Except.map, List.append_nil]
    rw [hx]
    simp [hxt]
  | Node.map es =>
    have hg : goodMapB none es = true := by
      simp only [goodRootB, goodB, Bool.and_eq_true] at h
      exact h.2
    have hne : es ≠ [] := by
      intro e
      subst e
      simp [goodRootB, goodB] at h
    have hT : ((tRoot (Node.map es)).map Prod.snd) = tMapL es false 0 1 := by
      simp [tRoot, tMapL]
    have hP : pRoot (Node.map es) = (pMap es 0 1).1 := rfl
    rw [hT, hP]
    unfold postProcess
    have hrun := ppMap_run es none false 0 1 [] none 1 hg (by intro p e; cases e)
      (by trivial)
    rw [List.append_nil] at hrun
    have hlen : (tMapL es false 0 1).length + 1 = 1 + (tMapL es false 0 1).length := by
      omega
    rw [hlen, hrun]
    obtain ⟨x, hx, hxt⟩ := pMap_last es none 0 1 hg hne
    simp only [ppGo, Except.map, List.append_nil]
    rw [hx]
    simp [hxt]


mutual

theorem procSeq_run : ∀ (es : List (Nat × Node)) (lv n : Nat)
    (acc : List (Nat × Node)) (rest : List RL) (fuel : Nat),
    goodSeqB acc.length es = true →
    DenseFrom 0 acc →
    (match rest.head? with
     | some r => r.offset < lv
     | none => True) →
    (pSeq es lv n).1.length < fuel →
    es ≠ [] →
    processSeq fuel (Node.seq acc) ((pSeq es lv n).1 ++ rest) =
      .ok (Node.seq (acc ++ es), rest)
  | [], lv, n, acc, rest, fuel, hg, hdn, hrest, hfl, hne => absurd rfl hne
  | (kk, Node.nul) :: restE, lv, n, acc, rest, fuel, hg, hdn, hrest, hfl, hne => by
    simp [goodSeqB, goodB] at hg
  | (kk, Node.scalar v) :: restE, lv, n, acc, rest, fuel, hg, hdn, hrest, hfl, hne => by
    simp only [goodSeqB, Bool.and_eq_true, decide_eq_true_eq] at hg
    obtain ⟨⟨hkk, -⟩, hrestE⟩ := hg
    subst hkk
    rcases h2 : pSeq restE lv (n + 1) with ⟨pls2, pn2⟩
    have hP : (pSeq ((acc.length, Node.scalar v) :: restE) lv n).1 =
        { data := [], no := n, offset := lv, type := NType.seqT } ::
        ({ data := v, no := n, offset := lv + 2, type := NType.scalarT } :: pls2) := by
      simp [pSeq, h2]
    rw [hP] at hfl ⊢
    simp only [List.length_cons] at hfl
    cases fuel with
    | zero => omega
    | succ f =>
      simp only [List.cons_append]
      simp only [processSeq]
      rw [pushBackOp_dense acc hdn]
      simp only [processScalarL, assignStr_eq]
      have hassign := natMapAssign_append_last Node.nul (Node.scalar v) acc 0 hdn
      simp only [Nat.zero_add] at hassign
      simp only [Node.seqSetAt, hassign]
      by_cases hre : restE = []
      · subst hre
        have h0 : (pSeq ([] : List (Nat × Node)) lv (n + 1)).1 = [] := by simp [pSeq]
        simp only [h2] at h0
        subst h0
        cases rest with
        | nil => simp
        | cons r rs =>
          simp only [List.head?_cons] at hrest
          simp only [List.nil_append]
          rw [if_pos hrest]
      · obtain ⟨d, t, hdt, hdo, hdty⟩ := pSeq_cons restE (acc.length + 1) lv (n + 1)
          hrestE hre
        rw [h2] at hdt
        subst hdt
        simp only [List.length_cons] at hfl
        simp only [List.cons_append]
        rw [if_neg (by omega), if_neg (by omega), if_neg (by simp [hdty])]
        have HIH := procSeq_run restE lv (n + 1)
          (acc ++ [(acc.length, Node.scalar v)]) rest f
          (by simp only [List.length_append, List.length_cons, List.length_nil]
              exact hrestE)
          (by
            have := denseFrom_append (Node.scalar v) acc 0 hdn
            simpa using this)
          hrest
          (by simp only [h2, List.length_cons]; omega)
          hre
        simp only [h2, List.cons_append] at HIH
        rw [HIH]
        simp
  | (kk, Node.seq ss) :: restE, lv, n, acc, rest, fuel, hg, hdn, hrest, hfl, hne => by
    simp only [goodSeqB, Bool.and_eq_true, decide_eq_true_eq] at hg
    obtain ⟨⟨hkk, hc⟩, hrestE⟩ := hg
    subst hkk
    have hssne : ss ≠ [] := by
      intro e
      subst e
      simp [goodB] at hc
    have hss : goodSeqB 0 ss = true := by
      rcases ss with - | e
      · exact absurd rfl hssne
      · simp only [goodB, Bool.and_eq_true] at hc
        exact hc.2
    rcases h1 : pSeq ss (lv + 2) (n + 1) with ⟨pls1, pn1⟩
    rcases h2 : pSeq restE lv pn1 with ⟨pls2, pn2⟩
    have hP : (pSeq ((acc.length, Node.seq ss) :: restE) lv n).1 =
        { data := ['-'], no := n, offset := lv, type := NType.seqT } ::
        (pls1 ++ pls2) := by
      simp [pSeq, h1, h2]
    obtain ⟨dC, tC, hdtC, hdoC, hdtyC⟩ := pSeq_cons ss 0 (lv + 2) (n + 1) hss hssne
    rw [h1] at hdtC
    subst hdtC
    rw [hP] at hfl ⊢
    simp only [List.length_cons, List.length_append] at hfl
    cases fuel with
    | zero => omega
    | succ f =>
      simp only [List.cons_append, List.append_assoc]
      simp only [processSeq]
      rw [pushBackOp_dense acc hdn]
      have hbelow : (match (pls2 ++ rest).head? with
          | some r => r.offset < lv + 2
          | none => True) := by
        refine below_concat _ _ lv (lv + 2) ?_ (by omega)
          (head_below_mono rest lv (lv + 2) (by omega) hrest)
        intro d t hdt
        by_cases hre : restE = []
        · subst hre
          have h0 : (pSeq ([] : List (Nat × Node)) lv pn1).1 = [] := by simp [pSeq]
          simp only [h2] at h0
          rw [h0] at hdt
          cases hdt
        · obtain ⟨d2, t2, hdt2, hdo2, -⟩ := pSeq_cons restE (acc.length + 1) lv pn1
            hrestE hre
          rw [h2] at hdt2
          have he := hdt2.symm.trans hdt
          injection he with he1 he2
          rw [← he1]
          exact hdo2
      have HIHc := procSeq_run ss (lv + 2) (n + 1) [] (pls2 ++ rest) f hss
        trivial hbelow (by simp only [h1, List.length_cons]; omega) hssne
      simp only [h1, List.nil_append, List.cons_append] at HIHc
      simp only [hdtyC]
      rw [processSeq_nul, HIHc]
      have hassign := natMapAssign_append_last Node.nul (Node.seq ss) acc 0 hdn
      simp only [Nat.zero_add] at hassign
      simp only [Node.seqSetAt, hassign]
      by_cases hre : restE = []
      · subst hre
        have h0 : (pSeq ([] : List (Nat × Node)) lv pn1).1 = [] := by simp [pSeq]
        simp only [h2] at h0
        subst h0
        cases rest with
        | nil => simp
        | cons r rs =>
          simp only [List.head?_cons] at hrest
          simp only [List.nil_append]
          rw [if_pos hrest]
      · obtain ⟨d, t, hdt, hdo, hdty⟩ := pSeq_cons restE (acc.length + 1) lv pn1
          hrestE hre
        rw [h2] at hdt
        subst hdt
        simp only [List.length_cons] at hfl
        simp only [List.cons_append]
        rw [if_neg (by omega), if_neg (by omega), if_neg (by simp [hdty])]
        have HIH := procSeq_run restE lv pn1
          (acc ++ [(acc.length, Node.seq ss)]) rest f
          (by simp only [List.length_append, List.length_cons, List.length_nil]
              exact hrestE)
          (by
            have := denseFrom_append (Node.seq ss) acc 0 hdn
            simpa using this)
          hrest
          (by simp only [h2, List.length_cons]; omega)
          hre
        simp only [h2, List.cons_append] at HIH
        rw [HIH]
        simp
  | (kk, Node.map ms) :: restE, lv, n, acc, rest, fuel, hg, hdn, hrest, hfl, hne => by
    simp only [goodSeqB, Bool.and_eq_true, decide_eq_true_eq] at hg
    obtain ⟨⟨hkk, hc⟩, hrestE⟩ := hg
    subst hkk
    have hmsne : ms ≠ [] := by
      intro e
      subst e
      simp [goodB] at hc
    have hms : goodMapB none ms = true := by
      rcases ms with - | e
      · exact absurd rfl hmsne
      · simp only [goodB, Bool.and_eq_true] at hc
        exact hc.2
    rcases h1 : pMap ms (lv + 2) n with ⟨pls1, pn1⟩
    rcases h2 : pSeq restE lv pn1 with ⟨pls2, pn2⟩
    have hP : (pSeq ((acc.length, Node.map ms) :: restE) lv n).1 =
        { data := [], no := n, offset := lv, type := NType.seqT } ::
        (pls1 ++ pls2) := by
      simp [pSeq, h1, h2]
    obtain ⟨dC, tC, hdtC, hdoC, hdtyC⟩ := pMap_cons ms none (lv + 2) n hms hmsne
    rw [h1] at hdtC
    subst hdtC
    rw [hP] at hfl ⊢
    simp only [List.length_cons, List.length_append] at hfl
    cases fuel with
    | zero => omega
    | succ f =>
      simp only [List.cons_append, List.append_assoc]
      simp only [processSeq]
      rw [pushBackOp_dense acc hdn]
      have hbelow : (match (pls2 ++ rest).head? with
          | some r => r.offset < lv + 2
          | none => True) := by
        refine below_concat _ _ lv (lv + 2) ?_ (by omega)
          (head_below_mono rest lv (lv + 2) (by omega) hrest)
        intro d t hdt
        by_cases hre : restE = []
        · subst hre
          have h0 : (pSeq ([] : List (Nat × Node)) lv pn1).1 = [] := by simp [pSeq]
          simp only [h2] at h0
          rw [h0] at hdt
          cases hdt
        · obtain ⟨d2, t2, hdt2, hdo2, -⟩ := pSeq_cons restE (acc.length + 1) lv pn1
            hrestE hre
          rw [h2] at hdt2
          have he := hdt2.symm.trans hdt
          injection he with he1 he2
          rw [← he1]
          exact hdo2
      have HIHc := procMap_run ms none (lv + 2) n [] (pls2 ++ rest) f hms
        (by intro a ha; simp at ha) hbelow
        (by simp only [h1, List.length_cons]; omega) hmsne
      simp only [h1, List.nil_append, List.cons_append] at HIHc
      simp only [hdtyC]
      rw [processMap_nul, HIHc]
      have hassign := natMapAssign_append_last Node.nul (Node.map ms) acc 0 hdn
      simp only [Nat.zero_add] at hassign
      simp only [Node.seqSetAt, hassign]
      by_cases hre : restE = []
      · subst hre
        have h0 : (pSeq ([] : List (Nat × Node)) lv pn1).1 = [] := by simp [pSeq]
        simp only [h2] at h0
        subst h0
        cases rest with
        | nil => simp
        | cons r rs =>
          simp only [List.head?_cons] at hrest
          simp only [List.nil_append]
          rw [if_pos hrest]
      · obtain ⟨d, t, hdt, hdo, hdty⟩ := pSeq_cons restE (acc.length + 1) lv pn1
          hrestE hre
        rw [h2] at hdt
        subst hdt
        simp only [List.length_cons] at hfl
        simp only [List.cons_append]
        rw [if_neg (by omega), if_neg (by omega), if_neg (by simp [hdty])]
        have HIH := procSeq_run restE lv pn1
          (acc ++ [(acc.length, Node.map ms)]) rest f
          (by simp only [List.length_append, List.length_cons, List.length_nil]
              exact hrestE)
          (by
            have := denseFrom_append (Node.map ms) acc 0 hdn
            simpa using this)
          hrest
          (by simp only [h2, List.length_cons]; omega)
          hre
        simp only [h2, List.cons_append] at HIH
        rw [HIH]
        simp
termination_by es _ _ _ _ _ _ _ _ _ _ => sizeOf es

theorem procMap_run : ∀ (es : List (Str × Node)) (op : Option Str) (lv n : Nat)
    (acc : List (Str × Node)) (rest : List RL) (fuel : Nat),
    goodMapB op es = true →
    (∀ a ∈ acc.map Prod.fst, ∀ b ∈ es.map Prod.fst, strLtB a b = true) →
    (match rest.head? with
     | some r => r.offset < lv
     | none => True) →
    (pMap es lv n).1.length < fuel →
    es ≠ [] →
    processMap fuel (Node.map acc) ((pMap es lv n).1 ++ rest) =
      .ok (Node.map (acc ++ es), rest)
  | [], op, lv, n, acc, rest, fuel, hg, hacc, hrest, hfl, hne => absurd rfl hne
  | (k1, Node.nul) :: restE, op, lv, n, acc, rest, fuel, hg, hacc, hrest, hfl, hne => by
    simp [goodMapB, goodB] at hg
  | (k1, Node.scalar v) :: restE, op, lv, n, acc, rest, fuel, hg, hacc, hrest, hfl,
      hne => by
    simp only [goodMapB, Bool.and_eq_true] at hg
    obtain ⟨⟨-, -⟩, hrestE⟩ := hg
    rcases h2 : pMap restE lv (n + 1) with ⟨pls2, pn2⟩
    have hP : (pMap ((k1, Node.scalar v) :: restE) lv n).1 =
        { data := k1, no := n, offset := lv, type := NType.mapT } ::
        ({ data := v, no := n, offset := localOff k1, type := NType.scalarT } ::
          pls2) := by
      simp [pMap, h2]
    rw [hP] at hfl ⊢
    simp only [List.length_cons] at hfl
    have hk1mem : k1 ∈ ((k1, Node.scalar v) :: restE).map Prod.fst := by
      simp only [List.map_cons, List.mem_cons]
      exact Or.inl trivial
    have hfind : strMapFind acc k1 = none :=
      strMapFind_none_of_lt k1 acc (fun a ha => hacc a ha k1 hk1mem)
    have hins := strMapInsertNew_append_all k1 Node.nul acc
      (fun a ha => hacc a ha k1 hk1mem)
    have hassign := strMapAssign_append_all k1 Node.nul (Node.scalar v) acc
      (fun a ha => hacc a ha k1 hk1mem)
    cases fuel with
    | zero => omega
    | succ f =>
      simp only [List.cons_append]
      simp only [processMap]
      simp only [Node.getKeyOp, initMapN, mapGetNodeE, hfind, hins]
      simp only [processScalarL, assignStr_eq]
      simp only [Node.mapSetAt, hassign]
      by_cases hre : restE = []
      · subst hre
        have h0 : (pMap ([] : List (Str × Node)) lv (n + 1)).1 = [] := by simp [pMap]
        simp only [h2] at h0
        subst h0
        cases rest with
        | nil => simp
        | cons r rs =>
          simp only [List.head?_cons] at hrest
          simp only [List.nil_append]
          rw [if_pos hrest]
      · obtain ⟨d, t, hdt, hdo, hdty⟩ := pMap_cons restE (some k1) lv (n + 1)
          hrestE hre
        rw [h2] at hdt
        subst hdt
        simp only [List.length_cons] at hfl
        simp only [List.cons_append]
        rw [if_neg (by omega), if_neg (by omega), if_neg (by simp [hdty])]
        have hacc2 : ∀ a ∈ (acc ++ [(k1, Node.scalar v)]).map Prod.fst,
            ∀ b ∈ restE.map Prod.fst, strLtB a b = true := by
          intro a ha b hb
          simp only [List.map_append, List.map_cons, List.map_nil,
            List.mem_append, List.mem_cons] at ha
          rcases ha with ha | ha
          · exact hacc a ha b
              (by simp only [List.map_cons, List.mem_cons]; exact Or.inr hb)
          · rcases ha with ha | ha
            · rw [ha]
              exact goodMapB_key_lt restE k1 hrestE b hb
            · simp at ha
        have HIH := procMap_run restE (some k1) lv (n + 1)
          (acc ++ [(k1, Node.scalar v)]) rest f hrestE hacc2 hrest
          (by simp only [h2, List.length_cons]; omega)
          hre
        simp only [h2, List.cons_append] at HIH
        rw [HIH]
        simp
  | (k1, Node.seq ss) :: restE, op, lv, n, acc, rest, fuel, hg, hacc, hrest, hfl,
      hne => by
    simp only [goodMapB, Bool.and_eq_true] at hg
    obtain ⟨⟨-, hc⟩, hrestE⟩ := hg
    have hssne : ss ≠ [] := by
      intro e
      subst e
      simp [goodB] at hc
    have hss : goodSeqB 0 ss = true := by
      rcases ss with - | e
      · exact absurd rfl hssne
      · simp only [goodB, Bool.and_eq_true] at hc
        exact hc.2
    rcases h1 : pSeq ss (lv + 2) (n + 1) with ⟨pls1, pn1⟩
    rcases h2 : pMap restE lv pn1 with ⟨pls2, pn2⟩
    have hP : (pMap ((k1, Node.seq ss) :: restE) lv n).1 =
        { data := k1, no := n, offset := lv, type := NType.mapT } ::
        (pls1 ++ pls2) := by
      simp [pMap, h1, h2]
    obtain ⟨dC, tC, hdtC, hdoC, hdtyC⟩ := pSeq_cons ss 0 (lv + 2) (n + 1) hss hssne
    rw [h1] at hdtC
    subst hdtC
    rw [hP] at hfl ⊢
    simp only [List.length_cons, List.length_append] at hfl
    have hk1mem : k1 ∈ ((k1, Node.seq ss) :: restE).map Prod.fst := by
      simp only [List.map_cons, List.mem_cons]
      exact Or.inl trivial
    have hfind : strMapFind acc k1 = none :=
      strMapFind_none_of_lt k1 acc (fun a ha => hacc a ha k1 hk1mem)
    have hins := strMapInsertNew_append_all k1 Node.nul acc
      (fun a ha => hacc a ha k1 hk1mem)
    have hassign := strMapAssign_append_all k1 Node.nul (Node.seq ss) acc
      (fun a ha => hacc a ha k1 hk1mem)
    cases fuel with
    | zero => omega
    | succ f =>
      simp only [List.cons_append, List.append_assoc]
      simp only [processMap]
      simp only [Node.getKeyOp, initMapN, mapGetNodeE, hfind, hins]
      have hbelow : (match (pls2 ++ rest).head? with
          | some r => r.offset < lv + 2
          | none => True) := by
        refine below_concat _ _ lv (lv + 2) ?_ (by omega)
          (head_below_mono rest lv (lv + 2) (by omega) hrest)
        intro d t hdt
        by_cases hre : restE = []
        · subst hre
          have h0 : (pMap ([] : List (Str × Node)) lv pn1).1 = [] := by simp [pMap]
          simp only [h2] at h0
          rw [h0] at hdt
          cases hdt
        · obtain ⟨d2, t2, hdt2, hdo2, -⟩ := pMap_cons restE (some k1) lv pn1
            hrestE hre
          rw [h2] at hdt2
          have he := hdt2.symm.trans hdt
          injection he with he1 he2
          rw [← he1]
          exact hdo2
      have HIHc := procSeq_run ss (lv + 2) (n + 1) [] (pls2 ++ rest) f hss
        trivial hbelow (by simp only [h1, List.length_cons]; omega) hssne
      simp only [h1, List.nil_append, List.cons_append] at HIHc
      simp only [hdtyC]
      rw [processSeq_nul, HIHc]
      simp only [Node.mapSetAt, hassign]
      by_cases hre : restE = []
      · subst hre
        have h0 : (pMap ([] : List (Str × Node)) lv pn1).1 = [] := by simp [pMap]
        simp only [h2] at h0
        subst h0
        cases rest with
        | nil => simp
        | cons r rs =>
          simp only [List.head?_cons] at hrest
          simp only [List.nil_append]
          rw [if_pos hrest]
      · obtain ⟨d, t, hdt, hdo, hdty⟩ := pMap_cons restE (some k1) lv pn1
          hrestE hre
        rw [h2] at hdt
        subst hdt
        simp only [List.length_cons] at hfl
        simp only [List.cons_append]
        rw [if_neg (by omega), if_neg (by omega), if_neg (by simp [hdty])]
        have hacc2 : ∀ a ∈ (acc ++ [(k1, Node.seq ss)]).map Prod.fst,
            ∀ b ∈ restE.map Prod.fst, strLtB a b = true := by
          intro a ha b hb
          simp only [List.map_append, List.map_cons, List.map_nil,
            List.mem_append, List.mem_cons] at ha
          rcases ha with ha | ha
          · exact hacc a ha b
              (by simp only [List.map_cons, List.mem_cons]; exact Or.inr hb)
          · rcases ha with ha | ha
            · rw [ha]
              exact goodMapB_key_lt restE k1 hrestE b hb
            · simp at ha
        have HIH := procMap_run restE (some k1) lv pn1
          (acc ++ [(k1, Node.seq ss)]) rest f hrestE hacc2 hrest
          (by simp only [h2, List.length_cons]; omega)
          hre
        simp only [h2, List.cons_append] at HIH
        rw [HIH]
        simp
  | (k1, Node.map ms) :: restE, op, lv, n, acc, rest, fuel, hg, hacc, hrest, hfl,
      hne => by
    simp only [goodMapB, Bool.and_eq_true] at hg
    obtain ⟨⟨-, hc⟩, hrestE⟩ := hg
    have hmsne : ms ≠ [] := by
      intro e
      subst e
      simp [goodB] at hc
    have hms : goodMapB none ms = true := by
      rcases ms with - | e
      · exact absurd rfl hmsne
      · simp only [goodB, Bool.and_eq_true] at hc
        exact hc.2
    rcases h1 : pMap ms (lv + 2) (n + 1) with ⟨pls1, pn1⟩
    rcases h2 : pMap restE lv pn1 with ⟨pls2, pn2⟩
    have hP : (pMap ((k1, Node.map ms) :: restE) lv n).1 =
        { data := k1, no := n, offset := lv, type := NType.mapT } ::
        (pls1 ++ pls2) := by
      simp [pMap, h1, h2]
    obtain ⟨dC, tC, hdtC, hdoC, hdtyC⟩ := pMap_cons ms none (lv + 2) (n + 1) hms hmsne
    rw [h1] at hdtC
    subst hdtC
    rw [hP] at hfl ⊢
    simp only [List.length_cons, List.length_append] at hfl
    have hk1mem : k1 ∈ ((k1, Node.map ms) :: restE).map Prod.fst := by
      simp only [List.map_cons, List.mem_cons]
      exact Or.inl trivial
    have hfind : strMapFind acc k1 = none :=
      strMapFind_none_of_lt k1 acc (fun a ha => hacc a ha k1 hk1mem)
    have hins := strMapInsertNew_append_all k1 Node.nul acc
      (fun a ha => hacc a ha k1 hk1mem)
    have hassign := strMapAssign_append_all k1 Node.nul (Node.map ms) acc
      (fun a ha => hacc a ha k1 hk1mem)
    cases fuel with
    | zero => omega
    | succ f =>
      simp only [List.cons_append, List.append_assoc]
      simp only [processMap]
      simp only [Node.getKeyOp, initMapN, mapGetNodeE, hfind, hins]
      have hbelow : (match (pls2 ++ rest).head? with
          | some r => r.offset < lv + 2
          | none => True) := by
        refine below_concat _ _ lv (lv + 2) ?_ (by omega)
          (head_below_mono rest lv (lv + 2) (by omega) hrest)
        intro d t hdt
        by_cases hre : restE = []
        · subst hre
          have h0 : (pMap ([] : List (Str × Node)) lv pn1).1 = [] := by simp [pMap]
          simp only [h2] at h0
          rw [h0] at hdt
          cases hdt
        · obtain ⟨d2, t2, hdt2, hdo2, -⟩ := pMap_cons restE (some k1) lv pn1
            hrestE hre
          rw [h2] at hdt2
          have he := hdt2.symm.trans hdt
          injection he with he1 he2
          rw [← he1]
          exact hdo2
      have HIHc := procMap_run ms none (lv + 2) (n + 1) [] (pls2 ++ rest) f hms
        (by intro a ha; simp at ha) hbelow
        (by simp only [h1, List.length_cons]; omega) hmsne
      simp only [h1, List.nil_append, List.cons_append] at HIHc
      simp only [hdtyC]
      rw [processMap_nul, HIHc]
      simp only [Node.mapSetAt, hassign]
      by_cases hre : restE = []
      · subst hre
        have h0 : (pMap ([] : List (Str × Node)) lv pn1).1 = [] := by simp [pMap]
        simp only [h2] at h0
        subst h0
        cases rest with
        | nil => simp
        | cons r rs =>
          simp only [List.head?_cons] at hrest
          simp only [List.nil_append]
          rw [if_pos hrest]
      · obtain ⟨d, t, hdt, hdo, hdty⟩ := pMap_cons restE (some k1) lv pn1
          hrestE hre
        rw [h2] at hdt
        subst hdt
        simp only [List.length_cons] at hfl
        simp only [List.cons_append]
        rw [if_neg (by omega), if_neg (by omega), if_neg (by simp [hdty])]
        have hacc2 : ∀ a ∈ (acc ++ [(k1, Node.map ms)]).map Prod.fst,
            ∀ b ∈ restE.map Prod.fst, strLtB a b = true := by
          intro a ha b hb
          simp only [List.map_append, List.map_cons, List.map_nil,
            List.mem_append, List.mem_cons] at ha
          rcases ha with ha | ha
          · exact hacc a ha b
              (by simp only [List.map_cons, List.mem_cons]; exact Or.inr hb)
          · rcases ha with ha | ha
            · rw [ha]
              exact goodMapB_key_lt restE k1 hrestE b hb
            · simp at ha
        have HIH := procMap_run restE (some k1) lv pn1
          (acc ++ [(k1, Node.map ms)]) rest f hrestE hacc2 hrest
          (by simp only [h2, List.length_cons]; omega)
          hre
        simp only [h2, List.cons_append] at HIH
        rw [HIH]
        simp
termination_by es _ _ _ _ _ _ _ _ _ _ _ => sizeOf es

end


theorem processRoot_good (T : Node) (h : goodRootB T = true) :
    processRoot Node.nul (pRoot T) = .ok T := by
  match T with
  | Node.nul => simp [goodRootB, goodB] at h
  | Node.scalar v =>
    simp [processRoot, pRoot, processScalarL, assignStr_eq]
  | Node.seq es =>
    have hg : goodSeqB 0 es = true := by
      simp only [goodRootB, goodB, Bool.and_eq_true] at h
      exact h.2
    have hne : es ≠ [] := by
      intro e
      subst e
      simp [goodRootB, goodB] at h
    obtain ⟨d, t, hdt, hdo, hdty⟩ := pSeq_cons es 0 0 1 hg hne
    have hP : pRoot (Node.seq es) = (pSeq es 0 1).1 := rfl
    rw [hP, hdt]
    simp only [processRoot, hdty]
    rw [processSeq_nul, ← hdt]
    have HIH := procSeq_run es 0 1 [] [] (2 * (pSeq es 0 1).1.length + 2)
      hg trivial trivial (by omega) hne
    simp only [List.append_nil, List.nil_append] at HIH
    rw [HIH]
    simp
  | Node.map es =>
    have hg : goodMapB none es = true := by
      simp only [goodRootB, goodB, Bool.and_eq_true] at h
      exact h.2
    have hne : es ≠ [] := by
      intro e
      subst e
      simp [goodRootB, goodB] at h
    obtain ⟨d, t, hdt, hdo, hdty⟩ := pMap_cons es none 0 1 hg hne
    have hP : pRoot (Node.map es) = (pMap es 0 1).1 := rfl
    rw [hP, hdt]
    simp only [processRoot, hdty]
    rw [processMap_nul, ← hdt]
    have HIH := procMap_run es none 0 1 [] [] (2 * (pMap es 0 1).1.length + 2)
      hg (by intro a ha; simp at ha) trivial (by omega) hne
    simp only [List.append_nil, List.nil_append] at HIH
    rw [HIH]
    simp

theorem parseTop_good (T : Node) (h : goodRootB T = true) :
    parseTop (serNode T false 0 cfg0) = POut.ok T (pRoot T) := by
  have hclear : Node.nul.clearN = Node.nul := rfl
  simp only [parseTop, readLines_of_ser T h, postProcess_good T h, hclear,
    processRoot_good T h]


/-- Counterexample to the literal claim: the scalar payload `- a` is
drawn from printable ASCII minus `"`, `:`, `#` and newline, yet parsing
the serialization of `{k: - a}` fails with `BlockSequenceNotAllowed`,
because the serializer emits the payload unquoted and the parser then
reads the line `k: - a` as a key whose value opens a block sequence. -/
theorem c2_counterexample :
    (∀ c ∈ ['-', ' ', 'a'], 32 ≤ c.val ∧ c.val ≤ 126 ∧
      c ≠ '"' ∧ c ≠ ':' ∧ c ≠ '#' ∧ c ≠ '\n') ∧
    serializeTop (Node.map [(['k'], Node.scalar ['-', ' ', 'a'])]) cfg0 =
      Except.ok ['k', ':', ' ', '-', ' ', 'a', '\n'] ∧
    parseTop ['k', ':', ' ', '-', ' ', 'a', '\n'] =
      POut.failed Err.blockSequenceNotAllowed Node.nul [] ∧
    parseRoot ['k', ':', ' ', '-', ' ', 'a', '\n'] = none := by
  refine ⟨by decide, rfl, rfl, rfl⟩

/-- C2: as stated the round-trip claim fails (see `c2_counterexample`:
unquoted scalars that look like block markers break it, as do empty
containers, edge spaces, duplicate-free key order and more).  It holds
on the good trees described by `goodRootB`: scalar payloads nonempty,
over printable ASCII below 126 minus `"`, `:`, `#` (hence no newline),
without edge spaces, not starting `- ` and not a block header or (at
the root) a document marker; keys additionally without backslash;
containers nonempty, sequences indexed `0..n-1`, map keys strictly
ascending.  For such trees serialization succeeds and parsing its
output returns exactly the original tree. -/
theorem c2_roundtrip (T : Node) (h : goodRootB T = true) :
    serializeTop T cfg0 = Except.ok (serNode T false 0 cfg0) ∧
    parseRoot (serNode T false 0 cfg0) = some T := by
  constructor
  · rfl
  · unfold parseRoot
    rw [parseTop_good T h]

/-- The round-trip theorem applied to a concrete three-level tree. -/
theorem c2_roundtrip_witness :
    goodRootB (Node.map [(['a'], Node.scalar ['1']),
      (['b'], Node.seq [(0, Node.scalar ['x']),
        (1, Node.map [(['k'], Node.scalar ['v'])])])]) = true ∧
    (serializeTop (Node.map [(['a'], Node.scalar ['1']),
        (['b'], Node.seq [(0, Node.scalar ['x']),
          (1, Node.map [(['k'], Node.scalar ['v'])])])]) cfg0 =
      Except.ok (serNode (Node.map [(['a'], Node.scalar ['1']),
        (['b'], Node.seq [(0, Node.scalar ['x']),
          (1, Node.map [(['k'], Node.scalar ['v'])])])]) false 0 cfg0) ∧
    parseRoot (serNode (Node.map [(['a'], Node.scalar ['1']),
        (['b'], Node.seq [(0, Node.scalar ['x']),
          (1, Node.map [(['k'], Node.scalar ['v'])])])]) false 0 cfg0) =
      some (Node.map [(['a'], Node.scalar ['1']),
        (['b'], Node.seq [(0, Node.scalar ['x']),
          (1, Node.map [(['k'], Node.scalar ['v'])])])])) :=
  ⟨by decide, c2_roundtrip (Node.map [(['a'], Node.scalar ['1']),
      (['b'], Node.seq [(0, Node.scalar ['x']),
        (1, Node.map [(['k'], Node.scalar ['v'])])])]) (by decide)⟩

end MiniYaml
